import Mathlib

/-!
Verification development for the node-graph engine of the UE5LMS visual
blueprint/material editor.  The authoritative code is the JavaScript
`graph.js` body embedded in `scripts/restore_graph.py` (classes
`WiringController` and `GraphController`, plus `Node.getPinsData`).  The
`Pin`/`Node` constructors, `Utils.uniqueId`, `Utils.getConversionNodeKey`
and the node-type catalog live in the portion of `graph.js` that the
repository does not contain; those definitions are modelled from the spec
and are marked as such.

Modelling conventions:
* JavaScript `Map`s are association lists kept in insertion order
  (`set` overwrites in place, otherwise appends; `delete` filters).
* JavaScript object identity for `Pin` objects is modelled by a pin heap:
  pins live in an association list keyed by a natural-number reference,
  nodes hold lists of references, links hold the two endpoint references.
  Mutating a pin through any alias is a single heap update.
* `Utils.uniqueId(prefix)` results (`` `${prefix}-${n}` `` strings in the
  source) are modelled structurally as a (prefix, counter) pair `UId`, and
  a full pin identifier (`` `${nodeId}-${localId}` `` in the source) as a
  (node id, local id) pair `FullPinId`.  `GraphController.findPinById`'s
  reconstruction of the node id from the first two `-`-separated parts of
  a full pin id, and `getPinsData`'s stripping of the `` `${nodeId}-` ``
  prefix, become projections of these pairs.
* DOM/SVG work (element creation, wire drawing, classList, geometry) and
  the external `details`/`actionMenu` collaborators are outside the model;
  `persistence.autoSave()` and `compiler.markDirty()` are modelled as
  counters in the state so that notification behaviour is provable.
-/

namespace VG

/-- A `Utils.uniqueId(prefix)` result, `` `${prefix}-${n}` `` in the source,
represented structurally. -/
structure UId where
  pre : String
  num : Nat
deriving DecidableEq, Repr

/-- A full pin identifier, `` `${nodeId}-${localId}` `` in the source. -/
structure FullPinId where
  node : UId
  loc : String
deriving DecidableEq, Repr

/-- Pin direction tag, `'in'` / `'out'` in the source. -/
inductive PinDir where
  | input
  | output
deriving DecidableEq, Repr

/-- A pin spec inside a catalog template (id is node-local). -/
structure PinSpec where
  id : String
  name : String
  ty : String
  dir : PinDir
  containerType : String
  defaultValue : Option String
  isCustom : Bool
deriving DecidableEq, Repr

/-- A node-type catalog template, as consumed from `nodeRegistry.get`. -/
structure NodeTemplate where
  title : String
  pins : List PinSpec
  isSingleton : Bool
deriving DecidableEq, Repr

/-- Modelled from the spec: the node-type catalog (`nodeRegistry`) and the
type-conversion registry (`Utils.getConversionNodeKey`) are external
collaborators not present in `src/`; they are injected as functions. -/
structure Catalog where
  get : String → Option NodeTemplate
  conv : String → String → Option String

/-- A live `Pin` object.  The source pin also holds a reference to its
owning node; the model stores the owner's id inside `id.node`. -/
structure Pin where
  id : FullPinId
  name : String
  ty : String
  dir : PinDir
  containerType : String
  defaultValue : Option String
  links : List UId
  isCustom : Bool
deriving DecidableEq, Repr

/-- A link; `startPin`/`endPin` are pin-heap references (JS object
references in the source). -/
structure Link where
  id : UId
  startPin : Nat
  endPin : Nat
deriving DecidableEq, Repr

/-- A live `Node` object.  `pins` holds pin-heap references;
`pinLiterals` is the node's `Map` from full pin id to literal value
(`none` models a stored `undefined`). -/
structure Node where
  id : UId
  x : Int
  y : Int
  nodeKey : String
  title : String
  pins : List Nat
  pinLiterals : List (FullPinId × Option String)
deriving DecidableEq, Repr

/-- The combined state of `GraphController` and `WiringController`:
`nodes` and `links` are the two insertion-ordered `Map`s, `pinHeap` the
modelled JS heap of pin objects, `selectedNodes`/`selectedLinks` the two
selection `Set`s, `counter` the `Utils.uniqueId` counter, and
`dirtyCount`/`saveCount` count `compiler.markDirty()` /
`persistence.autoSave()` notifications. -/
structure GraphState where
  nodes : List (UId × Node)
  pinHeap : List (Nat × Pin)
  nextRef : Nat
  links : List (UId × Link)
  selectedNodes : List UId
  selectedLinks : List UId
  counter : Nat
  dirtyCount : Nat
  saveCount : Nat
deriving DecidableEq, Repr

/-- The empty editor state. -/
def emptyState : GraphState :=
  { nodes := [], pinHeap := [], nextRef := 0, links := [],
    selectedNodes := [], selectedLinks := [], counter := 0,
    dirtyCount := 0, saveCount := 0 }

/-- `Map.get`: first binding of the key in an insertion-ordered
association list. -/
def lookupA {α β : Type} [DecidableEq α] : List (α × β) → α → Option β
  | [], _ => none
  | (k, v) :: rest, a => if k = a then some v else lookupA rest a

/-- `Map.set`: overwrite in place if the key is bound, else append. -/
def setA {α β : Type} [DecidableEq α] : List (α × β) → α → β → List (α × β)
  | [], a, b => [(a, b)]
  | (k, v) :: rest, a, b =>
    if k = a then (k, b) :: rest else (k, v) :: setA rest a b

/-- `Map.delete`: drop every binding of the key. -/
def eraseA {α β : Type} [DecidableEq α] (l : List (α × β)) (a : α) :
    List (α × β) :=
  l.filter (fun kv => decide (kv.1 ≠ a))

/-- Modelled from the spec: `Utils.uniqueId(prefix)` draws from a global
counter; the source renders the result as `` `${prefix}-${n}` ``. -/
def uniqueId (pre : String) (s : GraphState) : UId × GraphState :=
  (⟨pre, s.counter⟩, { s with counter := s.counter + 1 })

/-- Dereference a pin-heap reference. -/
def heapGet (s : GraphState) (r : Nat) : Option Pin :=
  lookupA s.pinHeap r

/-- Overwrite a pin-heap cell. -/
def heapSet (s : GraphState) (r : Nat) (p : Pin) : GraphState :=
  { s with pinHeap := setA s.pinHeap r p }

/-- Allocate a fresh pin object (`new Pin(...)` in the source). -/
def allocPin (s : GraphState) (p : Pin) : Nat × GraphState :=
  (s.nextRef,
   { s with pinHeap := s.pinHeap ++ [(s.nextRef, p)],
            nextRef := s.nextRef + 1 })

/-- Update a pin's `links` array through a reference (the only field the
wiring code mutates on an existing pin). -/
def modifyPinLinks (s : GraphState) (r : Nat) (f : List UId → List UId) :
    GraphState :=
  match heapGet s r with
  | some p => heapSet s r { p with links := f p.links }
  | none => s

/-- The id of the pin a reference points at, if live. -/
def pinIdAt (s : GraphState) (r : Nat) : Option FullPinId :=
  (heapGet s r).map Pin.id

/-- The id of the node owning the pin a reference points at
(`pin.node.id` in the source). -/
def pinNodeId (s : GraphState) (r : Nat) : Option UId :=
  (heapGet s r).map (fun p => p.id.node)

/-- Modelled from the spec: the `Pin` constructor (`new Pin(node, spec)`)
is part of `graph.js` missing from `src/`; per the spec a pin carries the
template pin spec's fields, a full identifier scoped as
`<nodeId>-<localId>`, and an initially empty link list. -/
def mkPin (nid : UId) (sp : PinSpec) : Pin :=
  { id := ⟨nid, sp.id⟩, name := sp.name, ty := sp.ty, dir := sp.dir,
    containerType := sp.containerType, defaultValue := sp.defaultValue,
    links := [], isCustom := sp.isCustom }

/-- Allocate one `Pin` per template pin spec, in order, extending the
reference list threaded through the accumulator. -/
def allocPins (nid : UId) (specs : List PinSpec)
    (acc : List Nat × GraphState) : List Nat × GraphState :=
  specs.foldl
    (fun (acc : List Nat × GraphState) sp =>
      let pr := allocPin acc.2 (mkPin nid sp)
      (acc.1 ++ [pr.1], pr.2))
    acc

/-- Modelled from the spec: the `Node` constructor is part of `graph.js`
missing from `src/`; per the spec a node instantiates one `Pin` per
template pin spec (in order) and keeps a per-pin literal map, initially
holding each pin's default literal value. -/
def mkNode (s : GraphState) (nid : UId) (title : String)
    (specs : List PinSpec) (x y : Int) (key : String) :
    Node × GraphState :=
  let acc := allocPins nid specs ([], s)
  ({ id := nid, x := x, y := y, nodeKey := key, title := title,
     pins := acc.1,
     pinLiterals := specs.map (fun sp => (⟨nid, sp.id⟩, sp.defaultValue)) },
   acc.2)

/-- `node.pinLiterals.get(pid)`: `undefined` both when the key is absent
and when `undefined` was stored. -/
def litGet (n : Node) (pid : FullPinId) : Option String :=
  match lookupA n.pinLiterals pid with
  | some v => v
  | none => none

/-- `node.pinLiterals.set(pid, v)`. -/
def litSet (n : Node) (pid : FullPinId) (v : Option String) : Node :=
  { n with pinLiterals := setA n.pinLiterals pid v }

/-- `Node.findPinById(fullId)`: find the node's pin with the given full
identifier (the model returns its heap reference). -/
def nodeFindPinById (s : GraphState) (n : Node) (pid : FullPinId) :
    Option Nat :=
  n.pins.find? (fun r => decide (pinIdAt s r = some pid))

/-- `GraphController.findPinById(pinId)`: null-guard, then split the full
id into its node id and look the pin up on that node.  The source's
split on `-` is the projection `pid.node` here. -/
def findPinById (s : GraphState) (pid : Option FullPinId) : Option Nat :=
  match pid with
  | none => none
  | some pid =>
    match lookupA s.nodes pid.node with
    | none => none
    | some n => nodeFindPinById s n pid

/-- The values of the link `Map`, in insertion order
(`[...this.links.values()]`). -/
def linkVals (s : GraphState) : List Link :=
  s.links.map Prod.snd

/-- `WiringController.findLink(linkId)`. -/
def findLink (s : GraphState) (linkId : UId) : Option Link :=
  lookupA s.links linkId

/-- `WiringController.findLinksByNodeId(nodeId)`: links whose start or end
pin belongs to the node. -/
def findLinksByNodeId (s : GraphState) (nodeId : UId) : List Link :=
  (linkVals s).filter (fun l =>
    decide (pinNodeId s l.startPin = some nodeId) ||
    decide (pinNodeId s l.endPin = some nodeId))

/-- `WiringController.findLinksByPinId(pinId)`. -/
def findLinksByPinId (s : GraphState) (pid : FullPinId) : List Link :=
  (linkVals s).filter (fun l =>
    decide (pinIdAt s l.startPin = some pid) ||
    decide (pinIdAt s l.endPin = some pid))

/-- `WiringController._addLink(startPin, endPin)`: register a fresh link
and push its id onto both endpoint pins' link lists. -/
def _addLink (s : GraphState) (startRef endRef : Nat) : GraphState :=
  let pr := uniqueId "link" s
  let lid := pr.1
  let link : Link := ⟨lid, startRef, endRef⟩
  let s := { pr.2 with links := setA pr.2.links lid link }
  let s := modifyPinLinks s startRef (fun ls => ls ++ [lid])
  modifyPinLinks s endRef (fun ls => ls ++ [lid])

/-- `WiringController.breakLinkById(linkId)`: filter the id out of both
endpoint pins' link lists, drop the link from the collection and the link
selection, then (in a deferred animation frame) fire `autoSave` and
`markDirty`.  Wire-element removal and visual refresh are presentation. -/
def breakLinkById (s : GraphState) (linkId : UId) : GraphState :=
  match lookupA s.links linkId with
  | none => s
  | some link =>
    let s := modifyPinLinks s link.startPin
      (fun ls => ls.filter (fun i => decide (i ≠ linkId)))
    let s := modifyPinLinks s link.endPin
      (fun ls => ls.filter (fun i => decide (i ≠ linkId)))
    let s := { s with
      links := eraseA s.links linkId,
      selectedLinks := s.selectedLinks.filter (fun i => decide (i ≠ linkId)) }
    { s with saveCount := s.saveCount + 1, dirtyCount := s.dirtyCount + 1 }

/-- One step of `breakPinLinks`: break the snapshotted link by id. -/
def breakLinkStep (s : GraphState) (l : Link) : GraphState :=
  breakLinkById s l.id

/-- `WiringController.breakPinLinks(pinId)`: break every link touching the
pin (snapshot first, then break one by one). -/
def breakPinLinks (s : GraphState) (pid : FullPinId) : GraphState :=
  (findLinksByPinId s pid).foldl breakLinkStep s

/-- `WiringController.clearLinkSelection()` (classList work is
presentation). -/
def clearLinkSelection (s : GraphState) : GraphState :=
  { s with selectedLinks := [] }

/-- `GraphController.clearSelection()` (classList and the `details`
collaborator are outside the model). -/
def clearSelection (s : GraphState) : GraphState :=
  { s with selectedNodes := [] }

/-- `Set.add` on the node selection: keep position if present, else
append. -/
def selAdd (l : List UId) (i : UId) : List UId :=
  if i ∈ l then l else l ++ [i]

/-- `Set.delete` on the node selection. -/
def selRemove (l : List UId) (i : UId) : List UId :=
  l.filter (fun j => decide (j ≠ i))

/-- `GraphController.selectNode(nodeId, addToSelection, mode)`.  The
trailing single-selection details callback goes to an external
collaborator. -/
def selectNode (s : GraphState) (nodeId : UId) (addToSelection : Bool)
    (mode : String) : GraphState :=
  match lookupA s.nodes nodeId with
  | none => s
  | some _ =>
    let s := if addToSelection then s else clearSelection s
    if mode = "add" then
      { s with selectedNodes := selAdd s.selectedNodes nodeId }
    else if mode = "remove" then
      { s with selectedNodes := selRemove s.selectedNodes nodeId }
    else if mode = "toggle" then
      if nodeId ∈ s.selectedNodes then
        { s with selectedNodes := selRemove s.selectedNodes nodeId }
      else
        { s with selectedNodes := selAdd s.selectedNodes nodeId }
    else if mode = "new" then
      { s with selectedNodes := selAdd s.selectedNodes nodeId }
    else s

/-- `GraphController.addNode(nodeKey, x, y)`: reject unknown keys; on a
singleton template with a live instance, select that instance and return
no node; otherwise instantiate, register, fire `markDirty`, and return
the node.  (`render`/`appendChild` and the console warning are outside
the model.) -/
def addNode (cat : Catalog) (s : GraphState) (nodeKey : String)
    (x y : Int) : Option Node × GraphState :=
  match cat.get nodeKey with
  | none => (none, s)
  | some nodeData =>
    let existing :=
      if nodeData.isSingleton then
        (s.nodes.map Prod.snd).find? (fun n => decide (n.nodeKey = nodeKey))
      else none
    match existing with
    | some existingNode => (none, selectNode s existingNode.id false "new")
    | none =>
      let pr := uniqueId "node" s
      let id := pr.1
      let ns := mkNode pr.2 id nodeData.title nodeData.pins x y nodeKey
      let node := ns.1
      let s := { ns.2 with nodes := setA ns.2.nodes id node }
      (some node, { s with dirtyCount := s.dirtyCount + 1 })

/-- Modelled from the spec: `Pin.getMaxLinks` is part of `graph.js`
missing from `src/`; per the spec input pins of non-exec type have
capacity 1 and all other pins are unbounded.  This is the
`getMaxLinks() === 1` test of `createConnection`. -/
def getMaxLinksIsOne (p : Pin) : Bool :=
  decide (p.dir = PinDir.input) && decide (p.ty ≠ "exec")

/-- Modelled from the spec: `Pin.isConnected` is part of `graph.js`
missing from `src/`; a pin is connected when its link list is
non-empty. -/
def isConnected (p : Pin) : Bool :=
  !p.links.isEmpty

/-- The shared tail of `createConnection`: add the direct link, then fire
`autoSave` and `markDirty` (visual refresh and the deferred wire redraw
are presentation). -/
def connectDirect (s : GraphState) (startRef endRef : Nat) : GraphState :=
  let s := _addLink s startRef endRef
  { s with saveCount := s.saveCount + 1, dirtyCount := s.dirtyCount + 1 }

/-- `WiringController.createConnection(pinA, pinB)`: orient the pins,
apply replace-on-connect for a full single-capacity end pin, insert a
conversion adapter node when the value types differ and an adapter key is
registered (rolling the adapter back when it lacks the `val_in` /
`val_out` ports and falling through to a direct link), else link
directly.  The adapter is placed at the DOM midpoint of the two pin
elements in the source; pin screen geometry is outside the model, so the
coordinates are fixed at 0. -/
def createConnection (cat : Catalog) (s : GraphState)
    (pinARef pinBRef : Option Nat) : GraphState :=
  match pinARef, pinBRef with
  | some ra, some rb =>
    match heapGet s ra, heapGet s rb with
    | some pinA, some pinB =>
      let startRef := if pinA.dir = PinDir.output then ra else rb
      let endRef := if pinA.dir = PinDir.input then ra else rb
      let startPin := if pinA.dir = PinDir.output then pinA else pinB
      let endPin := if pinA.dir = PinDir.input then pinA else pinB
      let s :=
        if getMaxLinksIsOne endPin && isConnected endPin then
          breakPinLinks s endPin.id
        else s
      let isExecPin := startPin.ty = "exec" ∨ endPin.ty = "exec"
      let typesMatch := startPin.ty = endPin.ty
      if ¬isExecPin ∧ ¬typesMatch then
        match cat.conv startPin.ty endPin.ty with
        | some convKey =>
          let res := addNode cat s convKey 0 0
          match res.1 with
          | some convNode =>
            let s := res.2
            let convIn := nodeFindPinById s convNode ⟨convNode.id, "val_in"⟩
            let convOut := nodeFindPinById s convNode ⟨convNode.id, "val_out"⟩
            match convIn, convOut with
            | some ci, some co =>
              let s := _addLink s startRef ci
              let s := _addLink s co endRef
              { s with saveCount := s.saveCount + 1,
                       dirtyCount := s.dirtyCount + 1 }
            | _, _ =>
              let s := { s with nodes := eraseA s.nodes convNode.id }
              connectDirect s startRef endRef
          | none => connectDirect res.2 startRef endRef
        | none => connectDirect s startRef endRef
      else connectDirect s startRef endRef
    | _, _ => s
  | _, _ => s

/-- `GraphController.canConnect(pinA, pinB)`.  The source also guards
`!pinA.node` / `!pinB.node`; in the model a pin always carries its
owner's id.  The `exec`/`exec` test is kept even though it is subsumed by
type equality. -/
def canConnect (cat : Catalog) (pinA pinB : Option Pin) : Bool :=
  match pinA, pinB with
  | some pinA, some pinB =>
    if pinA.id.node = pinB.id.node then false
    else if pinA.dir = pinB.dir then false
    else
      let startPin := if pinA.dir = PinDir.output then pinA else pinB
      let endPin := if pinA.dir = PinDir.input then pinA else pinB
      if startPin.containerType ≠ endPin.containerType then false
      else if startPin.ty = endPin.ty then true
      else if startPin.ty = "exec" ∧ endPin.ty = "exec" then true
      else (cat.conv startPin.ty endPin.ty).isSome
  | _, _ => false

/-- `node.pins.forEach(pin => breakPinLinks(pin.id))` inside
`deleteSelectedNodes`. -/
def breakNodePins (s : GraphState) (node : Node) : GraphState :=
  node.pins.foldl
    (fun s r =>
      match heapGet s r with
      | some p => breakPinLinks s p.id
      | none => s) s

/-- One step of `deleteSelectedNodes`: break every link of every pin of
the node, then drop the node from the collection. -/
def deleteNodeStep (s : GraphState) (nid : UId) : GraphState :=
  match lookupA s.nodes nid with
  | none => s
  | some node =>
    let s := breakNodePins s node
    { s with nodes := eraseA s.nodes nid }

/-- `GraphController.deleteSelectedNodes()`: for each selected node break
the links of each of its pins and remove the node, then clear the
selection and fire `autoSave` and `markDirty`. -/
def deleteSelectedNodes (s : GraphState) : GraphState :=
  if s.selectedNodes = [] then s
  else
    let s := s.selectedNodes.foldl deleteNodeStep s
    let s := { s with selectedNodes := [] }
    { s with saveCount := s.saveCount + 1, dirtyCount := s.dirtyCount + 1 }

/-- `GraphController.deleteSelectedLinks()`. -/
def deleteSelectedLinks (s : GraphState) : GraphState :=
  if s.selectedLinks = [] then s
  else
    let s := s.selectedLinks.foldl breakLinkById s
    let s := clearLinkSelection s
    { s with saveCount := s.saveCount + 1 }

/-- Phase 1 step of `duplicateSelectedNodes`: copy one selected node via
`addNode`, extend the old-pin-id → new-pin-id map and the new selection.
The source's `newSelection.push(newNode.id)` throws a `TypeError` when
`addNode` returns `null` (singleton re-add), modelled as `none`. -/
def dupCopyStep (cat : Catalog)
    (acc : Option (GraphState × List (FullPinId × FullPinId) × List UId))
    (nid : UId) :
    Option (GraphState × List (FullPinId × FullPinId) × List UId) :=
  match acc with
  | none => none
  | some (s, oldToNewPinIds, newSelection) =>
    match lookupA s.nodes nid with
    | none => some (s, oldToNewPinIds, newSelection)
    | some oldNode =>
      let res := addNode cat s oldNode.nodeKey (oldNode.x + 20)
        (oldNode.y + 20)
      match res.1 with
      | none => none
      | some newNode =>
        let s := res.2
        let pairs := (oldNode.pins.zip newNode.pins).filterMap
          (fun rr =>
            match heapGet s rr.1, heapGet s rr.2 with
            | some po, some pn => some (po.id, pn.id)
            | _, _ => none)
        some (s, oldToNewPinIds ++ pairs, newSelection ++ [newNode.id])

/-- Phase 2 step of `duplicateSelectedNodes`: when both endpoint nodes of
the link are selected, recreate the link between the mapped new pins. -/
def dupLinkStep (cat : Catalog)
    (oldToNewPinIds : List (FullPinId × FullPinId))
    (s : GraphState) (l : Link) : GraphState :=
  if (match pinNodeId s l.startPin with
      | some nid => decide (nid ∈ s.selectedNodes)
      | none => false) &&
     (match pinNodeId s l.endPin with
      | some nid => decide (nid ∈ s.selectedNodes)
      | none => false) then
    match findPinById s ((pinIdAt s l.startPin).bind (lookupA oldToNewPinIds)),
          findPinById s ((pinIdAt s l.endPin).bind (lookupA oldToNewPinIds)) with
    | some a, some b => createConnection cat s (some a) (some b)
    | _, _ => s
  else s

/-- `GraphController.duplicateSelectedNodes()`.  On an empty selection
the source calls `this.app.wiring.deleteSelectedLinks()`, but
`deleteSelectedLinks` is a `GraphController` method and
`WiringController` defines no such method, so the call throws a
`TypeError` (modelled as `none`).  Otherwise phase 1 copies each
selected node; phase 2 walks the link collection and recreates every
link whose two endpoint nodes are both selected (the source iterates the
live `Map`, but entries added during the walk connect only new,
unselected nodes and fail the selection test, so the snapshot walk is
equivalent); finally the link selection is cleared, the selection is
replaced by the new nodes, and `autoSave` fires. -/
def duplicateSelectedNodes (cat : Catalog) (s : GraphState) :
    Option GraphState :=
  if s.selectedNodes = [] then none
  else
    match s.selectedNodes.foldl (dupCopyStep cat) (some (s, [], [])) with
    | none => none
    | some (s1, oldToNewPinIds, newSelection) =>
      let s2 := (linkVals s1).foldl (dupLinkStep cat oldToNewPinIds) s1
      let s2 := clearLinkSelection s2
      let s2 := clearSelection s2
      let s2 := newSelection.foldl
        (fun s nid => selectNode s nid true "add") s2
      some { s2 with saveCount := s2.saveCount + 1 }

/-- Endpoint repointing inside `synchronizeNodeWithTemplate`: for one
link id carried over from the old pin, repoint the link's start/end from
the old pin object to the new one. -/
def repointStep (oldRef newRef : Nat) (s : GraphState) (lid : UId) :
    GraphState :=
  match lookupA s.links lid with
  | none => s
  | some link =>
    let link := if link.startPin = oldRef then
        { link with startPin := newRef } else link
    let link := if link.endPin = oldRef then
        { link with endPin := newRef } else link
    { s with links := setA s.links lid link }

/-- One template pin of `synchronizeNodeWithTemplate`: construct the new
pin; when an old pin with the same full identifier exists, carry over its
link list, default and literal value, and repoint its links. -/
def syncPinStep (oldPinsMap : List (FullPinId × Nat))
    (acc : GraphState × Node × List Nat) (sp : PinSpec) :
    GraphState × Node × List Nat :=
  match (lookupA oldPinsMap ⟨acc.2.1.id, sp.id⟩).bind
      (fun oldRef => (heapGet acc.1 oldRef).map (fun p => (oldRef, p))) with
  | none =>
    ((allocPin acc.1 (mkPin acc.2.1.id sp)).2, acc.2.1,
      acc.2.2 ++ [(allocPin acc.1 (mkPin acc.2.1.id sp)).1])
  | some (oldRef, oldPin) =>
    (oldPin.links.foldl
      (repointStep oldRef (allocPin acc.1 { mkPin acc.2.1.id sp with
         links := oldPin.links, defaultValue := oldPin.defaultValue }).1)
      (allocPin acc.1 { mkPin acc.2.1.id sp with
         links := oldPin.links, defaultValue := oldPin.defaultValue }).2,
     litSet acc.2.1 ⟨acc.2.1.id, sp.id⟩ (litGet acc.2.1 oldPin.id),
     acc.2.2 ++ [(allocPin acc.1 { mkPin acc.2.1.id sp with
         links := oldPin.links, defaultValue := oldPin.defaultValue }).1])

/-- `GraphController.synchronizeNodeWithTemplate(node)`: refresh title,
rebuild the pin collection from the template, and for each new pin whose
full identifier matches an old pin carry over links, default and literal
value and repoint every referenced link's endpoints from the old pin
object to the new one.  `refreshPinCache`, `updateVisuals` and
`redrawNodeWires` are index/presentation work. -/
def synchronizeNodeWithTemplate (cat : Catalog) (s : GraphState)
    (nid : UId) : GraphState :=
  match lookupA s.nodes nid with
  | none => s
  | some node =>
    match cat.get node.nodeKey with
    | none => s
    | some template =>
      let node := { node with title := template.title }
      let oldPinsMap : List (FullPinId × Nat) := node.pins.filterMap
        (fun r => (heapGet s r).map (fun p => (p.id, r)))
      let acc := template.pins.foldl (syncPinStep oldPinsMap)
        (s, node, [])
      let node := { acc.2.1 with pins := acc.2.2 }
      { acc.1 with nodes := setA acc.1.nodes nid node }

/-- `GraphController.updateVariableNodes(oldName, newName)`: retag every
`Get_`/`Set_` node of the renamed variable and resynchronize it with its
(renamed) template. -/
def updateVariableNodes (cat : Catalog) (s : GraphState)
    (oldName newName : String) : GraphState :=
  let getKey := "Get_" ++ oldName
  let setKey := "Set_" ++ oldName
  (s.nodes.map Prod.fst).foldl
    (fun s nid =>
      match lookupA s.nodes nid with
      | none => s
      | some node =>
        if node.nodeKey = getKey ∨ node.nodeKey = setKey then
          let newKey :=
            if node.nodeKey = getKey then "Get_" ++ newName
            else "Set_" ++ newName
          let s := { s with
            nodes := setA s.nodes nid { node with nodeKey := newKey } }
          synchronizeNodeWithTemplate cat s nid
        else s) s

/-- A serialized pin record as produced by `Node.getPinsData` (the `id`
is the node-local id: the source strips the `` `${nodeId}-` `` prefix). -/
structure SavedPin where
  id : String
  name : String
  ty : String
  dir : PinDir
  containerType : String
  literalValue : Option String
  isCustom : Bool
deriving DecidableEq, Repr

/-- A serialized node record as consumed by `loadState` (per the spec:
identifier, template key, position, pin list). -/
structure SavedNode where
  id : UId
  nodeKey : String
  x : Int
  y : Int
  pins : List SavedPin
deriving DecidableEq, Repr

/-- A serialized link record: identifier plus start/end full pin
identifiers. -/
structure SavedLink where
  id : UId
  startPinId : FullPinId
  endPinId : FullPinId
deriving DecidableEq, Repr

/-- The serialized graph shape consumed by `loadState`. -/
structure SavedState where
  nodes : List SavedNode
  links : List SavedLink
deriving DecidableEq, Repr

/-- `Node.getPinsData()`: one record per pin, with the node-id prefix
stripped from the pin id and the literal looked up in `pinLiterals`. -/
def getPinsData (s : GraphState) (n : Node) : List SavedPin :=
  n.pins.filterMap (fun r => (heapGet s r).map (fun p =>
    { id := p.id.loc, name := p.name, ty := p.ty, dir := p.dir,
      containerType := p.containerType, literalValue := litGet n p.id,
      isCustom := p.isCustom }))

/-- A saved pin record used as a pin spec (`loadState` feeds saved pins
to the `Node` constructor for dynamic-pin nodes); saved records carry no
`defaultValue` field, so reading it yields `undefined`. -/
def savedPinToSpec (p : SavedPin) : PinSpec :=
  { id := p.id, name := p.name, ty := p.ty, dir := p.dir,
    containerType := p.containerType, defaultValue := none,
    isCustom := p.isCustom }

/-- Literal restoration for one saved pin inside `loadState`: a stored
literal wins; otherwise the pin's default is stored. -/
def restoreLiteralStep (s : GraphState) (node : Node) (savedPin : SavedPin) :
    Node :=
  let fullPinId : FullPinId := ⟨node.id, savedPin.id⟩
  match nodeFindPinById s node fullPinId with
  | none => node
  | some r =>
    match heapGet s r with
    | none => node
    | some pin =>
      match savedPin.literalValue with
      | some v => litSet node pin.id (some v)
      | none => litSet node pin.id pin.defaultValue

/-- One saved node of `loadState`: look up the template (unknown keys are
skipped), for `CustomEvent` filter the legacy delegate pin out of the
saved pin list (the source mutates `nodeData.pins`, so the filtered list
is also what the literal restoration walks) and trust the saved pin list
over the template when it is longer; construct the node and restore its
literals.  (The source's else branch re-tests `nodeKey === 'CustomEvent'`
where it is already false, so it never replaces the template pins.) -/
def loadNodeStep (cat : Catalog) (s : GraphState) (nodeData : SavedNode) :
    GraphState :=
  match cat.get nodeData.nodeKey with
  | none => s
  | some template =>
    let savedPins :=
      if nodeData.nodeKey = "CustomEvent" then
        nodeData.pins.filter (fun p =>
          decide (p.id ≠ "delegate_out") &&
          decide (p.name ≠ "Output Delegate"))
      else nodeData.pins
    let pinsToLoad :=
      if nodeData.nodeKey = "CustomEvent" then
        if template.pins.length < savedPins.length then
          savedPins.map savedPinToSpec
        else template.pins
      else template.pins
    let ns := mkNode s nodeData.id template.title pinsToLoad
      nodeData.x nodeData.y nodeData.nodeKey
    let node := ns.1
    let s := { ns.2 with nodes := setA ns.2.nodes node.id node }
    let node := savedPins.foldl (restoreLiteralStep s) node
    { s with nodes := setA s.nodes node.id node }

/-- One saved link of `loadState`: restored only when both endpoint pins
resolve by full identifier. -/
def loadLinkStep (s : GraphState) (linkData : SavedLink) : GraphState :=
  match findPinById s (some linkData.startPinId),
        findPinById s (some linkData.endPinId) with
  | some startPin, some endPin =>
    let link : Link := ⟨linkData.id, startPin, endPin⟩
    let s := { s with links := setA s.links link.id link }
    let s := modifyPinLinks s startPin (fun ls => ls ++ [link.id])
    modifyPinLinks s endPin (fun ls => ls ++ [link.id])
  | _, _ => s

/-- `GraphController.loadState(state)`: clear nodes and links, rebuild
every known-template node with its literals, then restore every link
whose two endpoints resolve.  Saved pin ids are the prefix-stripped
local ids, so the source's `${node.id}-${savedPin.id}` branch of the
full-id reconstruction always applies. -/
def loadState (cat : Catalog) (s : GraphState) (st : SavedState) :
    GraphState :=
  let s := { s with nodes := [], links := [] }
  let s := st.nodes.foldl (loadNodeStep cat) s
  st.links.foldl loadLinkStep s

/-- The full identifier of the pin behind a reference (junk when the
reference is dead, which well-formedness rules out). -/
def resolvedPinId (s : GraphState) (r : Nat) : FullPinId :=
  match heapGet s r with
  | some p => p.id
  | none => ⟨⟨"", 0⟩, ""⟩

/-- Modelled from the spec: the persistence collaborator's serializer is
not part of `src/`; per the spec it produces a node list (identifier,
template key, position, pin list via `getPinsData`) and a link list
(identifier, start/end full pin identifiers). -/
def serialize (s : GraphState) : SavedState :=
  { nodes := (s.nodes.map Prod.snd).map (fun n =>
      { id := n.id, nodeKey := n.nodeKey, x := n.x, y := n.y,
        pins := getPinsData s n }),
    links := (s.links.map Prod.snd).map (fun l =>
      { id := l.id, startPinId := resolvedPinId s l.startPin,
        endPinId := resolvedPinId s l.endPin }) }

/-! ## Well-formedness

Reachable editor states satisfy structural invariants (spec §3, §5): map
keys match the stored objects' ids, ids are unique, every node mirrors
its catalog template, links are registered on both endpoint pins and
vice versa, and fresh-id counters dominate all existing ids.  They are
stated as decidable `Bool` predicates so that concrete witnesses can be
checked by evaluation. -/

/-- The pin equals the template instantiation except possibly for its
(mutable) link list. -/
def pinMatchesSpec (nid : UId) (p : Pin) (sp : PinSpec) : Bool :=
  decide ({ p with links := [] } = mkPin nid sp)

/-- The node's pin references resolve, elementwise in order, to
instantiations of the template pin specs. -/
def pinsMatchSpecs (s : GraphState) (nid : UId) :
    List Nat → List PinSpec → Bool
  | [], [] => true
  | r :: rs, sp :: sps =>
    (match heapGet s r with
     | some p => pinMatchesSpec nid p sp
     | none => false) && pinsMatchSpecs s nid rs sps
  | _, _ => false

/-- A node is well-formed: its template exists, its pins instantiate the
template's pin specs, and the template's local pin ids are distinct. -/
def nodeWF (cat : Catalog) (s : GraphState) (n : Node) : Bool :=
  match cat.get n.nodeKey with
  | none => false
  | some t =>
    pinsMatchSpecs s n.id n.pins t.pins &&
    decide ((t.pins.map PinSpec.id).Nodup)

/-- All pin references held by live nodes, in node order. -/
def liveRefs (s : GraphState) : List Nat :=
  (s.nodes.map (fun kn => kn.2.pins)).flatten

/-- One endpoint of a well-formed link: a live pin of the stated
direction that has registered the link id. -/
def linkEndWF (s : GraphState) (r : Nat) (lid : UId) (d : PinDir) : Bool :=
  decide (r ∈ liveRefs s) &&
  (match heapGet s r with
   | some p => decide (p.dir = d) && decide (lid ∈ p.links)
   | none => false)

/-- A well-formed link binding: key equals the link id, the start pin is
an output, the end pin an input, both live and registering the id. -/
def linkWF (s : GraphState) (k : UId) (l : Link) : Bool :=
  decide (k = l.id) && linkEndWF s l.startPin l.id PinDir.output &&
    linkEndWF s l.endPin l.id PinDir.input

/-- Every link id registered on the pin is a live link having this pin
reference as one of its endpoints. -/
def pinLinksSound (s : GraphState) (r : Nat) (p : Pin) : Bool :=
  p.links.all (fun lid =>
    match lookupA s.links lid with
    | some link => decide (link.startPin = r) || decide (link.endPin = r)
    | none => false)

/-- Well-formedness of an editor state with respect to a catalog. -/
def WF (cat : Catalog) (s : GraphState) : Bool :=
  s.nodes.all (fun kn => decide (kn.1 = kn.2.id) && nodeWF cat s kn.2) &&
  decide ((s.nodes.map Prod.fst).Nodup) &&
  decide ((liveRefs s).Nodup) &&
  decide ((s.pinHeap.map Prod.fst).Nodup) &&
  s.pinHeap.all (fun rp => decide (rp.1 < s.nextRef)) &&
  s.links.all (fun kl => linkWF s kl.1 kl.2) &&
  decide ((s.links.map Prod.fst).Nodup) &&
  s.nodes.all (fun kn => kn.2.pins.all (fun r =>
    match heapGet s r with
    | some p => pinLinksSound s r p && decide (p.links.Nodup)
    | none => false)) &&
  s.nodes.all (fun kn => decide (kn.1.num < s.counter)) &&
  s.links.all (fun kl => decide (kl.1.num < s.counter)) &&
  decide (s.selectedNodes.Nodup) &&
  s.selectedNodes.all (fun nid => decide (nid ∈ s.nodes.map Prod.fst))

/-- Every live pin whose stored literal is `undefined` has an
`undefined` default (holds for states built from catalog templates,
where literals start at the defaults). -/
def litDefaultsWF (s : GraphState) : Bool :=
  s.nodes.all (fun kn => kn.2.pins.all (fun r =>
    match heapGet s r with
    | some p => decide (litGet kn.2 p.id = none → p.defaultValue = none)
    | none => true))

/-- Every link connects pins of equal value type, or no conversion
adapter is registered for its type pair (holds for graphs whose links
were created through the `canConnect` gate). -/
def linkTypesWF (cat : Catalog) (s : GraphState) : Bool :=
  s.links.all (fun kl =>
    match heapGet s kl.2.startPin, heapGet s kl.2.endPin with
    | some a, some b =>
      decide (a.ty = b.ty) || decide (cat.conv a.ty b.ty = none)
    | _, _ => false)

/-- A valid catalog's `CustomEvent` template (when present) has no
legacy delegate pin, as assumed by `loadState`'s legacy filter. -/
def catalogCustomEventOK (cat : Catalog) : Prop :=
  ∀ t, cat.get "CustomEvent" = some t →
    ∀ sp ∈ t.pins, sp.id ≠ "delegate_out" ∧ sp.name ≠ "Output Delegate"

/-! ## Association-list and fold lemmas -/

theorem lookupA_eq_none {α β : Type} [DecidableEq α] {l : List (α × β)}
    {a : α} : lookupA l a = none ↔ a ∉ l.map Prod.fst := by
  induction l with
  | nil => simp [lookupA]
  | cons kv rest ih =>
    by_cases h : kv.1 = a
    · simp [lookupA, h]
    · simp [lookupA, h, ih, Ne.symm h]

theorem lookupA_isSome_iff {α β : Type} [DecidableEq α] {l : List (α × β)}
    {a : α} : (lookupA l a).isSome = true ↔ a ∈ l.map Prod.fst := by
  rw [Option.isSome_iff_ne_none]
  constructor
  · intro h
    by_contra hmem
    exact h (lookupA_eq_none.mpr hmem)
  · intro h hnone
    exact lookupA_eq_none.mp hnone h

theorem mem_of_lookupA {α β : Type} [DecidableEq α] {l : List (α × β)}
    {a : α} {b : β} (h : lookupA l a = some b) : (a, b) ∈ l := by
  induction l with
  | nil => simp [lookupA] at h
  | cons kv rest ih =>
    rw [lookupA] at h
    by_cases hk : kv.1 = a
    · rw [if_pos hk] at h
      injection h with h
      subst h
      apply List.mem_cons.mpr
      left
      cases kv
      simp_all
    · rw [if_neg hk] at h
      exact List.mem_cons_of_mem _ (ih h)

theorem lookupA_of_mem_nodup {α β : Type} [DecidableEq α]
    {l : List (α × β)} {a : α} {b : β} (h : (a, b) ∈ l)
    (hn : (l.map Prod.fst).Nodup) : lookupA l a = some b := by
  induction l with
  | nil => simp at h
  | cons kv rest ih =>
    simp only [List.map_cons, List.nodup_cons] at hn
    rcases List.mem_cons.mp h with h | h
    · subst h
      simp [lookupA]
    · have hne : kv.1 ≠ a := by
        intro he
        exact hn.1 (he ▸ (List.mem_map.mpr ⟨(a, b), h, rfl⟩))
      simp [lookupA, hne, ih h hn.2]

theorem lookupA_append_left {α β : Type} [DecidableEq α]
    {l l' : List (α × β)} {a : α} {b : β} (h : lookupA l a = some b) :
    lookupA (l ++ l') a = some b := by
  induction l with
  | nil => simp [lookupA] at h
  | cons kv rest ih =>
    by_cases hk : kv.1 = a
    · simp [lookupA, hk] at h ⊢
      exact h
    · simp [lookupA, hk] at h ⊢
      exact ih h

theorem lookupA_append_right {α β : Type} [DecidableEq α]
    {l l' : List (α × β)} {a : α} (h : a ∉ l.map Prod.fst) :
    lookupA (l ++ l') a = lookupA l' a := by
  induction l with
  | nil => simp
  | cons kv rest ih =>
    simp only [List.map_cons, List.mem_cons] at h
    push_neg at h
    simp [lookupA, Ne.symm h.1, ih h.2]

theorem lookupA_setA_self {α β : Type} [DecidableEq α] (l : List (α × β))
    (a : α) (b : β) : lookupA (setA l a b) a = some b := by
  induction l with
  | nil => simp [setA, lookupA]
  | cons kv rest ih =>
    by_cases hk : kv.1 = a
    · simp [setA, hk, lookupA]
    · simp [setA, hk, lookupA, ih]

theorem lookupA_setA_ne {α β : Type} [DecidableEq α] {l : List (α × β)}
    {a a' : α} (b : β) (h : a' ≠ a) :
    lookupA (setA l a b) a' = lookupA l a' := by
  induction l with
  | nil => simp [setA, lookupA, Ne.symm h]
  | cons kv rest ih =>
    by_cases hk : kv.1 = a
    · simp [setA, hk, lookupA, Ne.symm h]
    · by_cases hk' : kv.1 = a'
      · simp [setA, hk, lookupA, hk', h]
      · simp [setA, hk, lookupA, hk', ih]

theorem setA_fresh {α β : Type} [DecidableEq α] {l : List (α × β)}
    {a : α} (b : β) (h : a ∉ l.map Prod.fst) : setA l a b = l ++ [(a, b)] := by
  induction l with
  | nil => simp [setA]
  | cons kv rest ih =>
    simp only [List.map_cons, List.mem_cons] at h
    push_neg at h
    simp [setA, Ne.symm h.1, ih h.2]

theorem eraseA_sub {α β : Type} [DecidableEq α] {l : List (α × β)}
    {a : α} {kv : α × β} (h : kv ∈ eraseA l a) : kv ∈ l :=
  List.mem_of_mem_filter h

theorem lookupA_eraseA_self {α β : Type} [DecidableEq α]
    (l : List (α × β)) (a : α) : lookupA (eraseA l a) a = none := by
  induction l with
  | nil => simp [eraseA, lookupA]
  | cons kv rest ih =>
    by_cases hk : kv.1 = a
    · simpa [eraseA, hk] using ih
    · simpa [eraseA, lookupA, hk] using ih

theorem lookupA_eraseA_ne {α β : Type} [DecidableEq α]
    {l : List (α × β)} {a a' : α} (h : a' ≠ a) :
    lookupA (eraseA l a) a' = lookupA l a' := by
  induction l with
  | nil => simp [eraseA]
  | cons kv rest ih =>
    by_cases hk : kv.1 = a
    · have hkk : ¬kv.1 = a' := by rw [hk]; exact Ne.symm h
      rw [eraseA, List.filter_cons, if_neg (by simp [hk]), ← eraseA, ih,
        lookupA, if_neg hkk]
    · rw [eraseA, List.filter_cons, if_pos (by simp [hk]), ← eraseA]
      rw [lookupA, lookupA]
      by_cases hk' : kv.1 = a'
      · rw [if_pos hk', if_pos hk']
      · rw [if_neg hk', if_neg hk', ih]

theorem eraseA_fresh {α β : Type} [DecidableEq α] {l : List (α × β)}
    {a : α} (h : a ∉ l.map Prod.fst) : eraseA l a = l := by
  induction l with
  | nil => rfl
  | cons kv rest ih =>
    simp only [List.map_cons, List.mem_cons] at h
    push_neg at h
    rw [eraseA, List.filter_cons, if_pos (by simp [Ne.symm h.1]), ← eraseA,
      ih h.2]

theorem eraseA_append {α β : Type} [DecidableEq α] (l l' : List (α × β))
    (a : α) : eraseA (l ++ l') a = eraseA l a ++ eraseA l' a := by
  simp [eraseA, List.filter_append]

/-- A fold preserves any invariant its steps preserve. -/
theorem foldl_inv {α σ : Type} {P : σ → Prop} {l : List α} {f : σ → α → σ}
    {s : σ} (h0 : P s) (hf : ∀ t a, a ∈ l → P t → P (f t a)) :
    P (l.foldl f s) := by
  induction l generalizing s with
  | nil => exact h0
  | cons a l ih =>
    exact ih (hf s a (by simp) h0)
      (fun t b hb ht => hf t b (List.mem_cons_of_mem _ hb) ht)

/-! ## Concrete test world (used by witnesses and counterexamples) -/

/-- A float output pin spec. -/
def wPinOut : PinSpec :=
  ⟨"o", "Out", "float", PinDir.output, "scalar", some "0", false⟩

/-- A float input pin spec. -/
def wPinIn : PinSpec :=
  ⟨"i", "In", "float", PinDir.input, "scalar", some "0", false⟩

/-- A two-pin arithmetic-style template. -/
def wTA : NodeTemplate := ⟨"A", [wPinOut, wPinIn], false⟩

/-- A catalog with the single template `A` and no conversion adapters. -/
def wCat : Catalog :=
  ⟨fun k => if k = "A" then some wTA else none, fun _ _ => none⟩

/-- One `A` node. -/
def wS1 : GraphState := (addNode wCat emptyState "A" 0 0).2

/-- Two `A` nodes. -/
def wS2 : GraphState := (addNode wCat wS1 "A" 100 0).2

/-- Two `A` nodes with node 0's output wired to node 1's input. -/
def wS3 : GraphState := createConnection wCat wS2 (some 0) (some 3)

/-! ## C2: `canConnect` -/

/-- The spec's description of `canConnect` (§4.2): false on a missing
pin, a same-node pair, a same-direction pair or a container-type
mismatch; true on identical value types or when both pins are `exec`;
otherwise true iff a conversion adapter is registered for the (source
type, destination type) pair. -/
def canConnectSpec (cat : Catalog) (pinA pinB : Option Pin) : Bool :=
  match pinA, pinB with
  | some a, some b =>
    if a.id.node = b.id.node ∨ a.dir = b.dir then false
    else
      let src := if a.dir = PinDir.output then a else b
      let dst := if a.dir = PinDir.output then b else a
      if src.containerType ≠ dst.containerType then false
      else if src.ty = dst.ty ∨ (src.ty = "exec" ∧ dst.ty = "exec") then
        true
      else (cat.conv src.ty dst.ty).isSome
  | _, _ => false

/-- C2: `canConnect` returns false when either pin is missing, when both
pins share a node, share a direction, or differ in container type; true
when the value types are identical or both are `exec`; otherwise true
exactly when a conversion adapter is registered for the (source,
destination) type pair — in particular, it is always false for two pins
on the same node. -/
theorem canConnect_matches_spec (cat : Catalog) :
    (∀ a b, canConnect cat a b = canConnectSpec cat a b) ∧
    (∀ a b : Pin, a.id.node = b.id.node →
      canConnect cat (some a) (some b) = false) := by
  have main : ∀ a b, canConnect cat a b = canConnectSpec cat a b := by
    intro a b
    cases a with
    | none => cases b <;> rfl
    | some a =>
      cases b with
      | none => rfl
      | some b =>
        simp only [canConnect, canConnectSpec]
        by_cases h1 : a.id.node = b.id.node
        · simp [h1]
        · by_cases h2 : a.dir = b.dir
          · simp [h1, h2]
          · cases ha : a.dir <;> cases hb : b.dir <;>
              simp_all [Bool.or_assoc]
  refine ⟨main, fun a b h => ?_⟩
  rw [main]
  simp [canConnectSpec, h]

/-- Witness for C2 at a concrete input: the two pins of one `A` node can
never be connected. -/
theorem canConnect_matches_spec_witness :
    canConnect wCat (some (mkPin ⟨"node", 0⟩ wPinOut))
      (some (mkPin ⟨"node", 0⟩ wPinIn)) = false :=
  (canConnect_matches_spec wCat).2 (mkPin ⟨"node", 0⟩ wPinOut)
    (mkPin ⟨"node", 0⟩ wPinIn) rfl

/-! ## Extraction lemmas for `WF` -/

theorem wf_nodesKeyed {cat : Catalog} {s : GraphState} (h : WF cat s = true) :
    ∀ kn ∈ s.nodes, kn.1 = kn.2.id := by
  simp only [WF, Bool.and_eq_true, List.all_eq_true, decide_eq_true_eq] at h
  intro kn hkn
  exact (h.1.1.1.1.1.1.1.1.1.1.1 kn hkn).1

theorem wf_nodeWF {cat : Catalog} {s : GraphState} (h : WF cat s = true) :
    ∀ kn ∈ s.nodes, nodeWF cat s kn.2 = true := by
  simp only [WF, Bool.and_eq_true, List.all_eq_true, decide_eq_true_eq] at h
  intro kn hkn
  exact (h.1.1.1.1.1.1.1.1.1.1.1 kn hkn).2

theorem wf_nodeKeysNodup {cat : Catalog} {s : GraphState}
    (h : WF cat s = true) : (s.nodes.map Prod.fst).Nodup := by
  simp only [WF, Bool.and_eq_true, List.all_eq_true, decide_eq_true_eq] at h
  exact h.1.1.1.1.1.1.1.1.1.1.2

theorem wf_liveRefsNodup {cat : Catalog} {s : GraphState}
    (h : WF cat s = true) : (liveRefs s).Nodup := by
  simp only [WF, Bool.and_eq_true, List.all_eq_true, decide_eq_true_eq] at h
  exact h.1.1.1.1.1.1.1.1.1.2

theorem wf_heapKeysNodup {cat : Catalog} {s : GraphState}
    (h : WF cat s = true) : (s.pinHeap.map Prod.fst).Nodup := by
  simp only [WF, Bool.and_eq_true, List.all_eq_true, decide_eq_true_eq] at h
  exact h.1.1.1.1.1.1.1.1.2

theorem wf_heapBound {cat : Catalog} {s : GraphState} (h : WF cat s = true) :
    ∀ rp ∈ s.pinHeap, rp.1 < s.nextRef := by
  simp only [WF, Bool.and_eq_true, List.all_eq_true, decide_eq_true_eq] at h
  exact h.1.1.1.1.1.1.1.2

theorem wf_linkWF {cat : Catalog} {s : GraphState} (h : WF cat s = true) :
    ∀ kl ∈ s.links, linkWF s kl.1 kl.2 = true := by
  simp only [WF, Bool.and_eq_true, List.all_eq_true, decide_eq_true_eq] at h
  exact h.1.1.1.1.1.1.2

theorem wf_linkKeysNodup {cat : Catalog} {s : GraphState}
    (h : WF cat s = true) : (s.links.map Prod.fst).Nodup := by
  simp only [WF, Bool.and_eq_true, List.all_eq_true, decide_eq_true_eq] at h
  exact h.1.1.1.1.1.2

theorem wf_pinSound {cat : Catalog} {s : GraphState} (h : WF cat s = true) :
    ∀ kn ∈ s.nodes, ∀ r ∈ kn.2.pins, ∃ p, heapGet s r = some p ∧
      pinLinksSound s r p = true ∧ p.links.Nodup := by
  simp only [WF, Bool.and_eq_true, List.all_eq_true, decide_eq_true_eq] at h
  intro kn hkn r hr
  have := h.1.1.1.1.2 kn hkn r hr
  cases heq : heapGet s r with
  | none => rw [heq] at this; exact absurd this (by simp)
  | some p =>
    rw [heq] at this
    simp only [Bool.and_eq_true, decide_eq_true_eq] at this
    exact ⟨p, rfl, this.1, this.2⟩

theorem wf_nodeIdsFresh {cat : Catalog} {s : GraphState}
    (h : WF cat s = true) : ∀ kn ∈ s.nodes, kn.1.num < s.counter := by
  simp only [WF, Bool.and_eq_true, List.all_eq_true, decide_eq_true_eq] at h
  exact h.1.1.1.2

theorem wf_linkIdsFresh {cat : Catalog} {s : GraphState}
    (h : WF cat s = true) : ∀ kl ∈ s.links, kl.1.num < s.counter := by
  simp only [WF, Bool.and_eq_true, List.all_eq_true, decide_eq_true_eq] at h
  exact h.1.1.2

theorem wf_selNodup {cat : Catalog} {s : GraphState} (h : WF cat s = true) :
    s.selectedNodes.Nodup := by
  simp only [WF, Bool.and_eq_true, List.all_eq_true, decide_eq_true_eq] at h
  exact h.1.2

theorem wf_selLive {cat : Catalog} {s : GraphState} (h : WF cat s = true) :
    ∀ nid ∈ s.selectedNodes, nid ∈ s.nodes.map Prod.fst := by
  simp only [WF, Bool.and_eq_true, List.all_eq_true, decide_eq_true_eq] at h
  exact h.2

/-! ## C4: singleton `addNode` -/

/-- A singleton template without pins. -/
def wTS : NodeTemplate := ⟨"S", [], true⟩

/-- A catalog with the singleton template `S`. -/
def wCatS : Catalog :=
  ⟨fun k => if k = "S" then some wTS else none, fun _ _ => none⟩

/-- A state holding the one live `S` instance, with an empty selection. -/
def wSS : GraphState := (addNode wCatS emptyState "S" 0 0).2

/-- The live `S` instance of `wSS`. -/
def wSSNode : Node :=
  { id := ⟨"node", 0⟩, x := 0, y := 0, nodeKey := "S", title := "S",
    pins := [], pinLiterals := [] }

/-- C4 counterexample: re-adding a singleton returns no node, but it does
mutate state — the selection changes (the existing instance gets
selected), contradicting "no state is mutated". -/
theorem addNode_singleton_counterexample :
    (addNode wCatS wSS "S" 5 5).1 = none ∧
    (addNode wCatS wSS "S" 5 5).2.selectedNodes = [⟨"node", 0⟩] ∧
    wSS.selectedNodes = [] := by decide

/-- C4 (amended): `addNode` on a singleton-flagged key with a live
instance returns no node and leaves the node collection, links, pin heap
and counters unchanged, but it replaces the selection with the existing
instance. -/
theorem addNode_singleton_rejects (cat : Catalog) (s : GraphState)
    (key : String) (x y : Int) (t : NodeTemplate) (ex : Node)
    (hkeyed : ∀ kn ∈ s.nodes, kn.1 = kn.2.id)
    (hnodup : (s.nodes.map Prod.fst).Nodup)
    (ht : cat.get key = some t) (hsing : t.isSingleton = true)
    (hex : (s.nodes.map Prod.snd).find?
      (fun n => decide (n.nodeKey = key)) = some ex) :
    addNode cat s key x y = (none, { s with selectedNodes := [ex.id] }) := by
  have hmem : ex ∈ s.nodes.map Prod.snd := List.mem_of_find?_eq_some hex
  obtain ⟨kn, hkn, hsnd⟩ := List.mem_map.mp hmem
  have hkey : kn.1 = ex.id := by rw [hkeyed kn hkn, hsnd]
  have hlook : lookupA s.nodes ex.id = some ex := by
    have : (ex.id, ex) ∈ s.nodes := by
      have : kn = (ex.id, ex) := by
        cases kn
        simp_all
      exact this ▸ hkn
    exact lookupA_of_mem_nodup this hnodup
  simp only [addNode, ht, hsing, hex, if_true]
  simp only [selectNode, hlook]
  simp [clearSelection, selAdd]

/-- Witness for C4 (amended) at a concrete input. -/
theorem addNode_singleton_rejects_witness :
    addNode wCatS wSS "S" 5 5 =
      (none, { wSS with selectedNodes := [⟨"node", 0⟩] }) :=
  addNode_singleton_rejects wCatS wSS "S" 5 5 wTS wSSNode (by decide)
    (by decide) (by rfl) (by rfl) (by rfl)

/-! ## Field-preservation and counter-monotonicity lemmas -/

theorem modifyPinLinks_only_heap (s : GraphState) (r : Nat)
    (f : List UId → List UId) : (modifyPinLinks s r f) =
      { s with pinHeap := (modifyPinLinks s r f).pinHeap } := by
  unfold modifyPinLinks heapSet
  cases heapGet s r <;> rfl

theorem allocPin_only_heap (s : GraphState) (p : Pin) :
    (allocPin s p).2 = { s with pinHeap := (allocPin s p).2.pinHeap,
                                nextRef := s.nextRef + 1 } := rfl

theorem allocPins_only_heap (nid : UId) (specs : List PinSpec)
    (acc : List Nat × GraphState) :
    (allocPins nid specs acc).2 =
      { acc.2 with pinHeap := (allocPins nid specs acc).2.pinHeap,
                   nextRef := (allocPins nid specs acc).2.nextRef } := by
  induction specs generalizing acc with
  | nil => rfl
  | cons sp rest ih =>
    show (allocPins nid rest _).2 = _
    rw [ih]
    rfl

theorem mkNode_only_heap (s : GraphState) (nid : UId) (title : String)
    (specs : List PinSpec) (x y : Int) (key : String) :
    (mkNode s nid title specs x y key).2 =
      { s with pinHeap := (mkNode s nid title specs x y key).2.pinHeap,
               nextRef := (mkNode s nid title specs x y key).2.nextRef } := by
  unfold mkNode
  exact allocPins_only_heap nid specs ([], s)

theorem selectNode_only_selection (s : GraphState) (nodeId : UId)
    (add : Bool) (mode : String) : (selectNode s nodeId add mode) =
      { s with selectedNodes := (selectNode s nodeId add mode).selectedNodes } := by
  unfold selectNode clearSelection
  cases lookupA s.nodes nodeId <;> [rfl; skip]
  cases add <;>
    (by_cases h1 : mode = "add" <;> by_cases h2 : mode = "remove" <;>
      by_cases h3 : mode = "toggle" <;> by_cases h4 : mode = "new" <;>
      simp_all <;> split <;> rfl)

theorem breakLinkById_counts (s : GraphState) (lid : UId) :
    s.saveCount ≤ (breakLinkById s lid).saveCount ∧
    s.dirtyCount ≤ (breakLinkById s lid).dirtyCount ∧
    s.counter = (breakLinkById s lid).counter ∧
    s.nodes = (breakLinkById s lid).nodes := by
  unfold breakLinkById
  cases lookupA s.links lid with
  | none => simp
  | some link =>
    simp only
    rw [modifyPinLinks_only_heap s]
    rw [modifyPinLinks_only_heap { s with pinHeap := _ }]
    simp

theorem breakPinLinks_counts (s : GraphState) (pid : FullPinId) :
    s.saveCount ≤ (breakPinLinks s pid).saveCount ∧
    s.dirtyCount ≤ (breakPinLinks s pid).dirtyCount ∧
    s.counter = (breakPinLinks s pid).counter ∧
    s.nodes = (breakPinLinks s pid).nodes := by
  unfold breakPinLinks
  exact foldl_inv (P := fun t => s.saveCount ≤ t.saveCount ∧
      s.dirtyCount ≤ t.dirtyCount ∧ s.counter = t.counter ∧
      s.nodes = t.nodes)
    ⟨le_refl _, le_refl _, rfl, rfl⟩
    (fun (t : GraphState) (l : Link) _ ht =>
      have h := breakLinkById_counts t l.id
      ⟨ht.1.trans h.1, ht.2.1.trans h.2.1, ht.2.2.1.trans h.2.2.1,
        ht.2.2.2.trans h.2.2.2⟩)

theorem _addLink_counts (s : GraphState) (a b : Nat) :
    (_addLink s a b).saveCount = s.saveCount ∧
    (_addLink s a b).dirtyCount = s.dirtyCount := by
  unfold _addLink uniqueId
  simp only
  rw [modifyPinLinks_only_heap]
  rw [modifyPinLinks_only_heap]
  exact ⟨rfl, rfl⟩

theorem connectDirect_counts (s : GraphState) (a b : Nat) :
    (connectDirect s a b).saveCount = s.saveCount + 1 ∧
    (connectDirect s a b).dirtyCount = s.dirtyCount + 1 := by
  unfold connectDirect
  obtain ⟨h1, h2⟩ := _addLink_counts s a b
  simp [h1, h2]

theorem addNode_counts (cat : Catalog) (s : GraphState) (key : String)
    (x y : Int) :
    ((addNode cat s key x y).1 = none ∧
     (addNode cat s key x y).2.saveCount = s.saveCount ∧
     (addNode cat s key x y).2.dirtyCount = s.dirtyCount) ∨
    ((addNode cat s key x y).2.saveCount = s.saveCount ∧
     (addNode cat s key x y).2.dirtyCount = s.dirtyCount + 1 ∧
     (addNode cat s key x y).1.isSome) := by
  unfold addNode
  cases cat.get key with
  | none => left; exact ⟨rfl, rfl, rfl⟩
  | some t =>
    simp only
    split
    · left
      rw [selectNode_only_selection]
      exact ⟨rfl, rfl, rfl⟩
    · right
      rw [mkNode_only_heap]
      exact ⟨rfl, rfl, rfl⟩

theorem addNode_success_counts (cat : Catalog) (s : GraphState)
    (key : String) (x y : Int) (n : Node) (s' : GraphState)
    (h : addNode cat s key x y = (some n, s')) :
    s'.saveCount = s.saveCount ∧ s'.dirtyCount = s.dirtyCount + 1 := by
  rcases addNode_counts cat s key x y with ⟨h0, h1, h2⟩ | ⟨h1, h2, h3⟩
  · rw [h] at h0
    exact absurd h0 (by simp)
  · rw [h] at h1 h2
    exact ⟨h1, h2⟩

/-! ## C9: `selectNode` -/

/-- Two `A` nodes with node 0 as the sole selection. -/
def wSel0 : GraphState := selectNode wS2 ⟨"node", 0⟩ false "new"

/-- The second live `A` node of `wS2`. -/
def wNode1 : Node :=
  { id := ⟨"node", 1⟩, x := 100, y := 0, nodeKey := "A", title := "A",
    pins := [2, 3],
    pinLiterals := [(⟨⟨"node", 1⟩, "o"⟩, some "0"),
                    (⟨⟨"node", 1⟩, "i"⟩, some "0")] }

/-- C9 counterexample: with `addToSelection = false`, mode `add` clears
the prior selection before inserting, instead of mutating membership
without clearing. -/
theorem selectNode_add_clears_counterexample :
    wSel0.selectedNodes = [⟨"node", 0⟩] ∧
    (selectNode wSel0 ⟨"node", 1⟩ false "add").selectedNodes =
      [⟨"node", 1⟩] := by decide

/-- C9 (amended): for an existing node, clearing the prior selection is
governed solely by `addToSelection` — it happens exactly when
`addToSelection` is false, whatever the mode; after the optional clear,
mode `add`/`new` inserts the id, `remove` deletes it, `toggle` flips it,
and any other mode leaves membership alone. -/
theorem selectNode_selection_spec (s : GraphState) (nodeId : UId)
    (addToSelection : Bool) (mode : String) (n : Node)
    (hn : lookupA s.nodes nodeId = some n) :
    (selectNode s nodeId addToSelection mode).selectedNodes =
      (let base := if addToSelection then s.selectedNodes else []
       if mode = "add" then selAdd base nodeId
       else if mode = "remove" then selRemove base nodeId
       else if mode = "toggle" then
         if nodeId ∈ base then selRemove base nodeId else selAdd base nodeId
       else if mode = "new" then selAdd base nodeId
       else base) := by
  by_cases h1 : mode = "add" <;> by_cases h2 : mode = "remove" <;>
    by_cases h3 : mode = "toggle" <;> by_cases h4 : mode = "new" <;>
    cases addToSelection <;>
    simp_all [selectNode, clearSelection] <;>
    (try (split <;> rfl))

/-- Witness for C9 (amended) at a concrete input. -/
theorem selectNode_selection_spec_witness :
    (selectNode wSel0 ⟨"node", 1⟩ false "add").selectedNodes =
      [⟨"node", 1⟩] := by
  have h := selectNode_selection_spec wSel0 ⟨"node", 1⟩ false "add" wNode1
    (by decide)
  simpa using h

/-! ## C8: `markDirty` / `autoSave` notifications -/

/-- C8 counterexample: a node add fires `markDirty` but not `autoSave`,
and a template resync fires neither, so these mutations do not fire the
two notifications together. -/
theorem notifications_counterexample :
    (addNode wCat emptyState "A" 0 0).2.dirtyCount = 1 ∧
    (addNode wCat emptyState "A" 0 0).2.saveCount = 0 ∧
    (synchronizeNodeWithTemplate wCat wS3 ⟨"node", 0⟩).dirtyCount =
      wS3.dirtyCount ∧
    (synchronizeNodeWithTemplate wCat wS3 ⟨"node", 0⟩).saveCount =
      wS3.saveCount := by decide

theorem addNode_mono (cat : Catalog) (s : GraphState) (key : String)
    (x y : Int) :
    s.saveCount ≤ (addNode cat s key x y).2.saveCount ∧
    s.dirtyCount ≤ (addNode cat s key x y).2.dirtyCount := by
  rcases addNode_counts cat s key x y with ⟨_, h1, h2⟩ | ⟨h1, h2, _⟩ <;> omega

theorem if_break_counts (s : GraphState) (c : Bool) (pid : FullPinId) :
    s.saveCount ≤ (if c = true then breakPinLinks s pid else s).saveCount ∧
    s.dirtyCount ≤ (if c = true then breakPinLinks s pid else s).dirtyCount := by
  cases c
  · simp
  · simpa using ⟨(breakPinLinks_counts s pid).1, (breakPinLinks_counts s pid).2.1⟩

theorem connectDirect_strict {s t : GraphState} (a b : Nat)
    (hs : s.saveCount ≤ t.saveCount) (hd : s.dirtyCount ≤ t.dirtyCount) :
    s.saveCount < (connectDirect t a b).saveCount ∧
    s.dirtyCount < (connectDirect t a b).dirtyCount := by
  obtain ⟨h1, h2⟩ := connectDirect_counts t a b
  omega

theorem pinDir_if_oo {α : Type} (a b : α) :
    (if PinDir.output = PinDir.output then a else b) = a := if_pos rfl

theorem pinDir_if_ii {α : Type} (a b : α) :
    (if PinDir.input = PinDir.input then a else b) = a := if_pos rfl

theorem pinDir_if_oi {α : Type} (a b : α) :
    (if PinDir.output = PinDir.input then a else b) = b :=
  if_neg (by intro h; cases h)

theorem pinDir_if_io {α : Type} (a b : α) :
    (if PinDir.input = PinDir.output then a else b) = b :=
  if_neg (by intro h; cases h)

theorem createConnection_strict (cat : Catalog) (s : GraphState)
    (ra rb : Nat) (pa pb : Pin) (ha : heapGet s ra = some pa)
    (hb : heapGet s rb = some pb) :
    s.saveCount < (createConnection cat s (some ra) (some rb)).saveCount ∧
    s.dirtyCount < (createConnection cat s (some ra) (some rb)).dirtyCount := by
  unfold createConnection
  cases hdir : pa.dir with
  | output =>
    simp only [ha, hb, hdir, pinDir_if_oo, pinDir_if_oi,
      eq_self_iff_true, if_true]
    obtain ⟨hs1, hd1⟩ :=
      if_break_counts s (getMaxLinksIsOne pb && isConnected pb) pb.id
    generalize (if (getMaxLinksIsOne pb && isConnected pb) = true then
        breakPinLinks s pb.id else s) = s1 at hs1 hd1 ⊢
    split
    · cases hcv : cat.conv pa.ty pb.ty with
      | none => exact connectDirect_strict _ _ hs1 hd1
      | some convKey =>
        simp only []
        have e3 := addNode_mono cat s1 convKey 0 0
        cases han : (addNode cat s1 convKey 0 0).1 with
        | none =>
          exact connectDirect_strict _ _ (hs1.trans e3.1) (hd1.trans e3.2)
        | some convNode =>
          simp only []
          cases hci : nodeFindPinById (addNode cat s1 convKey 0 0).2 convNode
              ⟨convNode.id, "val_in"⟩ with
          | none =>
            refine connectDirect_strict _ _ ?_ ?_
            · exact (show s.saveCount ≤
                (addNode cat s1 convKey 0 0).2.saveCount by omega)
            · exact (show s.dirtyCount ≤
                (addNode cat s1 convKey 0 0).2.dirtyCount by omega)
          | some ci =>
            cases hco : nodeFindPinById (addNode cat s1 convKey 0 0).2 convNode
                ⟨convNode.id, "val_out"⟩ with
            | none =>
              refine connectDirect_strict _ _ ?_ ?_
              · exact (show s.saveCount ≤
                  (addNode cat s1 convKey 0 0).2.saveCount by omega)
              · exact (show s.dirtyCount ≤
                  (addNode cat s1 convKey 0 0).2.dirtyCount by omega)
            | some co =>
              have e1 := _addLink_counts (addNode cat s1 convKey 0 0).2 ra ci
              have e2 := _addLink_counts
                (_addLink (addNode cat s1 convKey 0 0).2 ra ci) co rb
              exact ⟨Nat.lt_succ_of_le (by omega),
                Nat.lt_succ_of_le (by omega)⟩
    · exact connectDirect_strict _ _ hs1 hd1
  | input =>
    simp only [ha, hb, hdir, pinDir_if_ii, pinDir_if_io,
      eq_self_iff_true, if_true]
    obtain ⟨hs1, hd1⟩ :=
      if_break_counts s (getMaxLinksIsOne pa && isConnected pa) pa.id
    generalize (if (getMaxLinksIsOne pa && isConnected pa) = true then
        breakPinLinks s pa.id else s) = s1 at hs1 hd1 ⊢
    split
    · cases hcv : cat.conv pb.ty pa.ty with
      | none => exact connectDirect_strict _ _ hs1 hd1
      | some convKey =>
        simp only []
        have e3 := addNode_mono cat s1 convKey 0 0
        cases han : (addNode cat s1 convKey 0 0).1 with
        | none =>
          exact connectDirect_strict _ _ (hs1.trans e3.1) (hd1.trans e3.2)
        | some convNode =>
          simp only []
          cases hci : nodeFindPinById (addNode cat s1 convKey 0 0).2 convNode
              ⟨convNode.id, "val_in"⟩ with
          | none =>
            refine connectDirect_strict _ _ ?_ ?_
            · exact (show s.saveCount ≤
                (addNode cat s1 convKey 0 0).2.saveCount by omega)
            · exact (show s.dirtyCount ≤
                (addNode cat s1 convKey 0 0).2.dirtyCount by omega)
          | some ci =>
            cases hco : nodeFindPinById (addNode cat s1 convKey 0 0).2 convNode
                ⟨convNode.id, "val_out"⟩ with
            | none =>
              refine connectDirect_strict _ _ ?_ ?_
              · exact (show s.saveCount ≤
                  (addNode cat s1 convKey 0 0).2.saveCount by omega)
              · exact (show s.dirtyCount ≤
                  (addNode cat s1 convKey 0 0).2.dirtyCount by omega)
            | some co =>
              have e1 := _addLink_counts (addNode cat s1 convKey 0 0).2 rb ci
              have e2 := _addLink_counts
                (_addLink (addNode cat s1 convKey 0 0).2 rb ci) co ra
              exact ⟨Nat.lt_succ_of_le (by omega),
                Nat.lt_succ_of_le (by omega)⟩
    · exact connectDirect_strict _ _ hs1 hd1

theorem breakNodePins_counts (s : GraphState) (node : Node) :
    s.saveCount ≤ (breakNodePins s node).saveCount ∧
    s.dirtyCount ≤ (breakNodePins s node).dirtyCount := by
  unfold breakNodePins
  exact foldl_inv (P := fun (t : GraphState) => s.saveCount ≤ t.saveCount ∧
      s.dirtyCount ≤ t.dirtyCount)
    ⟨le_refl _, le_refl _⟩
    (fun t r _ ht => by
      cases hg : heapGet t r with
      | none => exact ht
      | some p =>
        have h := breakPinLinks_counts t p.id
        exact ⟨ht.1.trans h.1, ht.2.trans h.2.1⟩)

theorem deleteNodeStep_counts (s : GraphState) (nid : UId) :
    s.saveCount ≤ (deleteNodeStep s nid).saveCount ∧
    s.dirtyCount ≤ (deleteNodeStep s nid).dirtyCount := by
  unfold deleteNodeStep
  cases h : lookupA s.nodes nid with
  | none => exact ⟨le_refl _, le_refl _⟩
  | some node =>
    exact ⟨(breakNodePins_counts s node).1, (breakNodePins_counts s node).2⟩

theorem deleteSelectedNodes_strict (s : GraphState)
    (hne : ¬s.selectedNodes = []) :
    s.saveCount < (deleteSelectedNodes s).saveCount ∧
    s.dirtyCount < (deleteSelectedNodes s).dirtyCount := by
  unfold deleteSelectedNodes
  rw [if_neg hne]
  have h := foldl_inv (P := fun t => s.saveCount ≤ t.saveCount ∧
      s.dirtyCount ≤ t.dirtyCount) (l := s.selectedNodes)
    (f := deleteNodeStep) ⟨le_refl _, le_refl _⟩
    (fun t nid _ ht =>
      have hh := deleteNodeStep_counts t nid
      ⟨ht.1.trans hh.1, ht.2.trans hh.2⟩)
  exact ⟨Nat.lt_succ_of_le h.1, Nat.lt_succ_of_le h.2⟩

theorem createConnection_mono (cat : Catalog) (s : GraphState)
    (a b : Option Nat) :
    s.saveCount ≤ (createConnection cat s a b).saveCount ∧
    s.dirtyCount ≤ (createConnection cat s a b).dirtyCount := by
  cases a with
  | none => cases b <;> exact ⟨le_refl _, le_refl _⟩
  | some ra =>
    cases b with
    | none => exact ⟨le_refl _, le_refl _⟩
    | some rb =>
      cases hga : heapGet s ra with
      | none =>
        have he : createConnection cat s (some ra) (some rb) = s := by
          unfold createConnection
          simp only [hga]
        rw [he]
        exact ⟨le_refl _, le_refl _⟩
      | some pa =>
        cases hgb : heapGet s rb with
        | none =>
          have he : createConnection cat s (some ra) (some rb) = s := by
            unfold createConnection
            simp only [hga, hgb]
          rw [he]
          exact ⟨le_refl _, le_refl _⟩
        | some pb =>
          have h := createConnection_strict cat s ra rb pa pb hga hgb
          omega

theorem lookupA_setA_isSome {α β : Type} [DecidableEq α]
    {l : List (α × β)} {k a : α} (b : β)
    (h : (lookupA l k).isSome = true) :
    (lookupA (setA l a b) k).isSome = true := by
  by_cases hk : k = a
  · subst hk
    rw [lookupA_setA_self]
    rfl
  · rw [lookupA_setA_ne b hk]
    exact h

theorem addNode_nodes_lookup_isSome (cat : Catalog) (s : GraphState)
    (key : String) (x y : Int) (k : UId)
    (h : (lookupA s.nodes k).isSome = true) :
    (lookupA (addNode cat s key x y).2.nodes k).isSome = true := by
  unfold addNode
  cases cat.get key with
  | none => exact h
  | some t =>
    simp only
    split
    · rw [selectNode_only_selection]
      exact h
    · have hh := mkNode_only_heap (uniqueId "node" s).2 (uniqueId "node" s).1
        t.title t.pins x y key
      show (lookupA (setA _ _ _) k).isSome = true
      apply lookupA_setA_isSome
      rw [hh]
      exact h

theorem dupCopyStep_none_foldl (cat : Catalog) (l : List UId) :
    l.foldl (dupCopyStep cat) none = none := by
  induction l with
  | nil => rfl
  | cons a l ih => exact ih

theorem dupCopyStep_eq_some (cat : Catalog) (t : GraphState)
    (m : List (FullPinId × FullPinId)) (ns : List UId) (a : UId) :
    dupCopyStep cat (some (t, m, ns)) a =
      (match lookupA t.nodes a with
       | none => some (t, m, ns)
       | some oldNode =>
         match (addNode cat t oldNode.nodeKey (oldNode.x + 20)
             (oldNode.y + 20)).1 with
         | none => none
         | some newNode =>
           some ((addNode cat t oldNode.nodeKey (oldNode.x + 20)
               (oldNode.y + 20)).2,
             m ++ (oldNode.pins.zip newNode.pins).filterMap
               (fun rr =>
                 match heapGet (addNode cat t oldNode.nodeKey (oldNode.x + 20)
                     (oldNode.y + 20)).2 rr.1,
                   heapGet (addNode cat t oldNode.nodeKey (oldNode.x + 20)
                     (oldNode.y + 20)).2 rr.2 with
                 | some po, some pn => some (po.id, pn.id)
                 | _, _ => none),
             ns ++ [newNode.id])) := rfl

theorem dupPhase1_counts (cat : Catalog) (c0 d0 : Nat) :
    ∀ (l : List UId) (t : GraphState)
      (m : List (FullPinId × FullPinId)) (ns : List UId),
      c0 ≤ t.saveCount → d0 ≤ t.dirtyCount →
      ∀ t' m' ns',
        l.foldl (dupCopyStep cat) (some (t, m, ns)) = some (t', m', ns') →
        c0 ≤ t'.saveCount ∧ d0 ≤ t'.dirtyCount := by
  intro l
  induction l with
  | nil =>
    intro t m ns h1 h2 t' m' ns' he
    simp only [List.foldl_nil, Option.some.injEq, Prod.mk.injEq] at he
    obtain ⟨rfl, -, -⟩ := he
    exact ⟨h1, h2⟩
  | cons a l ih =>
    intro t m ns h1 h2 t' m' ns' he
    rw [List.foldl_cons] at he
    rw [dupCopyStep_eq_some] at he
    split at he
    · exact ih t m ns h1 h2 t' m' ns' he
    · split at he
      · rw [dupCopyStep_none_foldl] at he
        exact absurd he (by simp)
      · refine ih _ _ _ (h1.trans ?_) (h2.trans ?_) t' m' ns' he
        · exact (addNode_mono cat t _ _ _).1
        · exact (addNode_mono cat t _ _ _).2

theorem dupPhase1_dirty_strict (cat : Catalog) :
    ∀ (l : List UId) (t : GraphState)
      (m : List (FullPinId × FullPinId)) (ns : List UId) (nid : UId),
      nid ∈ l → (lookupA t.nodes nid).isSome = true →
      ∀ t' m' ns',
        l.foldl (dupCopyStep cat) (some (t, m, ns)) = some (t', m', ns') →
        t.dirtyCount < t'.dirtyCount := by
  intro l
  induction l with
  | nil =>
    intro t m ns nid hmem
    simp at hmem
  | cons a l ih =>
    intro t m ns nid hmem hlive t' m' ns' he
    rw [List.foldl_cons, dupCopyStep_eq_some] at he
    split at he
    · rename_i hnone
      rcases List.mem_cons.mp hmem with rfl | hmem'
      · rw [hnone] at hlive
        exact absurd hlive (by simp)
      · exact ih t m ns nid hmem' hlive t' m' ns' he
    · rename_i oldNode hsome
      split at he
      · rw [dupCopyStep_none_foldl] at he
        exact absurd he (by simp)
      · rename_i newNode hnew
        have hfull : addNode cat t oldNode.nodeKey (oldNode.x + 20)
            (oldNode.y + 20) = (some newNode,
              (addNode cat t oldNode.nodeKey (oldNode.x + 20)
                (oldNode.y + 20)).2) := by
          rw [← hnew]
        have hsc := addNode_success_counts cat t oldNode.nodeKey
          (oldNode.x + 20) (oldNode.y + 20) newNode _ hfull
        have hrest := dupPhase1_counts cat 0 (t.dirtyCount + 1) l _ _ _
          (Nat.zero_le _) (le_of_eq hsc.2.symm) t' m' ns' he
        omega

theorem repointStep_counts (oldRef newRef : Nat) (s : GraphState)
    (lid : UId) :
    (repointStep oldRef newRef s lid).saveCount = s.saveCount ∧
    (repointStep oldRef newRef s lid).dirtyCount = s.dirtyCount := by
  unfold repointStep
  cases lookupA s.links lid with
  | none => exact ⟨rfl, rfl⟩
  | some link => exact ⟨rfl, rfl⟩

theorem repointFold_counts (oldRef newRef : Nat) (l : List UId)
    (s : GraphState) :
    (l.foldl (repointStep oldRef newRef) s).saveCount = s.saveCount ∧
    (l.foldl (repointStep oldRef newRef) s).dirtyCount = s.dirtyCount := by
  induction l generalizing s with
  | nil => exact ⟨rfl, rfl⟩
  | cons a l ih =>
    rw [List.foldl_cons]
    have h1 := repointStep_counts oldRef newRef s a
    have h2 := ih (repointStep oldRef newRef s a)
    exact ⟨h2.1.trans h1.1, h2.2.trans h1.2⟩

theorem syncPinStep_counts (oldPinsMap : List (FullPinId × Nat))
    (acc : GraphState × Node × List Nat) (sp : PinSpec) :
    (syncPinStep oldPinsMap acc sp).1.saveCount = acc.1.saveCount ∧
    (syncPinStep oldPinsMap acc sp).1.dirtyCount = acc.1.dirtyCount := by
  unfold syncPinStep
  cases hv : (lookupA oldPinsMap ⟨acc.2.1.id, sp.id⟩).bind
      (fun oldRef => (heapGet acc.1 oldRef).map (fun p => (oldRef, p))) with
  | none => exact ⟨rfl, rfl⟩
  | some v =>
    obtain ⟨oldRef, oldPin⟩ := v
    have h := repointFold_counts oldRef
      (allocPin acc.1 { mkPin acc.2.1.id sp with
        links := oldPin.links, defaultValue := oldPin.defaultValue }).1
      oldPin.links
      (allocPin acc.1 { mkPin acc.2.1.id sp with
        links := oldPin.links, defaultValue := oldPin.defaultValue }).2
    exact ⟨h.1, h.2⟩

theorem syncFold_counts (m : List (FullPinId × Nat)) (l : List PinSpec)
    (acc : GraphState × Node × List Nat) :
    (l.foldl (syncPinStep m) acc).1.saveCount = acc.1.saveCount ∧
    (l.foldl (syncPinStep m) acc).1.dirtyCount = acc.1.dirtyCount := by
  induction l generalizing acc with
  | nil => exact ⟨rfl, rfl⟩
  | cons sp rest ih =>
    rw [List.foldl_cons]
    have h1 := syncPinStep_counts m acc sp
    have h2 := ih (syncPinStep m acc sp)
    exact ⟨h2.1.trans h1.1, h2.2.trans h1.2⟩

theorem synchronizeNodeWithTemplate_counts (cat : Catalog)
    (s : GraphState) (nid : UId) :
    (synchronizeNodeWithTemplate cat s nid).saveCount = s.saveCount ∧
    (synchronizeNodeWithTemplate cat s nid).dirtyCount = s.dirtyCount := by
  unfold synchronizeNodeWithTemplate
  cases lookupA s.nodes nid with
  | none => exact ⟨rfl, rfl⟩
  | some node =>
    simp only
    cases cat.get node.nodeKey with
    | none => exact ⟨rfl, rfl⟩
    | some template =>
      exact ⟨(syncFold_counts _ _ _).1, (syncFold_counts _ _ _).2⟩

theorem breakLinkById_counts_some (s : GraphState) (lid : UId)
    (link : Link) (h : lookupA s.links lid = some link) :
    (breakLinkById s lid).saveCount = s.saveCount + 1 ∧
    (breakLinkById s lid).dirtyCount = s.dirtyCount + 1 := by
  unfold breakLinkById
  rw [h]
  simp only
  rw [modifyPinLinks_only_heap s]
  rw [modifyPinLinks_only_heap { s with pinHeap := _ }]
  exact ⟨rfl, rfl⟩

theorem dupLinkStep_counts (cat : Catalog)
    (m : List (FullPinId × FullPinId)) (s : GraphState) (l : Link) :
    s.saveCount ≤ (dupLinkStep cat m s l).saveCount ∧
    s.dirtyCount ≤ (dupLinkStep cat m s l).dirtyCount := by
  unfold dupLinkStep
  repeat' split
  all_goals
    first
      | exact createConnection_mono cat s _ _
      | exact ⟨le_refl _, le_refl _⟩

theorem dupLinkFold_counts (cat : Catalog)
    (m : List (FullPinId × FullPinId)) (l : List Link) (s : GraphState) :
    s.saveCount ≤ (l.foldl (dupLinkStep cat m) s).saveCount ∧
    s.dirtyCount ≤ (l.foldl (dupLinkStep cat m) s).dirtyCount := by
  induction l generalizing s with
  | nil => exact ⟨le_refl _, le_refl _⟩
  | cons a l ih =>
    rw [List.foldl_cons]
    have h1 := dupLinkStep_counts cat m s a
    have h2 := ih (dupLinkStep cat m s a)
    exact ⟨h1.1.trans h2.1, h1.2.trans h2.2⟩

theorem selectNode_foldl_counts (l : List UId) (s : GraphState) :
    (l.foldl (fun s nid => selectNode s nid true "add") s).saveCount =
      s.saveCount ∧
    (l.foldl (fun s nid => selectNode s nid true "add") s).dirtyCount =
      s.dirtyCount := by
  induction l generalizing s with
  | nil => exact ⟨rfl, rfl⟩
  | cons a l ih =>
    rw [List.foldl_cons]
    have h := ih (selectNode s a true "add")
    exact ⟨h.1.trans (by rw [selectNode_only_selection s a true "add"]),
           h.2.trans (by rw [selectNode_only_selection s a true "add"])⟩

theorem duplicateSelectedNodes_strict (cat : Catalog) (s : GraphState)
    (s' : GraphState) (nid : UId) (hmem : nid ∈ s.selectedNodes)
    (hlive : (lookupA s.nodes nid).isSome = true)
    (hdup : duplicateSelectedNodes cat s = some s') :
    s.saveCount < s'.saveCount ∧ s.dirtyCount < s'.dirtyCount := by
  unfold duplicateSelectedNodes at hdup
  rw [if_neg (by intro hnil; rw [hnil] at hmem; simp at hmem)] at hdup
  cases hf : s.selectedNodes.foldl (dupCopyStep cat) (some (s, [], [])) with
  | none =>
    rw [hf] at hdup
    exact absurd hdup (by simp)
  | some acc =>
    obtain ⟨s1, m1, ns1⟩ := acc
    rw [hf] at hdup
    simp only [Option.some.injEq] at hdup
    have hp1 := dupPhase1_counts cat s.saveCount s.dirtyCount
      s.selectedNodes s [] [] (le_refl _) (le_refl _) s1 m1 ns1 hf
    have hp1d := dupPhase1_dirty_strict cat s.selectedNodes s [] [] nid
      hmem hlive s1 m1 ns1 hf
    have hp2 := dupLinkFold_counts cat m1 (linkVals s1) s1
    have hp3 := selectNode_foldl_counts ns1
      (clearSelection (clearLinkSelection
        ((linkVals s1).foldl (dupLinkStep cat m1) s1)))
    rw [← hdup]
    simp only [clearSelection, clearLinkSelection] at hp3 ⊢
    omega

/-- C8 (amended): link create and link break fire both `autoSave` and
`markDirty`, node delete on a non-empty selection fires both, node
duplicate fires both provided some selected node is live (every
duplicated node's `addNode` marks dirty and the final step autosaves);
but node add fires only `markDirty` (its callers autosave separately),
and a template resync fires neither notification. -/
theorem notifications_spec :
    (∀ (s : GraphState) (lid : UId) (link : Link),
        lookupA s.links lid = some link →
        (breakLinkById s lid).saveCount = s.saveCount + 1 ∧
        (breakLinkById s lid).dirtyCount = s.dirtyCount + 1) ∧
    (∀ (cat : Catalog) (s : GraphState) (ra rb : Nat) (pa pb : Pin),
        heapGet s ra = some pa → heapGet s rb = some pb →
        s.saveCount < (createConnection cat s (some ra) (some rb)).saveCount ∧
        s.dirtyCount <
          (createConnection cat s (some ra) (some rb)).dirtyCount) ∧
    (∀ s : GraphState, s.selectedNodes ≠ [] →
        s.saveCount < (deleteSelectedNodes s).saveCount ∧
        s.dirtyCount < (deleteSelectedNodes s).dirtyCount) ∧
    (∀ (cat : Catalog) (s s' : GraphState) (nid : UId),
        nid ∈ s.selectedNodes → (lookupA s.nodes nid).isSome = true →
        duplicateSelectedNodes cat s = some s' →
        s.saveCount < s'.saveCount ∧ s.dirtyCount < s'.dirtyCount) ∧
    (∀ (cat : Catalog) (s : GraphState) (key : String) (x y : Int)
        (n : Node) (s' : GraphState),
        addNode cat s key x y = (some n, s') →
        s'.saveCount = s.saveCount ∧ s'.dirtyCount = s.dirtyCount + 1) ∧
    (∀ (cat : Catalog) (s : GraphState) (nid : UId),
        (synchronizeNodeWithTemplate cat s nid).saveCount = s.saveCount ∧
        (synchronizeNodeWithTemplate cat s nid).dirtyCount = s.dirtyCount) :=
  ⟨breakLinkById_counts_some,
   createConnection_strict,
   fun s hne => deleteSelectedNodes_strict s hne,
   fun cat s s' nid hm hl hd => duplicateSelectedNodes_strict cat s s' nid hm hl hd,
   addNode_success_counts,
   synchronizeNodeWithTemplate_counts⟩

/-- Witness for C8 (amended) at a concrete input: breaking the one link
of `wS3` fires one `autoSave` and one `markDirty`. -/
theorem notifications_spec_witness :
    (breakLinkById wS3 ⟨"link", 2⟩).saveCount = wS3.saveCount + 1 ∧
    (breakLinkById wS3 ⟨"link", 2⟩).dirtyCount = wS3.dirtyCount + 1 :=
  notifications_spec.1 wS3 ⟨"link", 2⟩
    ⟨⟨"link", 2⟩, 0, 3⟩ (by decide)

/-! ## Heap characterization of node construction -/

/-- The heap segment allocated for a node's pins: one cell per spec,
with consecutive references starting at `base`. -/
def pinsChunk (nid : UId) : Nat → List PinSpec → List (Nat × Pin)
  | _, [] => []
  | base, sp :: rest => (base, mkPin nid sp) :: pinsChunk nid (base + 1) rest

theorem pinsChunk_keys_ge (nid : UId) :
    ∀ (specs : List PinSpec) (base : Nat) (kp : Nat × Pin),
      kp ∈ pinsChunk nid base specs → base ≤ kp.1 := by
  intro specs
  induction specs with
  | nil => intro base kp h; simp [pinsChunk] at h
  | cons sp rest ih =>
    intro base kp h
    rcases List.mem_cons.mp h with rfl | h
    · exact le_refl _
    · exact (Nat.le_succ _).trans (ih (base + 1) kp h)

theorem lookupA_pinsChunk_lt (nid : UId) :
    ∀ (specs : List PinSpec) (base k : Nat), k < base →
      lookupA (pinsChunk nid base specs) k = none := by
  intro specs
  induction specs with
  | nil => intro base k _; rfl
  | cons sp rest ih =>
    intro base k hk
    show lookupA ((base, mkPin nid sp) :: _) k = none
    rw [lookupA, if_neg (by omega)]
    exact ih (base + 1) k (by omega)

theorem lookupA_pinsChunk (nid : UId) :
    ∀ (specs : List PinSpec) (base : Nat) (i : Nat) (hi : i < specs.length),
      lookupA (pinsChunk nid base specs) (base + i) =
        some (mkPin nid (specs.get ⟨i, hi⟩)) := by
  intro specs
  induction specs with
  | nil => intro base i hi; simp at hi
  | cons sp rest ih =>
    intro base i hi
    cases i with
    | zero =>
      show lookupA ((base, mkPin nid sp) :: _) base = _
      rw [lookupA, if_pos rfl]
      rfl
    | succ j =>
      show lookupA ((base, mkPin nid sp) :: _) (base + (j + 1)) = _
      rw [lookupA, if_neg (by omega)]
      have := ih (base + 1) j (by simpa using hi)
      rw [show base + (j + 1) = (base + 1) + j by omega]
      exact this

theorem allocPins_spec (nid : UId) :
    ∀ (specs : List PinSpec) (acc : List Nat × GraphState),
      (allocPins nid specs acc).1 =
        acc.1 ++ (List.range specs.length).map (fun i => acc.2.nextRef + i) ∧
      (allocPins nid specs acc).2.pinHeap =
        acc.2.pinHeap ++ pinsChunk nid acc.2.nextRef specs ∧
      (allocPins nid specs acc).2.nextRef =
        acc.2.nextRef + specs.length := by
  intro specs
  induction specs with
  | nil =>
    intro acc
    refine ⟨by simp [allocPins], ?_, rfl⟩
    show acc.2.pinHeap = acc.2.pinHeap ++ pinsChunk nid acc.2.nextRef []
    simp [pinsChunk]
  | cons sp rest ih =>
    intro acc
    have h := ih (acc.1 ++ [(allocPin acc.2 (mkPin nid sp)).1],
      (allocPin acc.2 (mkPin nid sp)).2)
    refine ⟨?_, ?_, ?_⟩
    · show (allocPins nid rest
        (acc.1 ++ [(allocPin acc.2 (mkPin nid sp)).1],
         (allocPin acc.2 (mkPin nid sp)).2)).1 = _
      rw [h.1, List.length_cons, List.range_succ_eq_map]
      simp only [List.map_cons, List.map_map, List.append_assoc,
        List.singleton_append]
      congr 1
      congr 1
      apply List.map_congr_left
      intro i _
      show acc.2.nextRef + 1 + i = acc.2.nextRef + (i + 1)
      omega
    · show (allocPins nid rest
        (acc.1 ++ [(allocPin acc.2 (mkPin nid sp)).1],
         (allocPin acc.2 (mkPin nid sp)).2)).2.pinHeap = _
      rw [h.2.1]
      show (acc.2.pinHeap ++ [(acc.2.nextRef, mkPin nid sp)]) ++
          pinsChunk nid (acc.2.nextRef + 1) rest = _
      rw [List.append_assoc]
      rfl
    · show (allocPins nid rest
        (acc.1 ++ [(allocPin acc.2 (mkPin nid sp)).1],
         (allocPin acc.2 (mkPin nid sp)).2)).2.nextRef = _
      rw [h.2.2]
      show acc.2.nextRef + 1 + rest.length = acc.2.nextRef + (sp :: rest).length
      rw [List.length_cons]
      omega

theorem mkNode_fields (s : GraphState) (nid : UId) (ttl : String)
    (specs : List PinSpec) (x y : Int) (key : String) :
    (mkNode s nid ttl specs x y key).1.id = nid ∧
    (mkNode s nid ttl specs x y key).1.x = x ∧
    (mkNode s nid ttl specs x y key).1.y = y ∧
    (mkNode s nid ttl specs x y key).1.nodeKey = key ∧
    (mkNode s nid ttl specs x y key).1.title = ttl ∧
    (mkNode s nid ttl specs x y key).1.pins =
      (List.range specs.length).map (fun i => s.nextRef + i) ∧
    (mkNode s nid ttl specs x y key).1.pinLiterals =
      specs.map (fun sp => (⟨nid, sp.id⟩, sp.defaultValue)) ∧
    (mkNode s nid ttl specs x y key).2.pinHeap =
      s.pinHeap ++ pinsChunk nid s.nextRef specs ∧
    (mkNode s nid ttl specs x y key).2.nextRef = s.nextRef + specs.length := by
  have h := allocPins_spec nid specs ([], s)
  exact ⟨rfl, rfl, rfl, rfl, rfl, by simpa using h.1, rfl,
    h.2.1, h.2.2⟩

theorem heapGet_mkNode_old (s : GraphState) (nid : UId) (ttl : String)
    (specs : List PinSpec) (x y : Int) (key : String) (r : Nat) (p : Pin)
    (h : heapGet s r = some p) :
    heapGet (mkNode s nid ttl specs x y key).2 r = some p := by
  show lookupA _ r = some p
  rw [(mkNode_fields s nid ttl specs x y key).2.2.2.2.2.2.2.1]
  exact lookupA_append_left h

theorem heapGet_mkNode_new (s : GraphState) (nid : UId) (ttl : String)
    (specs : List PinSpec) (x y : Int) (key : String) (i : Nat)
    (hi : i < specs.length)
    (hbound : ∀ rp ∈ s.pinHeap, rp.1 < s.nextRef) :
    heapGet (mkNode s nid ttl specs x y key).2 (s.nextRef + i) =
      some (mkPin nid (specs.get ⟨i, hi⟩)) := by
  show lookupA _ _ = _
  rw [(mkNode_fields s nid ttl specs x y key).2.2.2.2.2.2.2.1]
  rw [lookupA_append_right]
  · exact lookupA_pinsChunk nid specs s.nextRef i hi
  · intro hmem
    obtain ⟨rp, hrp, hfst⟩ := List.mem_map.mp hmem
    have := hbound rp hrp
    omega

theorem heapGet_modifyPinLinks_self (s : GraphState) (r : Nat)
    (f : List UId → List UId) (p : Pin) (h : heapGet s r = some p) :
    heapGet (modifyPinLinks s r f) r = some { p with links := f p.links } := by
  unfold modifyPinLinks
  rw [h]
  show lookupA (setA s.pinHeap r _) r = _
  exact lookupA_setA_self _ _ _

theorem heapGet_modifyPinLinks_other (s : GraphState) (r r' : Nat)
    (f : List UId → List UId) (h : r' ≠ r) :
    heapGet (modifyPinLinks s r f) r' = heapGet s r' := by
  unfold modifyPinLinks
  cases heapGet s r with
  | none => rfl
  | some p =>
    show lookupA (setA s.pinHeap r _) r' = lookupA s.pinHeap r'
    exact lookupA_setA_ne _ h

theorem nodeFindPinById_heapEq (s2 s3 : GraphState) (n : Node)
    (pid : FullPinId) (hheap : s2.pinHeap = s3.pinHeap) :
    nodeFindPinById s2 n pid = nodeFindPinById s3 n pid := by
  unfold nodeFindPinById
  congr 1
  funext r
  unfold pinIdAt heapGet
  rw [hheap]

theorem mkNode_findPin_none (s : GraphState) (nid : UId) (ttl : String)
    (specs : List PinSpec) (x y : Int) (key : String) (loc : String)
    (hbound : ∀ rp ∈ s.pinHeap, rp.1 < s.nextRef)
    (hloc : loc ∉ specs.map PinSpec.id) :
    nodeFindPinById (mkNode s nid ttl specs x y key).2
      (mkNode s nid ttl specs x y key).1 ⟨nid, loc⟩ = none := by
  unfold nodeFindPinById
  rw [List.find?_eq_none]
  intro r hr
  rw [(mkNode_fields s nid ttl specs x y key).2.2.2.2.2.1] at hr
  obtain ⟨i, hi, rfl⟩ := List.mem_map.mp hr
  have hi' : i < specs.length := List.mem_range.mp hi
  have hg := heapGet_mkNode_new s nid ttl specs x y key i hi' hbound
  simp only [pinIdAt, hg, Option.map_some', mkPin, decide_eq_true_eq,
    Option.some.injEq, FullPinId.mk.injEq]
  intro hcontra
  exact hloc (List.mem_map.mpr
    ⟨specs.get ⟨i, hi'⟩, List.get_mem _ _ _, hcontra.2⟩)

theorem addNode_success_eq (cat : Catalog) (s : GraphState) (key : String)
    (x y : Int) (t : NodeTemplate) (ht : cat.get key = some t)
    (hsing : t.isSingleton = false) :
    addNode cat s key x y =
      (some (mkNode { s with counter := s.counter + 1 } ⟨"node", s.counter⟩
          t.title t.pins x y key).1,
       { (mkNode { s with counter := s.counter + 1 } ⟨"node", s.counter⟩
            t.title t.pins x y key).2 with
         nodes := setA (mkNode { s with counter := s.counter + 1 }
             ⟨"node", s.counter⟩ t.title t.pins x y key).2.nodes
           ⟨"node", s.counter⟩
           (mkNode { s with counter := s.counter + 1 } ⟨"node", s.counter⟩
              t.title t.pins x y key).1,
         dirtyCount := (mkNode { s with counter := s.counter + 1 }
             ⟨"node", s.counter⟩ t.title t.pins x y key).2.dirtyCount + 1 }) := by
  unfold addNode
  rw [ht]
  simp only [hsing, Bool.false_eq_true, if_false]
  rfl

theorem addNode_findPin_missing (cat : Catalog) (s : GraphState)
    (key : String) (x y : Int) (t : NodeTemplate) (n : Node)
    (s2 : GraphState) (loc : String)
    (ht : cat.get key = some t) (hsing : t.isSingleton = false)
    (hres : addNode cat s key x y = (some n, s2))
    (hbound : ∀ rp ∈ s.pinHeap, rp.1 < s.nextRef)
    (hloc : loc ∉ t.pins.map PinSpec.id) :
    nodeFindPinById s2 n ⟨n.id, loc⟩ = none := by
  rw [addNode_success_eq cat s key x y t ht hsing, Prod.mk.injEq] at hres
  obtain ⟨hn, hs2⟩ := hres
  rw [Option.some.injEq] at hn
  subst hn
  subst hs2
  refine Eq.trans (nodeFindPinById_heapEq _
    ((mkNode { s with counter := s.counter + 1 } ⟨"node", s.counter⟩
      t.title t.pins x y key).2) _ _ rfl) ?_
  rw [(mkNode_fields { s with counter := s.counter + 1 } ⟨"node", s.counter⟩
      t.title t.pins x y key).1]
  exact mkNode_findPin_none _ _ _ _ _ _ _ _
    (fun rp hrp => hbound rp hrp) hloc

theorem addLink_core (s1 : GraphState) (a b : Nat) (lid : UId) (p q : Pin)
    (hga : heapGet s1 a = some p) (hgb : heapGet s1 b = some q)
    (hab : a ≠ b) :
    (modifyPinLinks (modifyPinLinks s1 a (fun ls => ls ++ [lid])) b
        (fun ls => ls ++ [lid])).links = s1.links ∧
    (modifyPinLinks (modifyPinLinks s1 a (fun ls => ls ++ [lid])) b
        (fun ls => ls ++ [lid])).nodes = s1.nodes ∧
    heapGet (modifyPinLinks (modifyPinLinks s1 a (fun ls => ls ++ [lid])) b
        (fun ls => ls ++ [lid])) a =
      some { p with links := p.links ++ [lid] } ∧
    heapGet (modifyPinLinks (modifyPinLinks s1 a (fun ls => ls ++ [lid])) b
        (fun ls => ls ++ [lid])) b =
      some { q with links := q.links ++ [lid] } := by
  refine ⟨?_, ?_, ?_, ?_⟩
  · rw [modifyPinLinks_only_heap (modifyPinLinks s1 a
      (fun ls => ls ++ [lid])) b (fun ls => ls ++ [lid])]
    rw [modifyPinLinks_only_heap s1 a (fun ls => ls ++ [lid])]
  · rw [modifyPinLinks_only_heap (modifyPinLinks s1 a
      (fun ls => ls ++ [lid])) b (fun ls => ls ++ [lid])]
    rw [modifyPinLinks_only_heap s1 a (fun ls => ls ++ [lid])]
  · rw [heapGet_modifyPinLinks_other _ b a _ hab]
    exact heapGet_modifyPinLinks_self s1 a _ p hga
  · apply heapGet_modifyPinLinks_self
    rw [heapGet_modifyPinLinks_other _ a b _ (Ne.symm hab)]
    exact hgb

theorem connectDirect_spec (s0 : GraphState) (a b : Nat) (p q : Pin)
    (hga : heapGet s0 a = some p) (hgb : heapGet s0 b = some q)
    (hab : a ≠ b)
    (hfresh : ∀ kl ∈ s0.links, kl.1.num < s0.counter) :
    (connectDirect s0 a b).links = s0.links ++
      [(⟨"link", s0.counter⟩, ⟨⟨"link", s0.counter⟩, a, b⟩)] ∧
    heapGet (connectDirect s0 a b) a =
      some { p with links := p.links ++ [⟨"link", s0.counter⟩] } ∧
    heapGet (connectDirect s0 a b) b =
      some { q with links := q.links ++ [⟨"link", s0.counter⟩] } ∧
    (connectDirect s0 a b).nodes = s0.nodes := by
  have hfreshKey : (⟨"link", s0.counter⟩ : UId) ∉ s0.links.map Prod.fst := by
    intro hmem
    obtain ⟨kl, hkl, hfst⟩ := List.mem_map.mp hmem
    have := hfresh kl hkl
    rw [hfst] at this
    exact absurd this (by simp)
  obtain ⟨h1, h2, h3, h4⟩ := addLink_core
    { s0 with
      links := (setA s0.links ⟨"link", s0.counter⟩
        ⟨⟨"link", s0.counter⟩, a, b⟩),
      counter := s0.counter + 1 }
    a b ⟨"link", s0.counter⟩ p q hga hgb hab
  refine ⟨Eq.trans h1 (setA_fresh _ hfreshKey), h3, h4, Eq.trans h2 rfl⟩

/-! ## C3: adapter rollback in `createConnection` -/

/-- A source template with one float output pin. -/
def c3TF : NodeTemplate :=
  ⟨"F", [⟨"o", "Out", "float", PinDir.output, "scalar", none, false⟩], false⟩

/-- A destination template with one string input pin. -/
def c3TG : NodeTemplate :=
  ⟨"G", [⟨"i", "In", "string", PinDir.input, "scalar", none, false⟩], false⟩

/-- A broken conversion-adapter template exposing neither `val_in` nor
`val_out`. -/
def c3TConv : NodeTemplate := ⟨"F2S", [], false⟩

/-- A catalog registering `F2S` as the float→string adapter. -/
def c3Cat : Catalog :=
  ⟨fun k => if k = "F" then some c3TF else if k = "G" then some c3TG
    else if k = "F2S" then some c3TConv else none,
   fun a b => if a = "float" ∧ b = "string" then some "F2S" else none⟩

/-- A two-node state: an `F` instance (output pin at heap ref 0) and a
`G` instance (input pin at heap ref 1), no links. -/
def c3S : GraphState :=
  (addNode c3Cat (addNode c3Cat emptyState "F" 0 0).2 "G" 0 0).2

/-- The float output pin of `c3S` at heap ref 0. -/
def c3PinA : Pin :=
  ⟨⟨⟨"node", 0⟩, "o"⟩, "Out", "float", PinDir.output, "scalar", none,
   [], false⟩

/-- The string input pin of `c3S` at heap ref 1. -/
def c3PinB : Pin :=
  ⟨⟨⟨"node", 1⟩, "i"⟩, "In", "string", PinDir.input, "scalar", none,
   [], false⟩

/-- C3 counterexample: connecting a float output to a string input
through an adapter template that exposes neither `val_in` nor `val_out`
does roll the adapter node back (the node collection keeps exactly the
original two nodes), but a direct link is still created, contradicting
"no connection is made — the link collection and both pins' link lists
are left unchanged". -/
theorem createConnection_rollback_counterexample :
    (createConnection c3Cat c3S (some 0) (some 1)).nodes.map Prod.fst =
      c3S.nodes.map Prod.fst ∧
    c3S.links = [] ∧
    (createConnection c3Cat c3S (some 0) (some 1)).links.length = 1 := by
  decide

/-- C3 (amended): when the value types differ, an adapter key is
registered and instantiable, but the instantiated adapter lacks
`val_in` or `val_out`, `createConnection` removes the adapter node
(restoring the node collection) and then falls through to a direct
link: exactly one link between the two original pins is appended to the
link collection and to both pins' link lists, symmetrically in argument
order. -/
theorem createConnection_rollback (cat : Catalog) (s : GraphState)
    (ra rb : Nat) (pa pb : Pin) (convKey : String) (t : NodeTemplate)
    (ha : heapGet s ra = some pa) (hb : heapGet s rb = some pb)
    (hdira : pa.dir = PinDir.output) (hdirb : pb.dir = PinDir.input)
    (hexa : pa.ty ≠ "exec") (hexb : pb.ty ≠ "exec")
    (hmm : pa.ty ≠ pb.ty)
    (hnorepl : ¬((getMaxLinksIsOne pb && isConnected pb) = true))
    (hconv : cat.conv pa.ty pb.ty = some convKey)
    (ht : cat.get convKey = some t) (hsing : t.isSingleton = false)
    (hport : "val_in" ∉ t.pins.map PinSpec.id ∨
             "val_out" ∉ t.pins.map PinSpec.id)
    (hrr : ra ≠ rb)
    (hbound : ∀ rp ∈ s.pinHeap, rp.1 < s.nextRef)
    (hnfresh : (⟨"node", s.counter⟩ : UId) ∉ s.nodes.map Prod.fst)
    (hlfresh : ∀ kl ∈ s.links, kl.1.num < s.counter) :
    (createConnection cat s (some ra) (some rb)).nodes = s.nodes ∧
    (createConnection cat s (some ra) (some rb)).links = s.links ++
      [(⟨"link", s.counter + 1⟩, ⟨⟨"link", s.counter + 1⟩, ra, rb⟩)] ∧
    heapGet (createConnection cat s (some ra) (some rb)) ra =
      some { pa with links := pa.links ++ [⟨"link", s.counter + 1⟩] } ∧
    heapGet (createConnection cat s (some ra) (some rb)) rb =
      some { pb with links := pb.links ++ [⟨"link", s.counter + 1⟩] } ∧
    createConnection cat s (some ra) (some rb) =
      createConnection cat s (some rb) (some ra) := by
  have heq : createConnection cat s (some ra) (some rb) =
      connectDirect
        { (mkNode { s with counter := s.counter + 1 } ⟨"node", s.counter⟩
            t.title t.pins 0 0 convKey).2 with
          nodes := eraseA
            (setA (mkNode { s with counter := s.counter + 1 }
                ⟨"node", s.counter⟩ t.title t.pins 0 0 convKey).2.nodes
              ⟨"node", s.counter⟩
              (mkNode { s with counter := s.counter + 1 }
                ⟨"node", s.counter⟩ t.title t.pins 0 0 convKey).1)
            ⟨"node", s.counter⟩,
          dirtyCount := (mkNode { s with counter := s.counter + 1 }
              ⟨"node", s.counter⟩ t.title t.pins 0 0 convKey).2.dirtyCount
            + 1 } ra rb := by
    unfold createConnection
    simp only [ha, hb, hdira, hdirb, pinDir_if_oo, pinDir_if_oi,
      pinDir_if_io, pinDir_if_ii, eq_self_iff_true, if_true]
    rw [if_neg hnorepl]
    rw [if_pos ⟨fun h => h.elim hexa hexb, hmm⟩]
    rw [hconv]
    simp only []
    rw [addNode_success_eq cat s convKey 0 0 t ht hsing]
    simp only []
    cases hport with
    | inl hin =>
      rw [addNode_findPin_missing cat s convKey 0 0 t _ _ "val_in" ht hsing
        (addNode_success_eq cat s convKey 0 0 t ht hsing) hbound hin]
      rfl
    | inr hout =>
      rw [addNode_findPin_missing cat s convKey 0 0 t _ _ "val_out" ht hsing
        (addNode_success_eq cat s convKey 0 0 t ht hsing) hbound hout]
      split
      · rename_i hco
        exact Option.noConfusion hco
      · rfl
  have heq2 : createConnection cat s (some rb) (some ra) =
      connectDirect
        { (mkNode { s with counter := s.counter + 1 } ⟨"node", s.counter⟩
            t.title t.pins 0 0 convKey).2 with
          nodes := eraseA
            (setA (mkNode { s with counter := s.counter + 1 }
                ⟨"node", s.counter⟩ t.title t.pins 0 0 convKey).2.nodes
              ⟨"node", s.counter⟩
              (mkNode { s with counter := s.counter + 1 }
                ⟨"node", s.counter⟩ t.title t.pins 0 0 convKey).1)
            ⟨"node", s.counter⟩,
          dirtyCount := (mkNode { s with counter := s.counter + 1 }
              ⟨"node", s.counter⟩ t.title t.pins 0 0 convKey).2.dirtyCount
            + 1 } ra rb := by
    unfold createConnection
    simp only [ha, hb, hdira, hdirb, pinDir_if_oo, pinDir_if_oi,
      pinDir_if_io, pinDir_if_ii, eq_self_iff_true, if_true]
    rw [if_neg hnorepl]
    rw [if_pos ⟨fun h => h.elim hexa hexb, hmm⟩]
    rw [hconv]
    simp only []
    rw [addNode_success_eq cat s convKey 0 0 t ht hsing]
    simp only []
    cases hport with
    | inl hin =>
      rw [addNode_findPin_missing cat s convKey 0 0 t _ _ "val_in" ht hsing
        (addNode_success_eq cat s convKey 0 0 t ht hsing) hbound hin]
      rfl
    | inr hout =>
      rw [addNode_findPin_missing cat s convKey 0 0 t _ _ "val_out" ht hsing
        (addNode_success_eq cat s convKey 0 0 t ht hsing) hbound hout]
      split
      · rename_i hco
        exact Option.noConfusion hco
      · rfl
  obtain ⟨hl, hpa, hpb, hn⟩ := connectDirect_spec
    { (mkNode { s with counter := s.counter + 1 } ⟨"node", s.counter⟩
            t.title t.pins 0 0 convKey).2 with
          nodes := eraseA
            (setA (mkNode { s with counter := s.counter + 1 }
                ⟨"node", s.counter⟩ t.title t.pins 0 0 convKey).2.nodes
              ⟨"node", s.counter⟩
              (mkNode { s with counter := s.counter + 1 }
                ⟨"node", s.counter⟩ t.title t.pins 0 0 convKey).1)
            ⟨"node", s.counter⟩,
          dirtyCount := (mkNode { s with counter := s.counter + 1 }
              ⟨"node", s.counter⟩ t.title t.pins 0 0 convKey).2.dirtyCount
            + 1 }
    ra rb pa pb
    (heapGet_mkNode_old { s with counter := s.counter + 1 }
      ⟨"node", s.counter⟩ t.title t.pins 0 0 convKey ra pa ha)
    (heapGet_mkNode_old { s with counter := s.counter + 1 }
      ⟨"node", s.counter⟩ t.title t.pins 0 0 convKey rb pb hb)
    hrr
    (by rw [mkNode_only_heap]
        intro kl hkl
        exact Nat.lt_succ_of_lt (hlfresh kl hkl))
  refine ⟨?_, ?_, ?_, ?_, ?_⟩
  · rw [heq, hn]
    show eraseA
        (setA (mkNode { s with counter := s.counter + 1 }
            ⟨"node", s.counter⟩ t.title t.pins 0 0 convKey).2.nodes
          ⟨"node", s.counter⟩
          (mkNode { s with counter := s.counter + 1 }
            ⟨"node", s.counter⟩ t.title t.pins 0 0 convKey).1)
        ⟨"node", s.counter⟩ = s.nodes
    rw [show (mkNode { s with counter := s.counter + 1 }
        ⟨"node", s.counter⟩ t.title t.pins 0 0 convKey).2.nodes = s.nodes from
      by rw [mkNode_only_heap]]
    rw [setA_fresh _ hnfresh, eraseA_append, eraseA_fresh hnfresh]
    simp [eraseA]
  · rw [heq, hl, mkNode_only_heap]
  · rw [heq, hpa, mkNode_only_heap]
  · rw [heq, hpb, mkNode_only_heap]
  · rw [heq, heq2]

/-- Witness for C3 (amended) at a concrete input. -/
theorem createConnection_rollback_witness :
    (createConnection c3Cat c3S (some 0) (some 1)).nodes = c3S.nodes ∧
    (createConnection c3Cat c3S (some 0) (some 1)).links = c3S.links ++
      [(⟨"link", c3S.counter + 1⟩, ⟨⟨"link", c3S.counter + 1⟩, 0, 1⟩)] ∧
    heapGet (createConnection c3Cat c3S (some 0) (some 1)) 0 =
      some { c3PinA with links := c3PinA.links ++
        [⟨"link", c3S.counter + 1⟩] } ∧
    heapGet (createConnection c3Cat c3S (some 0) (some 1)) 1 =
      some { c3PinB with links := c3PinB.links ++
        [⟨"link", c3S.counter + 1⟩] } ∧
    createConnection c3Cat c3S (some 0) (some 1) =
      createConnection c3Cat c3S (some 1) (some 0) :=
  createConnection_rollback c3Cat c3S 0 1 c3PinA c3PinB "F2S" c3TConv
    (by decide) (by decide) (by decide) (by decide) (by decide)
    (by decide) (by decide) (by decide) (by decide) (by rfl) (by rfl)
    (Or.inl (by decide)) (by decide) (by decide) (by decide) (by decide)

/-! ## C10: `createConnection` validates nothing -/

theorem _addLink_adds (s0 : GraphState) (a b : Nat) :
    lookupA (_addLink s0 a b).links ⟨"link", s0.counter⟩ =
      some ⟨⟨"link", s0.counter⟩, a, b⟩ := by
  unfold _addLink uniqueId
  simp only
  rw [modifyPinLinks_only_heap]
  rw [modifyPinLinks_only_heap]
  exact lookupA_setA_self _ _ _

theorem _addLink_counter (s0 : GraphState) (a b : Nat) :
    (_addLink s0 a b).counter = s0.counter + 1 := by
  unfold _addLink uniqueId
  simp only
  rw [modifyPinLinks_only_heap]
  rw [modifyPinLinks_only_heap]

theorem connectDirect_adds (s0 : GraphState) (a b : Nat) :
    lookupA (connectDirect s0 a b).links ⟨"link", s0.counter⟩ =
      some ⟨⟨"link", s0.counter⟩, a, b⟩ :=
  _addLink_adds s0 a b

theorem addNode_counter_ge (cat : Catalog) (s : GraphState) (key : String)
    (x y : Int) : s.counter ≤ (addNode cat s key x y).2.counter := by
  unfold addNode
  cases cat.get key with
  | none => exact le_refl _
  | some t =>
    simp only
    split
    · rw [selectNode_only_selection]
    · rw [mkNode_only_heap]
      exact Nat.le_succ _

/-- C10: `createConnection` performs no connection-legality validation of
its own.  For every pair of live pin references — with no assumption
about owning nodes, directions, value types or container tags — a direct
call still registers at least one link that was not in the collection
before (assuming link-id freshness, which holds for every reachable
state).  Legality is enforced only by callers consulting `canConnect`
first. -/
theorem createConnection_adds_link (cat : Catalog) (s : GraphState)
    (ra rb : Nat) (pa pb : Pin)
    (ha : heapGet s ra = some pa) (hb : heapGet s rb = some pb)
    (hbnd : ∀ kl ∈ s.links, kl.1.num < s.counter) :
    ∃ lid link,
      lookupA (createConnection cat s (some ra) (some rb)).links lid =
        some link ∧
      lookupA s.links lid = none := by
  have hnone : ∀ c : Nat, s.counter ≤ c →
      lookupA s.links ⟨"link", c⟩ = none := by
    intro c hc
    cases hl : lookupA s.links ⟨"link", c⟩ with
    | none => rfl
    | some l =>
      have h := hbnd _ (mem_of_lookupA hl)
      simp only [UId.num] at h
      omega
  unfold createConnection
  simp only [ha, hb]
  repeat' split
  all_goals
    first
    | (refine ⟨_, _, connectDirect_adds _ _ _, hnone _ ?_⟩
       first
       | exact le_refl _
       | exact le_of_eq (breakPinLinks_counts s _).2.2.1
       | exact addNode_counter_ge cat _ _ 0 0
       | exact le_trans (le_of_eq (breakPinLinks_counts s _).2.2.1)
           (addNode_counter_ge cat _ _ 0 0))
    | (refine ⟨_, _, _addLink_adds _ _ _, hnone _ ?_⟩
       rw [_addLink_counter]
       first
       | exact le_trans (addNode_counter_ge cat _ _ 0 0) (Nat.le_succ _)
       | exact le_trans (le_trans (le_of_eq (breakPinLinks_counts s _).2.2.1)
           (addNode_counter_ge cat _ _ 0 0)) (Nat.le_succ _))

/-- Witness for C10 at a concrete input: both pins belong to the same
node (`canConnect` would reject this pair), yet a link is created. -/
theorem createConnection_adds_link_witness :
    ∃ lid link,
      lookupA (createConnection wCat wS1 (some 0) (some 1)).links lid =
        some link ∧
      lookupA wS1.links lid = none :=
  createConnection_adds_link wCat wS1 0 1
    ⟨⟨⟨"node", 0⟩, "o"⟩, "Out", "float", PinDir.output, "scalar",
      some "0", [], false⟩
    ⟨⟨⟨"node", 0⟩, "i"⟩, "In", "float", PinDir.input, "scalar",
      some "0", [], false⟩
    (by decide) (by decide) (by decide)

/-! ## C6: `duplicateSelectedNodes` — the singleton crash -/

/-- The singleton state `wSS` with its one node selected. -/
def wSSsel : GraphState := selectNode wSS ⟨"node", 0⟩ false "new"

/-- C6 counterexample: a selection of one singleton-keyed node (zero
internal links) does not produce one new node and a replaced selection —
`duplicateSelectedNodes` crashes on the null result of the inner
`addNode` call (modelled as `none`). -/
theorem duplicateSelectedNodes_counterexample :
    wSSsel.selectedNodes = [⟨"node", 0⟩] ∧
    duplicateSelectedNodes wCatS wSSsel = none := by decide

theorem addNode_singleton_none (cat : Catalog) (s : GraphState)
    (key : String) (x y : Int) (t : NodeTemplate) (ex : Node)
    (ht : cat.get key = some t) (hsing : t.isSingleton = true)
    (hex : (s.nodes.map Prod.snd).find?
      (fun m => decide (m.nodeKey = key)) = some ex) :
    (addNode cat s key x y).1 = none := by
  unfold addNode
  rw [ht]
  simp only [hsing, eq_self_iff_true, if_true, hex]

theorem addNode_nodes_preserved (cat : Catalog) (s : GraphState)
    (key : String) (x y : Int)
    (hbound : ∀ kn ∈ s.nodes, kn.1.num < s.counter) :
    (∀ kn ∈ (addNode cat s key x y).2.nodes,
      kn.1.num < (addNode cat s key x y).2.counter) ∧
    (∀ a : UId, a.num < s.counter →
      lookupA (addNode cat s key x y).2.nodes a = lookupA s.nodes a) := by
  unfold addNode
  cases cat.get key with
  | none => exact ⟨hbound, fun a _ => rfl⟩
  | some t =>
    simp only
    split
    · rw [selectNode_only_selection]
      exact ⟨hbound, fun a _ => rfl⟩
    · rw [mkNode_only_heap]
      have hfresh : (⟨"node", s.counter⟩ : UId) ∉ s.nodes.map Prod.fst := by
        intro hmem
        obtain ⟨kn, hkn, hfst⟩ := List.mem_map.mp hmem
        have := hbound kn hkn
        rw [hfst] at this
        exact absurd this (by simp)
      constructor
      · intro kn hkn
        have hkn' : kn ∈ s.nodes ++
            [((⟨"node", s.counter⟩ : UId),
              (mkNode { s with counter := s.counter + 1 }
                ⟨"node", s.counter⟩ t.title t.pins x y key).1)] := by
          rw [← setA_fresh _ hfresh]
          exact hkn
        rcases List.mem_append.mp hkn' with h | h
        · have := hbound kn h
          show kn.1.num < s.counter + 1
          omega
        · rw [List.mem_singleton.mp h]
          show s.counter < s.counter + 1
          omega
      · intro a hlt
        have hne : a ≠ ⟨"node", s.counter⟩ := by
          intro h
          rw [h] at hlt
          simp only [UId.num] at hlt
          omega
        exact lookupA_setA_ne _ hne

/-- The singleton crash behind the C6 counterexample, in general:
whenever the selection contains a node whose template key is
singleton-flagged, the selected instance itself is live, so the inner
`addNode` returns null and the copy loop dereferences it (modelled as
`none`).  The duplication property can therefore only hold for
selections free of singleton templates, which is the restriction the
amended C6 theorem `duplicateSelectedNodes_spec` carries. -/
theorem duplicateSelectedNodes_crash (cat : Catalog) (s : GraphState)
    (nid : UId) (n : Node) (t : NodeTemplate)
    (hsel : nid ∈ s.selectedNodes)
    (hn : lookupA s.nodes nid = some n)
    (ht : cat.get n.nodeKey = some t) (hsing : t.isSingleton = true)
    (hbound : ∀ kn ∈ s.nodes, kn.1.num < s.counter) :
    duplicateSelectedNodes cat s = none := by
  unfold duplicateSelectedNodes
  rw [if_neg (by
    intro h
    rw [h] at hsel
    exact absurd hsel (List.not_mem_nil nid))]
  obtain ⟨l1, l2, hsplit⟩ := List.append_of_mem hsel
  rw [hsplit, List.foldl_append]
  have hinv := foldl_inv
    (P := fun acc : Option (GraphState ×
        List (FullPinId × FullPinId) × List UId) =>
      acc = none ∨ ∃ si pr ns, acc = some (si, pr, ns) ∧
        lookupA si.nodes nid = some n ∧
        ∀ kn ∈ si.nodes, kn.1.num < si.counter)
    (l := l1) (f := dupCopyStep cat) (s := some (s, [], []))
    (Or.inr ⟨s, [], [], rfl, hn, hbound⟩)
    (by
      intro acc a _ hP
      rcases hP with h | ⟨si, pr, ns, hacc, hlook, hbnd⟩
      · rw [h]
        exact Or.inl rfl
      · rw [hacc, dupCopyStep_eq_some]
        cases hla : lookupA si.nodes a with
        | none =>
          exact Or.inr ⟨si, pr, ns, rfl, hlook, hbnd⟩
        | some oldNode =>
          simp only []
          cases han : (addNode cat si oldNode.nodeKey (oldNode.x + 20)
              (oldNode.y + 20)).1 with
          | none =>
            exact Or.inl rfl
          | some newNode =>
            obtain ⟨hbnd', hpres⟩ := addNode_nodes_preserved cat si
              oldNode.nodeKey (oldNode.x + 20) (oldNode.y + 20) hbnd
            refine Or.inr ⟨_, _, _, rfl, ?_, hbnd'⟩
            rw [hpres nid (hbnd _ (mem_of_lookupA hlook))]
            exact hlook)
  rcases hinv with h | ⟨si, pr, ns, hacc, hlook, hbnd⟩
  · rw [h, List.foldl_cons]
    rw [show dupCopyStep cat none nid = none from rfl]
    rw [dupCopyStep_none_foldl]
  · rw [hacc, List.foldl_cons, dupCopyStep_eq_some, hlook]
    simp only []
    have hfind : ((si.nodes.map Prod.snd).find?
        (fun m => decide (m.nodeKey = n.nodeKey))).isSome := by
      rw [List.find?_isSome]
      exact ⟨n, List.mem_map.mpr ⟨(nid, n), mem_of_lookupA hlook, rfl⟩,
        by simp⟩
    obtain ⟨ex, hex⟩ := Option.isSome_iff_exists.mp hfind
    rw [addNode_singleton_none cat si n.nodeKey (n.x + 20) (n.y + 20)
      t ex ht hsing hex]
    rw [dupCopyStep_none_foldl]

/-- Witness for the singleton crash at a concrete input. -/
theorem duplicateSelectedNodes_crash_witness :
    duplicateSelectedNodes wCatS wSSsel = none :=
  duplicateSelectedNodes_crash wCatS wSSsel ⟨"node", 0⟩ wSSNode wTS
    (by decide) (by decide) (by rfl) (by rfl) (by decide)

/-! ## C5: `deleteSelectedNodes` -/

def Stab (s t : GraphState) : Prop :=
  (∀ r, pinIdAt t r = pinIdAt s r) ∧
  (∀ kl, kl ∈ t.links → kl ∈ s.links) ∧
  (∀ a, lookupA s.links a = none → lookupA t.links a = none) ∧
  (∀ a, lookupA t.nodes a = lookupA s.nodes a ∨ lookupA t.nodes a = none)

theorem Stab_refl (s : GraphState) : Stab s s :=
  ⟨fun _ => rfl, fun _ h => h, fun _ h => h, fun _ => Or.inl rfl⟩

theorem Stab_trans {s t u : GraphState} (h1 : Stab s t) (h2 : Stab t u) :
    Stab s u := by
  refine ⟨fun r => (h2.1 r).trans (h1.1 r),
    fun kl h => h1.2.1 kl (h2.2.1 kl h),
    fun a h => h2.2.2.1 a (h1.2.2.1 a h), fun a => ?_⟩
  rcases h2.2.2.2 a with h | h
  · rw [h]
    exact h1.2.2.2 a
  · exact Or.inr h

theorem pinIdAt_heapEq (t u : GraphState) (r : Nat)
    (h : t.pinHeap = u.pinHeap) : pinIdAt t r = pinIdAt u r := by
  unfold pinIdAt heapGet
  rw [h]

theorem pinIdAt_modifyPinLinks (s : GraphState) (r : Nat)
    (f : List UId → List UId) (x : Nat) :
    pinIdAt (modifyPinLinks s r f) x = pinIdAt s x := by
  by_cases h : x = r
  · subst h
    cases hg : heapGet s x with
    | none =>
      unfold modifyPinLinks
      rw [hg]
    | some p =>
      unfold pinIdAt
      rw [heapGet_modifyPinLinks_self s x f p hg, hg]
      rfl
  · unfold pinIdAt
    rw [heapGet_modifyPinLinks_other s r x f h]

theorem modifyPinLinks_links (s : GraphState) (r : Nat)
    (f : List UId → List UId) : (modifyPinLinks s r f).links = s.links := by
  rw [modifyPinLinks_only_heap]

theorem modifyPinLinks_nodes (s : GraphState) (r : Nat)
    (f : List UId → List UId) : (modifyPinLinks s r f).nodes = s.nodes := by
  rw [modifyPinLinks_only_heap]

theorem lookupA_ne_none_of_mem {α β : Type} [DecidableEq α]
    {l : List (α × β)} {kl : α × β} (h : kl ∈ l) :
    lookupA l kl.1 ≠ none := by
  induction l with
  | nil => exact absurd h (List.not_mem_nil kl)
  | cons kv rest ih =>
    rcases List.mem_cons.mp h with h | h
    · subst h
      rw [lookupA, if_pos rfl]
      exact Option.noConfusion
    · rw [lookupA]
      split
      · exact Option.noConfusion
      · exact ih h

theorem pinNodeId_map (s : GraphState) (r : Nat) :
    pinNodeId s r = (pinIdAt s r).map FullPinId.node := by
  unfold pinNodeId pinIdAt
  cases heapGet s r <;> rfl

theorem breakLinkById_stab (s : GraphState) (lid : UId) :
    Stab s (breakLinkById s lid) := by
  unfold breakLinkById
  cases h : lookupA s.links lid with
  | none => exact Stab_refl s
  | some link =>
    simp only []
    refine ⟨?_, ?_, ?_, ?_⟩
    · intro r
      refine Eq.trans (pinIdAt_heapEq _
        (modifyPinLinks (modifyPinLinks s link.startPin
            (fun ls => ls.filter (fun i => decide (i ≠ lid))))
          link.endPin (fun ls => ls.filter (fun i => decide (i ≠ lid))))
        r rfl) ?_
      rw [pinIdAt_modifyPinLinks, pinIdAt_modifyPinLinks]
    · intro kl hkl
      have hkl' : kl ∈ eraseA (modifyPinLinks (modifyPinLinks s
          link.startPin (fun ls => ls.filter (fun i => decide (i ≠ lid))))
          link.endPin (fun ls => ls.filter (fun i => decide (i ≠ lid)))).links
          lid := hkl
      rw [modifyPinLinks_links, modifyPinLinks_links] at hkl'
      exact eraseA_sub hkl'
    · intro a ha
      show lookupA (eraseA (modifyPinLinks (modifyPinLinks s
          link.startPin (fun ls => ls.filter (fun i => decide (i ≠ lid))))
          link.endPin (fun ls => ls.filter (fun i => decide (i ≠ lid)))).links
          lid) a = none
      rw [modifyPinLinks_links, modifyPinLinks_links]
      by_cases hal : a = lid
      · subst hal
        exact lookupA_eraseA_self _ _
      · rw [lookupA_eraseA_ne hal, ha]
    · intro a
      left
      show lookupA (modifyPinLinks (modifyPinLinks s
          link.startPin (fun ls => ls.filter (fun i => decide (i ≠ lid))))
          link.endPin (fun ls => ls.filter (fun i => decide (i ≠ lid)))).nodes
          a = _
      rw [modifyPinLinks_nodes, modifyPinLinks_nodes]

theorem breakLinkById_breaks (s : GraphState) (lid : UId) :
    lookupA (breakLinkById s lid).links lid = none := by
  unfold breakLinkById
  cases h : lookupA s.links lid with
  | none => exact h
  | some link =>
    simp only []
    show lookupA (eraseA (modifyPinLinks (modifyPinLinks s
        link.startPin (fun ls => ls.filter (fun i => decide (i ≠ lid))))
        link.endPin (fun ls => ls.filter (fun i => decide (i ≠ lid)))).links
        lid) lid = none
    exact lookupA_eraseA_self _ _

theorem breakFold_stab (L : List Link) (t : GraphState) :
    Stab t (L.foldl breakLinkStep t) := by
  induction L generalizing t with
  | nil => exact Stab_refl t
  | cons x L ih =>
    rw [List.foldl_cons]
    exact Stab_trans (breakLinkById_stab t x.id) (ih (breakLinkStep t x))

theorem breakPinLinks_stab (t : GraphState) (pid : FullPinId) :
    Stab t (breakPinLinks t pid) :=
  breakFold_stab _ t

theorem breakFold_none (L : List Link) (t : GraphState) (a : UId)
    (h : lookupA t.links a = none) :
    lookupA (L.foldl breakLinkStep t).links a = none := by
  induction L generalizing t with
  | nil => exact h
  | cons x L ih =>
    rw [List.foldl_cons]
    exact ih _ ((breakLinkById_stab t x.id).2.2.1 a h)

theorem breakFold_breaks (L : List Link) (t : GraphState) :
    ∀ l ∈ L, lookupA (L.foldl breakLinkStep t).links l.id = none := by
  induction L generalizing t with
  | nil =>
    intro l h
    exact absurd h (List.not_mem_nil l)
  | cons x L ih =>
    intro l hl
    rw [List.foldl_cons]
    rcases List.mem_cons.mp hl with h | h
    · subst h
      exact breakFold_none L _ l.id (breakLinkById_breaks t l.id)
    · exact ih _ l h

theorem breakLinkFold_nodes (L : List Link) (t : GraphState) :
    (L.foldl breakLinkStep t).nodes = t.nodes := by
  induction L generalizing t with
  | nil => rfl
  | cons x L ih =>
    rw [List.foldl_cons, ih (breakLinkStep t x)]
    exact (breakLinkById_counts t x.id).2.2.2.symm

theorem pinsFold_stab (L : List Nat) (t : GraphState) :
    Stab t (L.foldl (fun s r =>
      match heapGet s r with
      | some p => breakPinLinks s p.id
      | none => s) t) := by
  induction L generalizing t with
  | nil => exact Stab_refl t
  | cons x L ih =>
    rw [List.foldl_cons]
    have hs : Stab t (match heapGet t x with
        | some p => breakPinLinks t p.id
        | none => t) := by
      cases hg : heapGet t x with
      | none => exact Stab_refl t
      | some p => exact breakPinLinks_stab t p.id
    exact Stab_trans hs (ih _)

theorem pinsFold_nodes (L : List Nat) (t : GraphState) :
    (L.foldl (fun s r =>
      match heapGet s r with
      | some p => breakPinLinks s p.id
      | none => s) t).nodes = t.nodes := by
  induction L generalizing t with
  | nil => rfl
  | cons x L ih =>
    rw [List.foldl_cons, ih]
    cases hg : heapGet t x with
    | none => rfl
    | some p => exact breakLinkFold_nodes _ t

theorem breakNodePins_stab (t : GraphState) (node : Node) :
    Stab t (breakNodePins t node) :=
  pinsFold_stab node.pins t

theorem breakNodePins_nodes (t : GraphState) (node : Node) :
    (breakNodePins t node).nodes = t.nodes :=
  pinsFold_nodes node.pins t

theorem deleteNodeStep_stab (t : GraphState) (nid : UId) :
    Stab t (deleteNodeStep t nid) := by
  unfold deleteNodeStep
  cases h : lookupA t.nodes nid with
  | none => exact Stab_refl t
  | some node =>
    simp only []
    have hb := breakNodePins_stab t node
    refine ⟨hb.1, hb.2.1, hb.2.2.1, ?_⟩
    intro a
    show lookupA (eraseA (breakNodePins t node).nodes nid) a = _ ∨
      lookupA (eraseA (breakNodePins t node).nodes nid) a = none
    by_cases han : a = nid
    · subst han
      exact Or.inr (lookupA_eraseA_self _ _)
    · rw [lookupA_eraseA_ne han]
      exact hb.2.2.2 a

theorem deleteNodeStep_removes (t : GraphState) (nid : UId) :
    lookupA (deleteNodeStep t nid).nodes nid = none := by
  unfold deleteNodeStep
  cases h : lookupA t.nodes nid with
  | none => exact h
  | some node =>
    simp only []
    exact lookupA_eraseA_self _ _

theorem deleteNodeStep_nodes_ne (t : GraphState) (nid a : UId)
    (h : a ≠ nid) :
    lookupA (deleteNodeStep t nid).nodes a = lookupA t.nodes a := by
  unfold deleteNodeStep
  cases hl : lookupA t.nodes nid with
  | none => rfl
  | some node =>
    simp only []
    show lookupA (eraseA (breakNodePins t node).nodes nid) a = _
    rw [lookupA_eraseA_ne h, breakNodePins_nodes]

theorem linkWF_unpack {s : GraphState} {k : UId} {l : Link}
    (h : linkWF s k l = true) :
    k = l.id ∧
    (l.startPin ∈ liveRefs s ∧ ∃ p, heapGet s l.startPin = some p ∧
      p.dir = PinDir.output ∧ l.id ∈ p.links) ∧
    (l.endPin ∈ liveRefs s ∧ ∃ p, heapGet s l.endPin = some p ∧
      p.dir = PinDir.input ∧ l.id ∈ p.links) := by
  unfold linkWF linkEndWF at h
  simp only [Bool.and_eq_true, decide_eq_true_eq] at h
  obtain ⟨⟨hk, h1, h2⟩, h3, h4⟩ := h
  refine ⟨hk, ⟨h1, ?_⟩, ⟨h3, ?_⟩⟩
  · cases hg : heapGet s l.startPin with
    | none =>
      rw [hg] at h2
      exact absurd h2 (by simp)
    | some p =>
      rw [hg] at h2
      simp only [Bool.and_eq_true, decide_eq_true_eq] at h2
      exact ⟨p, rfl, h2.1, h2.2⟩
  · cases hg : heapGet s l.endPin with
    | none =>
      rw [hg] at h4
      exact absurd h4 (by simp)
    | some p =>
      rw [hg] at h4
      simp only [Bool.and_eq_true, decide_eq_true_eq] at h4
      exact ⟨p, rfl, h4.1, h4.2⟩

theorem liveRefs_mem {s : GraphState} {r : Nat} (h : r ∈ liveRefs s) :
    ∃ kn, kn ∈ s.nodes ∧ r ∈ kn.2.pins := by
  unfold liveRefs at h
  rw [List.mem_flatten] at h
  obtain ⟨l, hl, hr⟩ := h
  obtain ⟨kn, hkn, rfl⟩ := List.mem_map.mp hl
  exact ⟨kn, hkn, hr⟩

theorem pinsMatchSpecs_mem {s : GraphState} {nid : UId} :
    ∀ {rs : List Nat} {sps : List PinSpec},
      pinsMatchSpecs s nid rs sps = true → ∀ r ∈ rs,
      ∃ p sp, heapGet s r = some p ∧ pinMatchesSpec nid p sp = true := by
  intro rs
  induction rs with
  | nil =>
    intro sps h r hr
    exact absurd hr (List.not_mem_nil r)
  | cons x rs ih =>
    intro sps h r hr
    cases sps with
    | nil => exact absurd h (by simp [pinsMatchSpecs])
    | cons sp sps =>
      simp only [pinsMatchSpecs, Bool.and_eq_true] at h
      rcases List.mem_cons.mp hr with h' | h'
      · subst h'
        cases hg : heapGet s r with
        | none =>
          rw [hg] at h
          exact absurd h.1 (by simp)
        | some p =>
          rw [hg] at h
          exact ⟨p, sp, rfl, h.1⟩
      · exact ih h.2 r h'

theorem pinMatchesSpec_id {nid : UId} {p : Pin} {sp : PinSpec}
    (h : pinMatchesSpec nid p sp = true) : p.id = ⟨nid, sp.id⟩ := by
  unfold pinMatchesSpec at h
  rw [decide_eq_true_eq] at h
  have h2 := congrArg Pin.id h
  simpa [mkPin] using h2

theorem breakNodePins_clears_pin (s t : GraphState) (node : Node)
    (hstab : Stab s t) (r : Nat) (hr : r ∈ node.pins) (pid : FullPinId)
    (hpin : pinIdAt s r = some pid)
    (hkeys : ∀ kl, kl ∈ s.links → kl.1 = kl.2.id) :
    ∀ kl ∈ (breakNodePins t node).links,
      pinIdAt s kl.2.startPin ≠ some pid ∧
      pinIdAt s kl.2.endPin ≠ some pid := by
  obtain ⟨r1, r2, hsplit⟩ := List.append_of_mem hr
  unfold breakNodePins
  rw [hsplit, List.foldl_append, List.foldl_cons]
  have hstr : Stab s (r1.foldl (fun s r =>
      match heapGet s r with
      | some p => breakPinLinks s p.id
      | none => s) t) := Stab_trans hstab (pinsFold_stab r1 t)
  set tr := r1.foldl (fun s r =>
      match heapGet s r with
      | some p => breakPinLinks s p.id
      | none => s) t with htr
  have hpin2 : pinIdAt tr r = some pid := (hstr.1 r).trans hpin
  obtain ⟨p2, hg, hid⟩ : ∃ p2, heapGet tr r = some p2 ∧ p2.id = pid := by
    unfold pinIdAt at hpin2
    cases hg : heapGet tr r with
    | none =>
      rw [hg] at hpin2
      exact absurd hpin2 (by simp)
    | some q =>
      rw [hg] at hpin2
      exact ⟨q, rfl, by simpa using hpin2⟩
  intro kl hkl
  simp only [hg, hid] at hkl
  have hku : kl ∈ (breakPinLinks tr pid).links :=
    (pinsFold_stab r2 _).2.1 kl hkl
  have hktr : kl ∈ tr.links := (breakPinLinks_stab tr pid).2.1 kl hku
  have hks : kl ∈ s.links := hstr.2.1 kl hktr
  have hkey : kl.1 = kl.2.id := hkeys kl hks
  constructor
  · intro hcontra
    have hcond : kl.2 ∈ findLinksByPinId tr pid := by
      unfold findLinksByPinId linkVals
      rw [List.mem_filter]
      refine ⟨List.mem_map.mpr ⟨kl, hktr, rfl⟩, ?_⟩
      simp only [Bool.or_eq_true, decide_eq_true_eq]
      exact Or.inl ((hstr.1 kl.2.startPin).trans hcontra)
    have hnone := breakFold_breaks (findLinksByPinId tr pid) tr kl.2 hcond
    exact absurd hnone (by
      rw [← hkey]
      exact lookupA_ne_none_of_mem hku)
  · intro hcontra
    have hcond : kl.2 ∈ findLinksByPinId tr pid := by
      unfold findLinksByPinId linkVals
      rw [List.mem_filter]
      refine ⟨List.mem_map.mpr ⟨kl, hktr, rfl⟩, ?_⟩
      simp only [Bool.or_eq_true, decide_eq_true_eq]
      exact Or.inr ((hstr.1 kl.2.endPin).trans hcontra)
    have hnone := breakFold_breaks (findLinksByPinId tr pid) tr kl.2 hcond
    exact absurd hnone (by
      rw [← hkey]
      exact lookupA_ne_none_of_mem hku)

theorem wf_ref_node {cat : Catalog} {s : GraphState} (hwf : WF cat s = true)
    {x : Nat} (hlive : x ∈ liveRefs s) {pidx : FullPinId}
    (hpin : pinIdAt s x = some pidx) :
    ∃ node, lookupA s.nodes pidx.node = some node ∧ x ∈ node.pins := by
  obtain ⟨kn, hkn, hx⟩ := liveRefs_mem hlive
  have hnwf := wf_nodeWF hwf kn hkn
  unfold nodeWF at hnwf
  cases hcg : cat.get kn.2.nodeKey with
  | none =>
    rw [hcg] at hnwf
    exact absurd hnwf (by simp)
  | some tpl =>
    rw [hcg] at hnwf
    simp only [Bool.and_eq_true] at hnwf
    obtain ⟨p2, sp, hg2, hm⟩ := pinsMatchSpecs_mem hnwf.1 x hx
    have hid2 := pinMatchesSpec_id hm
    have hpx : pidx = p2.id := by
      have h0 : pinIdAt s x = some p2.id := by
        unfold pinIdAt
        rw [hg2]
        rfl
      rw [hpin] at h0
      injection h0
    have hnode : pidx.node = kn.2.id := by
      rw [hpx, hid2]
    refine ⟨kn.2, ?_, hx⟩
    rw [hnode, ← wf_nodesKeyed hwf kn hkn]
    have hkn2 : (kn.1, kn.2) ∈ s.nodes := by
      cases kn
      exact hkn
    exact lookupA_of_mem_nodup hkn2 (wf_nodeKeysNodup hwf)

theorem deleteNodeStep_clears {cat : Catalog} {s : GraphState}
    (hwf : WF cat s = true) (t : GraphState) (nid : UId)
    (hstab : Stab s t)
    (heq : lookupA t.nodes nid = lookupA s.nodes nid) :
    ∀ kl ∈ (deleteNodeStep t nid).links,
      pinNodeId s kl.2.startPin ≠ some nid ∧
      pinNodeId s kl.2.endPin ≠ some nid := by
  have hkeys : ∀ kl, kl ∈ s.links → kl.1 = kl.2.id := fun kl h =>
    (linkWF_unpack (wf_linkWF hwf kl h)).1
  unfold deleteNodeStep
  cases hl : lookupA t.nodes nid with
  | none =>
    have hsn : lookupA s.nodes nid = none := heq.symm.trans hl
    intro kl hkl
    have hks : kl ∈ s.links := hstab.2.1 kl hkl
    have hun := linkWF_unpack (wf_linkWF hwf kl hks)
    constructor
    · intro hcontra
      rw [pinNodeId_map] at hcontra
      obtain ⟨pidx, hpx, hpn⟩ := Option.map_eq_some'.mp hcontra
      obtain ⟨node, hnl, _⟩ := wf_ref_node hwf hun.2.1.1 hpx
      rw [hpn, hsn] at hnl
      exact Option.noConfusion hnl
    · intro hcontra
      rw [pinNodeId_map] at hcontra
      obtain ⟨pidx, hpx, hpn⟩ := Option.map_eq_some'.mp hcontra
      obtain ⟨node, hnl, _⟩ := wf_ref_node hwf hun.2.2.1 hpx
      rw [hpn, hsn] at hnl
      exact Option.noConfusion hnl
  | some node =>
    simp only []
    have hsn : lookupA s.nodes nid = some node := heq.symm.trans hl
    intro kl hkl
    have hkl2 : kl ∈ (breakNodePins t node).links := hkl
    have hks : kl ∈ s.links :=
      hstab.2.1 kl ((breakNodePins_stab t node).2.1 kl hkl2)
    have hun := linkWF_unpack (wf_linkWF hwf kl hks)
    constructor
    · intro hcontra
      rw [pinNodeId_map] at hcontra
      obtain ⟨pidx, hpx, hpn⟩ := Option.map_eq_some'.mp hcontra
      obtain ⟨node2, hnl, hxin⟩ := wf_ref_node hwf hun.2.1.1 hpx
      rw [hpn, hsn] at hnl
      have hnn : node2 = node := by
        injection hnl with h
        exact h.symm
      subst hnn
      exact absurd hpx
        ((breakNodePins_clears_pin s t node2 hstab kl.2.startPin hxin
          pidx hpx hkeys kl hkl2).1)
    · intro hcontra
      rw [pinNodeId_map] at hcontra
      obtain ⟨pidx, hpx, hpn⟩ := Option.map_eq_some'.mp hcontra
      obtain ⟨node2, hnl, hxin⟩ := wf_ref_node hwf hun.2.2.1 hpx
      rw [hpn, hsn] at hnl
      have hnn : node2 = node := by
        injection hnl with h
        exact h.symm
      subst hnn
      exact absurd hpx
        ((breakNodePins_clears_pin s t node2 hstab kl.2.endPin hxin
          pidx hpx hkeys kl hkl2).2)

theorem deleteFold_stab (l : List UId) (t : GraphState) :
    Stab t (l.foldl deleteNodeStep t) := by
  induction l generalizing t with
  | nil => exact Stab_refl t
  | cons x l ih =>
    rw [List.foldl_cons]
    exact Stab_trans (deleteNodeStep_stab t x) (ih (deleteNodeStep t x))

theorem deleteFold_spec {cat : Catalog} {s : GraphState}
    (hwf : WF cat s = true) :
    ∀ (l : List UId) (t : GraphState), Stab s t →
      (∀ nid ∈ l, lookupA t.nodes nid = lookupA s.nodes nid) →
      l.Nodup →
      ∀ nid ∈ l,
        (∀ kl ∈ (l.foldl deleteNodeStep t).links,
          pinNodeId s kl.2.startPin ≠ some nid ∧
          pinNodeId s kl.2.endPin ≠ some nid) ∧
        lookupA (l.foldl deleteNodeStep t).nodes nid = none := by
  intro l
  induction l with
  | nil =>
    intro t _ _ _ nid h
    exact absurd h (List.not_mem_nil nid)
  | cons x l ih =>
    intro t hstab hpres hnodup nid hmem
    rw [List.foldl_cons]
    have hstab2 : Stab s (deleteNodeStep t x) :=
      Stab_trans hstab (deleteNodeStep_stab t x)
    have hnodup2 : l.Nodup := (List.nodup_cons.mp hnodup).2
    have hxnot : x ∉ l := (List.nodup_cons.mp hnodup).1
    rcases List.mem_cons.mp hmem with hx | hx
    · subst hx
      have hclear := deleteNodeStep_clears hwf t nid hstab
        (hpres nid (List.mem_cons_self nid l))
      have hrem := deleteNodeStep_removes t nid
      constructor
      · intro kl hkl
        exact hclear kl ((deleteFold_stab l _).2.1 kl hkl)
      · rcases (deleteFold_stab l (deleteNodeStep t nid)).2.2.2 nid with
          h | h
        · rw [h, hrem]
        · exact h
    · refine ih (deleteNodeStep t x) hstab2 ?_ hnodup2 nid hx
      intro nid2 hnid2
      have hne : nid2 ≠ x := fun hcon => hxnot (hcon ▸ hnid2)
      rw [deleteNodeStep_nodes_ne t x nid2 hne]
      exact hpres nid2 (List.mem_cons_of_mem x hnid2)

/-- C5: on a well-formed state with a non-empty selection,
`deleteSelectedNodes` leaves zero links referencing any selected node's
identifier, removes the selected nodes from the node collection, and
empties the selection. -/
theorem deleteSelectedNodes_spec (cat : Catalog) (s : GraphState)
    (hwf : WF cat s = true) (hne : s.selectedNodes ≠ []) :
    (∀ nid ∈ s.selectedNodes,
      findLinksByNodeId (deleteSelectedNodes s) nid = []) ∧
    (∀ nid ∈ s.selectedNodes,
      lookupA (deleteSelectedNodes s).nodes nid = none) ∧
    (deleteSelectedNodes s).selectedNodes = [] := by
  have hmain := deleteFold_spec hwf s.selectedNodes s (Stab_refl s)
    (fun _ _ => rfl) (wf_selNodup hwf)
  have hstabF : Stab s (s.selectedNodes.foldl deleteNodeStep s) :=
    deleteFold_stab s.selectedNodes s
  have hpn : ∀ x, pinNodeId (s.selectedNodes.foldl deleteNodeStep s) x =
      pinNodeId s x := fun x => by
    rw [pinNodeId_map, pinNodeId_map, hstabF.1 x]
  unfold deleteSelectedNodes
  rw [if_neg hne]
  simp only []
  refine ⟨?_, ?_, ?_⟩
  · intro nid hnid
    have h1 := (hmain nid hnid).1
    show List.filter _ _ = []
    refine List.filter_eq_nil_iff.mpr ?_
    intro l hl
    obtain ⟨kl, hkl, rfl⟩ := List.mem_map.mp hl
    have h2 := h1 kl hkl
    simp only [Bool.or_eq_true, decide_eq_true_eq, not_or]
    constructor
    · intro hcon
      exact h2.1 ((hpn kl.2.startPin).symm.trans hcon)
    · intro hcon
      exact h2.2 ((hpn kl.2.endPin).symm.trans hcon)
  · intro nid hnid
    exact (hmain nid hnid).2
  · trivial

/-- The wired two-node state with node 0 selected. -/
def wDel : GraphState := selectNode wS3 ⟨"node", 0⟩ false "new"

/-- Witness for C5 at a concrete input. -/
theorem deleteSelectedNodes_spec_witness :
    (∀ nid ∈ wDel.selectedNodes,
      findLinksByNodeId (deleteSelectedNodes wDel) nid = []) ∧
    (∀ nid ∈ wDel.selectedNodes,
      lookupA (deleteSelectedNodes wDel).nodes nid = none) ∧
    (deleteSelectedNodes wDel).selectedNodes = [] :=
  deleteSelectedNodes_spec wCat wDel (by decide) (by decide)

/-! ## C7: `synchronizeNodeWithTemplate` -/

def repointed (o n : Nat) (l : Link) : Link :=
  { l with startPin := if l.startPin = o then n else l.startPin,
           endPin := if l.endPin = o then n else l.endPin }

theorem repointStep_only_links (o n : Nat) (t : GraphState) (x : UId) :
    repointStep o n t x = { t with links := (repointStep o n t x).links } := by
  unfold repointStep
  cases lookupA t.links x <;> rfl

theorem repointStep_lookup (o n : Nat) (t : GraphState) (x a : UId) :
    lookupA (repointStep o n t x).links a =
      if a = x then (lookupA t.links a).map (repointed o n)
      else lookupA t.links a := by
  unfold repointStep
  cases h : lookupA t.links x with
  | none =>
    by_cases hax : a = x
    · subst hax
      rw [if_pos rfl, h]
      rfl
    · rw [if_neg hax]
  | some link =>
    simp only []
    by_cases hax : a = x
    · subst hax
      rw [if_pos rfl, h]
      show lookupA (setA t.links a _) a = _
      rw [lookupA_setA_self]
      unfold repointed
      by_cases h1 : link.startPin = o <;> by_cases h2 : link.endPin = o <;>
        simp [h1, h2]
    · rw [if_neg hax]
      show lookupA (setA t.links x _) a = _
      exact lookupA_setA_ne _ hax

theorem repointed_idem (o n : Nat) (hon : o ≠ n) (l : Link) :
    repointed o n (repointed o n l) = repointed o n l := by
  unfold repointed
  by_cases h1 : l.startPin = o <;> by_cases h2 : l.endPin = o <;>
    simp [h1, h2, Ne.symm hon]

theorem repointFold_lookup (L : List UId) (t : GraphState) (o n : Nat)
    (hon : o ≠ n) (a : UId) :
    lookupA (L.foldl (repointStep o n) t).links a =
      if a ∈ L then (lookupA t.links a).map (repointed o n)
      else lookupA t.links a := by
  induction L generalizing t with
  | nil => simp
  | cons x L ih =>
    rw [List.foldl_cons, ih (repointStep o n t x), repointStep_lookup]
    by_cases haL : a ∈ L
    · rw [if_pos haL, if_pos (List.mem_cons_of_mem x haL)]
      by_cases hax : a = x
      · rw [if_pos hax]
        cases hv : lookupA t.links a with
        | none => rfl
        | some v => simp [repointed_idem o n hon]
      · rw [if_neg hax]
    · by_cases hax : a = x
      · rw [if_neg haL, if_pos hax,
          if_pos (by rw [hax]; exact List.mem_cons_self x L)]
      · rw [if_neg haL, if_neg hax,
          if_neg (by rw [List.mem_cons]; exact fun h => h.elim hax haL)]

theorem repointFold_only_links (L : List UId) (t : GraphState)
    (o n : Nat) : (L.foldl (repointStep o n) t) =
      { t with links := (L.foldl (repointStep o n) t).links } := by
  induction L generalizing t with
  | nil => rfl
  | cons x L ih =>
    rw [List.foldl_cons, ih (repointStep o n t x)]
    rw [repointStep_only_links o n t x]

theorem litGet_litSet_ne (n : Node) (pid q : FullPinId) (v : Option String)
    (h : q ≠ pid) : litGet (litSet n pid v) q = litGet n q := by
  unfold litGet litSet
  rw [lookupA_setA_ne _ h]

theorem litGet_litSet_self (n : Node) (pid : FullPinId) (v : Option String) :
    litGet (litSet n pid v) pid = v := by
  unfold litGet litSet
  rw [lookupA_setA_self]

theorem syncPinStep_eq_none (opm : List (FullPinId × Nat))
    (acc : GraphState × Node × List Nat) (sp : PinSpec)
    (h : (lookupA opm ⟨acc.2.1.id, sp.id⟩).bind
      (fun oldRef => (heapGet acc.1 oldRef).map (fun p => (oldRef, p))) =
      none) :
    syncPinStep opm acc sp =
      ((allocPin acc.1 (mkPin acc.2.1.id sp)).2, acc.2.1,
        acc.2.2 ++ [(allocPin acc.1 (mkPin acc.2.1.id sp)).1]) := by
  unfold syncPinStep
  rw [h]

theorem syncPinStep_eq_some (opm : List (FullPinId × Nat))
    (acc : GraphState × Node × List Nat) (sp : PinSpec) (o : Nat) (p : Pin)
    (h : (lookupA opm ⟨acc.2.1.id, sp.id⟩).bind
      (fun oldRef => (heapGet acc.1 oldRef).map (fun p => (oldRef, p))) =
      some (o, p)) :
    syncPinStep opm acc sp =
      (p.links.foldl (repointStep o (allocPin acc.1 { mkPin acc.2.1.id sp with
          links := p.links, defaultValue := p.defaultValue }).1)
        (allocPin acc.1 { mkPin acc.2.1.id sp with
          links := p.links, defaultValue := p.defaultValue }).2,
       litSet acc.2.1 ⟨acc.2.1.id, sp.id⟩ (litGet acc.2.1 p.id),
       acc.2.2 ++ [(allocPin acc.1 { mkPin acc.2.1.id sp with
          links := p.links, defaultValue := p.defaultValue }).1]) := by
  unfold syncPinStep
  rw [h]

theorem syncPinStep_props (s : GraphState) (opm : List (FullPinId × Nat))
    (hopm : ∀ pid r, lookupA opm pid = some r →
      ∃ p, heapGet s r = some p ∧ p.id = pid)
    (hhb : ∀ rp ∈ s.pinHeap, rp.1 < s.nextRef)
    (acc : GraphState × Node × List Nat) (sp : PinSpec)
    (hnr : s.nextRef ≤ acc.1.nextRef)
    (hbound : ∀ rp ∈ acc.1.pinHeap, rp.1 < acc.1.nextRef) :
    (syncPinStep opm acc sp).2.1.id = acc.2.1.id ∧
    (syncPinStep opm acc sp).1.nextRef = acc.1.nextRef + 1 ∧
    (∀ rp ∈ (syncPinStep opm acc sp).1.pinHeap,
      rp.1 < (syncPinStep opm acc sp).1.nextRef) ∧
    (∀ r q, heapGet acc.1 r = some q →
      heapGet (syncPinStep opm acc sp).1 r = some q) ∧
    (syncPinStep opm acc sp).2.2 = acc.2.2 ++ [acc.1.nextRef] ∧
    (∀ q, q ≠ (⟨acc.2.1.id, sp.id⟩ : FullPinId) →
      litGet (syncPinStep opm acc sp).2.1 q = litGet acc.2.1 q) ∧
    (∀ a lc, lookupA acc.1.links a = some lc →
      ∃ lc2, lookupA (syncPinStep opm acc sp).1.links a = some lc2 ∧
        (lc2 = lc ∨ ∃ o, lookupA opm ⟨acc.2.1.id, sp.id⟩ = some o ∧
          o < s.nextRef ∧ lc2 = repointed o acc.1.nextRef lc)) := by
  cases hbind : (lookupA opm ⟨acc.2.1.id, sp.id⟩).bind
      (fun oldRef => (heapGet acc.1 oldRef).map (fun p => (oldRef, p))) with
  | none =>
    rw [syncPinStep_eq_none opm acc sp hbind]
    refine ⟨rfl, rfl, ?_, ?_, rfl, fun q _ => rfl, ?_⟩
    · intro rp hrp
      have hrp2 : rp ∈ acc.1.pinHeap ++
          [(acc.1.nextRef, mkPin acc.2.1.id sp)] := hrp
      rcases List.mem_append.mp hrp2 with h | h
      · have := hbound rp h
        show rp.1 < acc.1.nextRef + 1
        omega
      · rw [List.mem_singleton.mp h]
        show acc.1.nextRef < acc.1.nextRef + 1
        omega
    · intro r q hq
      show lookupA (acc.1.pinHeap ++
        [(acc.1.nextRef, mkPin acc.2.1.id sp)]) r = some q
      exact lookupA_append_left hq
    · intro a lc hlc
      exact ⟨lc, hlc, Or.inl rfl⟩
  | some op =>
    obtain ⟨o, p⟩ := op
    obtain ⟨o2, hlook, hmap⟩ := Option.bind_eq_some.mp hbind
    obtain ⟨p2, hgp, hop⟩ := Option.map_eq_some'.mp hmap
    have ho2 : o2 = o := congrArg Prod.fst hop
    rw [ho2] at hlook
    obtain ⟨ps, hps, _⟩ := hopm _ _ hlook
    have ho : o < s.nextRef := hhb _ (mem_of_lookupA hps)
    rw [syncPinStep_eq_some opm acc sp o p hbind]
    have halloc : (allocPin acc.1 { mkPin acc.2.1.id sp with
        links := p.links, defaultValue := p.defaultValue }).2.links =
        acc.1.links := rfl
    have hon : o ≠ (allocPin acc.1 { mkPin acc.2.1.id sp with
        links := p.links, defaultValue := p.defaultValue }).1 :=
      Nat.ne_of_lt (lt_of_lt_of_le ho hnr)
    refine ⟨rfl, ?_, ?_, ?_, rfl, ?_, ?_⟩
    · rw [repointFold_only_links]
      rfl
    · intro rp hrp
      rw [repointFold_only_links] at hrp
      have hrp2 : rp ∈ acc.1.pinHeap ++
          [(acc.1.nextRef, { mkPin acc.2.1.id sp with
            links := p.links, defaultValue := p.defaultValue })] := hrp
      rw [repointFold_only_links]
      rcases List.mem_append.mp hrp2 with h | h
      · have := hbound rp h
        show rp.1 < acc.1.nextRef + 1
        omega
      · rw [List.mem_singleton.mp h]
        show acc.1.nextRef < acc.1.nextRef + 1
        omega
    · intro r q hq
      rw [repointFold_only_links]
      show lookupA (acc.1.pinHeap ++
        [(acc.1.nextRef, { mkPin acc.2.1.id sp with
          links := p.links, defaultValue := p.defaultValue })]) r = some q
      exact lookupA_append_left hq
    · intro q hq
      exact litGet_litSet_ne _ _ _ _ hq
    · intro a lc hlc
      rw [repointFold_lookup _ _ _ _ hon a, halloc]
      by_cases hmem : a ∈ p.links
      · rw [if_pos hmem, hlc]
        exact ⟨repointed o acc.1.nextRef lc, rfl,
          Or.inr ⟨o, hlook, ho, rfl⟩⟩
      · rw [if_neg hmem]
        exact ⟨lc, hlc, Or.inl rfl⟩

def syncInv (s : GraphState) (nid : UId) (node : Node) (loc : String)
    (oldRef : Nat) (acc : GraphState × Node × List Nat) : Prop :=
  acc.2.1.id = nid ∧
  s.nextRef ≤ acc.1.nextRef ∧
  (∀ rp ∈ acc.1.pinHeap, rp.1 < acc.1.nextRef) ∧
  (∀ r q, heapGet s r = some q → heapGet acc.1 r = some q) ∧
  litGet acc.2.1 ⟨nid, loc⟩ = litGet node ⟨nid, loc⟩ ∧
  (∀ lid link, lookupA s.links lid = some link →
    ∃ lc, lookupA acc.1.links lid = some lc ∧ lc.id = link.id ∧
      (link.startPin = oldRef → lc.startPin = oldRef) ∧
      (link.endPin = oldRef → lc.endPin = oldRef))

theorem syncFold_pre (s : GraphState) (opm : List (FullPinId × Nat))
    (nid : UId) (node : Node) (loc : String) (oldRef : Nat) (oldPin : Pin)
    (hopm : ∀ pid r, lookupA opm pid = some r →
      ∃ p, heapGet s r = some p ∧ p.id = pid)
    (hhb : ∀ rp ∈ s.pinHeap, rp.1 < s.nextRef)
    (hpidpin : heapGet s oldRef = some oldPin)
    (hpid : oldPin.id = ⟨nid, loc⟩)
    (P : List PinSpec) :
    ∀ acc, (∀ sp ∈ P, sp.id ≠ loc) →
      syncInv s nid node loc oldRef acc →
      syncInv s nid node loc oldRef (P.foldl (syncPinStep opm) acc) ∧
      (P.foldl (syncPinStep opm) acc).1.nextRef =
        acc.1.nextRef + P.length ∧
      (P.foldl (syncPinStep opm) acc).2.2.length =
        acc.2.2.length + P.length := by
  induction P with
  | nil =>
    intro acc _ h
    exact ⟨h, by simp, by simp⟩
  | cons sp P ih =>
    intro acc hP h
    rw [List.foldl_cons]
    have props := syncPinStep_props s opm hopm hhb acc sp h.2.1 h.2.2.1
    have hsploc : sp.id ≠ loc := hP sp (List.mem_cons_self sp P)
    have hstep : syncInv s nid node loc oldRef (syncPinStep opm acc sp) := by
      refine ⟨props.1.trans h.1, ?_, props.2.2.1, ?_, ?_, ?_⟩
      · rw [props.2.1]
        exact le_trans h.2.1 (Nat.le_succ _)
      · intro r q hq
        exact props.2.2.2.1 r q (h.2.2.2.1 r q hq)
      · refine (props.2.2.2.2.2.1 ⟨nid, loc⟩ ?_).trans h.2.2.2.2.1
        intro hcon
        have := congrArg FullPinId.loc hcon
        exact hsploc this.symm
      · intro lid link hlk
        obtain ⟨lc, hlc, hlid, hst, hen⟩ := h.2.2.2.2.2 lid link hlk
        obtain ⟨lc2, hlc2, hor⟩ := props.2.2.2.2.2.2 lid lc hlc
        rcases hor with heq | ⟨o, hlook, ho, heq⟩
        · rw [heq] at hlc2
          exact ⟨lc, hlc2, hlid, hst, hen⟩
        · rw [heq] at hlc2
          have hne : o ≠ oldRef := by
            intro hcon
            obtain ⟨po, hpo, hpoid⟩ := hopm _ _ hlook
            rw [hcon, hpidpin] at hpo
            have hpo2 : oldPin = po := by injection hpo
            rw [← hpo2, hpid] at hpoid
            exact hsploc (congrArg FullPinId.loc hpoid).symm
          refine ⟨repointed o acc.1.nextRef lc, hlc2, ?_, ?_, ?_⟩
          · show lc.id = link.id
            exact hlid
          · intro hstart
            show (if lc.startPin = o then acc.1.nextRef
              else lc.startPin) = oldRef
            rw [hst hstart, if_neg (Ne.symm hne)]
          · intro hend
            show (if lc.endPin = o then acc.1.nextRef
              else lc.endPin) = oldRef
            rw [hen hend, if_neg (Ne.symm hne)]
    have hP2 : ∀ sp2 ∈ P, sp2.id ≠ loc :=
      fun sp2 h2 => hP sp2 (List.mem_cons_of_mem sp h2)
    obtain ⟨ih1, ih2, ih3⟩ := ih (syncPinStep opm acc sp) hP2 hstep
    refine ⟨ih1, ?_, ?_⟩
    · rw [ih2, props.2.1, List.length_cons]
      omega
    · rw [ih3, props.2.2.2.2.1, List.length_cons, List.length_append]
      simp
      omega

def syncCert (s : GraphState) (nid : UId) (loc : String)
    (oldRef newRef : Nat) (oldPin : Pin) (litVal : Option String)
    (i : Nat) (acc : GraphState × Node × List Nat) : Prop :=
  acc.2.1.id = nid ∧
  s.nextRef ≤ acc.1.nextRef ∧
  (∀ rp ∈ acc.1.pinHeap, rp.1 < acc.1.nextRef) ∧
  (∃ pre ext, acc.2.2 = pre ++ newRef :: ext ∧ pre.length = i) ∧
  (∃ pin2, heapGet acc.1 newRef = some pin2 ∧
    pin2.id = ⟨nid, loc⟩ ∧ pin2.links = oldPin.links ∧
    pin2.defaultValue = oldPin.defaultValue) ∧
  litGet acc.2.1 ⟨nid, loc⟩ = litVal ∧
  (∀ lid link, lid ∈ oldPin.links → lookupA s.links lid = some link →
    ∃ lc, lookupA acc.1.links lid = some lc ∧ lc.id = link.id ∧
      (link.startPin = oldRef → lc.startPin = newRef) ∧
      (link.endPin = oldRef → lc.endPin = newRef))

theorem syncFold_post (s : GraphState) (opm : List (FullPinId × Nat))
    (nid : UId) (loc : String) (oldRef newRef : Nat) (oldPin : Pin)
    (litVal : Option String) (i : Nat)
    (hopm : ∀ pid r, lookupA opm pid = some r →
      ∃ p, heapGet s r = some p ∧ p.id = pid)
    (hhb : ∀ rp ∈ s.pinHeap, rp.1 < s.nextRef)
    (hnew : s.nextRef ≤ newRef)
    (Q : List PinSpec) :
    ∀ acc, (∀ sp ∈ Q, sp.id ≠ loc) →
      syncCert s nid loc oldRef newRef oldPin litVal i acc →
      syncCert s nid loc oldRef newRef oldPin litVal i
        (Q.foldl (syncPinStep opm) acc) := by
  induction Q with
  | nil =>
    intro acc _ h
    exact h
  | cons sp Q ih =>
    intro acc hQ h
    rw [List.foldl_cons]
    have props := syncPinStep_props s opm hopm hhb acc sp h.2.1 h.2.2.1
    have hsploc : sp.id ≠ loc := hQ sp (List.mem_cons_self sp Q)
    refine ih (syncPinStep opm acc sp)
      (fun sp2 h2 => hQ sp2 (List.mem_cons_of_mem sp h2)) ?_
    refine ⟨props.1.trans h.1, ?_, props.2.2.1, ?_, ?_, ?_, ?_⟩
    · rw [props.2.1]
      exact le_trans h.2.1 (Nat.le_succ _)
    · obtain ⟨pre, ext, hpe, hlen⟩ := h.2.2.2.1
      refine ⟨pre, ext ++ [acc.1.nextRef], ?_, hlen⟩
      rw [props.2.2.2.2.1, hpe]
      simp
    · obtain ⟨pin2, hp2, hid2, hl2, hd2⟩ := h.2.2.2.2.1
      exact ⟨pin2, props.2.2.2.1 newRef pin2 hp2, hid2, hl2, hd2⟩
    · refine (props.2.2.2.2.2.1 ⟨nid, loc⟩ ?_).trans h.2.2.2.2.2.1
      intro hcon
      exact hsploc (congrArg FullPinId.loc hcon).symm
    · intro lid link hmem hlk
      obtain ⟨lc, hlc, hlid, hst, hen⟩ := h.2.2.2.2.2.2 lid link hmem hlk
      obtain ⟨lc2, hlc2, hor⟩ := props.2.2.2.2.2.2 lid lc hlc
      rcases hor with heq | ⟨o, hlook, ho, heq⟩
      · rw [heq] at hlc2
        exact ⟨lc, hlc2, hlid, hst, hen⟩
      · rw [heq] at hlc2
        have honew : newRef ≠ o :=
          Nat.ne_of_gt (lt_of_lt_of_le ho hnew)
        refine ⟨repointed o acc.1.nextRef lc, hlc2, ?_, ?_, ?_⟩
        · show lc.id = link.id
          exact hlid
        · intro hstart
          show (if lc.startPin = o then acc.1.nextRef
            else lc.startPin) = newRef
          rw [hst hstart, if_neg honew]
        · intro hend
          show (if lc.endPin = o then acc.1.nextRef
            else lc.endPin) = newRef
          rw [hen hend, if_neg honew]

theorem syncStep_achieve (s : GraphState) (opm : List (FullPinId × Nat))
    (nid : UId) (node : Node) (loc : String) (oldRef : Nat) (oldPin : Pin)
    (sp : PinSpec)
    (hopm : ∀ pid r, lookupA opm pid = some r →
      ∃ p, heapGet s r = some p ∧ p.id = pid)
    (hhb : ∀ rp ∈ s.pinHeap, rp.1 < s.nextRef)
    (hsp : sp.id = loc)
    (hmatch : lookupA opm ⟨nid, loc⟩ = some oldRef)
    (hpidpin : heapGet s oldRef = some oldPin)
    (hpid : oldPin.id = ⟨nid, loc⟩)
    (acc : GraphState × Node × List Nat)
    (h : syncInv s nid node loc oldRef acc) :
    syncCert s nid loc oldRef acc.1.nextRef oldPin
      (litGet node ⟨nid, loc⟩) acc.2.2.length (syncPinStep opm acc sp) := by
  have hga : heapGet acc.1 oldRef = some oldPin :=
    h.2.2.2.1 oldRef oldPin hpidpin
  have hbind : (lookupA opm ⟨acc.2.1.id, sp.id⟩).bind
      (fun o => (heapGet acc.1 o).map (fun p => (o, p))) =
      some (oldRef, oldPin) := by
    rw [h.1, hsp, hmatch, Option.some_bind, hga]
    rfl
  have props := syncPinStep_props s opm hopm hhb acc sp h.2.1 h.2.2.1
  have hstep := syncPinStep_eq_some opm acc sp oldRef oldPin hbind
  have hkey : (⟨acc.2.1.id, sp.id⟩ : FullPinId) = ⟨nid, loc⟩ := by
    rw [h.1, hsp]
  have hOldLt : oldRef < s.nextRef := hhb _ (mem_of_lookupA hpidpin)
  have hon : oldRef ≠ (allocPin acc.1 { mkPin acc.2.1.id sp with
      links := oldPin.links, defaultValue := oldPin.defaultValue }).1 :=
    Nat.ne_of_lt (lt_of_lt_of_le hOldLt h.2.1)
  have halloc : (allocPin acc.1 { mkPin acc.2.1.id sp with
      links := oldPin.links, defaultValue := oldPin.defaultValue }).2.links =
      acc.1.links := rfl
  refine ⟨props.1.trans h.1, ?_, props.2.2.1, ?_, ?_, ?_, ?_⟩
  · rw [props.2.1]
    exact le_trans h.2.1 (Nat.le_succ _)
  · exact ⟨acc.2.2, [], props.2.2.2.2.1, rfl⟩
  · rw [hstep]
    rw [repointFold_only_links]
    refine ⟨{ mkPin acc.2.1.id sp with
      links := oldPin.links, defaultValue := oldPin.defaultValue },
      ?_, ?_, rfl, rfl⟩
    · show lookupA (acc.1.pinHeap ++ [(acc.1.nextRef,
        { mkPin acc.2.1.id sp with
          links := oldPin.links, defaultValue := oldPin.defaultValue })])
        acc.1.nextRef = _
      rw [lookupA_append_right]
      · show (if acc.1.nextRef = acc.1.nextRef then _ else _) = _
        rw [if_pos rfl]
      · intro hmem
        obtain ⟨rp, hrp, hfst⟩ := List.mem_map.mp hmem
        have := h.2.2.1 rp hrp
        omega
    · show (⟨acc.2.1.id, sp.id⟩ : FullPinId) = ⟨nid, loc⟩
      exact hkey
  · rw [hstep]
    show litGet (litSet acc.2.1 ⟨acc.2.1.id, sp.id⟩
      (litGet acc.2.1 oldPin.id)) ⟨nid, loc⟩ = _
    rw [hkey, hpid, litGet_litSet_self]
    exact h.2.2.2.2.1
  · intro lid link hmem hlk
    obtain ⟨lc, hlc, hlid, hst, hen⟩ := h.2.2.2.2.2 lid link hlk
    rw [hstep]
    show ∃ lc2, lookupA (oldPin.links.foldl (repointStep oldRef
      (allocPin acc.1 { mkPin acc.2.1.id sp with
        links := oldPin.links, defaultValue := oldPin.defaultValue }).1)
      (allocPin acc.1 { mkPin acc.2.1.id sp with
        links := oldPin.links, defaultValue := oldPin.defaultValue
        }).2).links lid = some lc2 ∧ _
    rw [repointFold_lookup _ _ _ _ hon lid, if_pos hmem, halloc, hlc]
    refine ⟨repointed oldRef acc.1.nextRef lc, rfl, ?_, ?_, ?_⟩
    · show lc.id = link.id
      exact hlid
    · intro hstart
      show (if lc.startPin = oldRef then acc.1.nextRef
        else lc.startPin) = acc.1.nextRef
      rw [hst hstart, if_pos rfl]
    · intro hend
      show (if lc.endPin = oldRef then acc.1.nextRef
        else lc.endPin) = acc.1.nextRef
      rw [hen hend, if_pos rfl]

theorem get_append_mid {α : Type} (pre : List α) (x : α) (ext : List α)
    (i : Nat) (hplen : pre.length = i)
    (h : i < (pre ++ x :: ext).length) :
    (pre ++ x :: ext).get ⟨i, h⟩ = x := by
  subst hplen
  induction pre with
  | nil => rfl
  | cons a pre ih =>
    exact ih (by
      rw [List.length_append, List.length_cons]
      omega)

/-- C7: when a node is resynchronized with its template, every new pin
whose full identifier matches an old pin of the node carries over the
old pin's link-id list, default value and literal value, and every link
that referenced the old pin object is repointed onto the new pin (heap
reference), so links incident on identifier-stable pins and literals are
preserved. -/
theorem synchronizeNodeWithTemplate_preserves (cat : Catalog)
    (s : GraphState) (nid : UId) (node : Node) (template : NodeTemplate)
    (i : Nat) (hi : i < template.pins.length) (oldRef : Nat) (oldPin : Pin)
    (hwf : WF cat s = true)
    (hn : lookupA s.nodes nid = some node)
    (ht : cat.get node.nodeKey = some template)
    (hmatch : lookupA (node.pins.filterMap
        (fun r => (heapGet s r).map (fun p => (p.id, r))))
        ⟨nid, (template.pins.get ⟨i, hi⟩).id⟩ = some oldRef)
    (hop : heapGet s oldRef = some oldPin) :
    ∃ node2, lookupA (synchronizeNodeWithTemplate cat s nid).nodes nid =
        some node2 ∧
      ∃ hb : i < node2.pins.length,
      ∃ pin2, heapGet (synchronizeNodeWithTemplate cat s nid)
          (node2.pins.get ⟨i, hb⟩) = some pin2 ∧
        pin2.id = ⟨nid, (template.pins.get ⟨i, hi⟩).id⟩ ∧
        pin2.links = oldPin.links ∧
        pin2.defaultValue = oldPin.defaultValue ∧
        litGet node2 pin2.id = litGet node oldPin.id ∧
        (∀ lid link, lid ∈ oldPin.links →
          lookupA s.links lid = some link →
          ∃ link2, lookupA (synchronizeNodeWithTemplate cat s nid).links
              lid = some link2 ∧ link2.id = link.id ∧
            (link.startPin = oldRef →
              link2.startPin = node2.pins.get ⟨i, hb⟩) ∧
            (link.endPin = oldRef →
              link2.endPin = node2.pins.get ⟨i, hb⟩)) := by
  have hmem_node : (nid, node) ∈ s.nodes := mem_of_lookupA hn
  have hid_node : node.id = nid := (wf_nodesKeyed hwf _ hmem_node).symm
  have hhb := wf_heapBound hwf
  unfold synchronizeNodeWithTemplate
  rw [hn]
  simp only []
  rw [ht]
  simp only []
  set node1 : Node := { node with title := template.title } with hnode1
  set opmT : List (FullPinId × Nat) := node1.pins.filterMap
    (fun r => (heapGet s r).map (fun p => (p.id, r))) with hopmT
  have hopm : ∀ pid r, lookupA opmT pid = some r →
      ∃ p, heapGet s r = some p ∧ p.id = pid := by
    intro pid r hl
    have hm := mem_of_lookupA hl
    rw [hopmT, List.mem_filterMap] at hm
    obtain ⟨r2, hr2, hmap⟩ := hm
    obtain ⟨p, hp, heq⟩ := Option.map_eq_some'.mp hmap
    have h1 : p.id = pid := congrArg Prod.fst heq
    have h2 : r2 = r := congrArg Prod.snd heq
    rw [h2] at hp
    exact ⟨p, hp, h1⟩
  set loc : String := (template.pins.get ⟨i, hi⟩).id with hloc
  have hmatch2 : lookupA opmT ⟨nid, loc⟩ = some oldRef := hmatch
  have hpidOld : oldPin.id = ⟨nid, loc⟩ := by
    obtain ⟨p, hp, hpi⟩ := hopm _ _ hmatch2
    rw [hop] at hp
    have : oldPin = p := by injection hp
    rw [this]
    exact hpi
  have hnwf := wf_nodeWF hwf _ hmem_node
  unfold nodeWF at hnwf
  rw [ht] at hnwf
  simp only [Bool.and_eq_true, decide_eq_true_eq] at hnwf
  have hnodup := hnwf.2
  have hsplit : (template.pins.take i).map PinSpec.id ++
      loc :: (template.pins.drop (i + 1)).map PinSpec.id =
      template.pins.map PinSpec.id := by
    rw [hloc]
    rw [show ((template.pins.get ⟨i, hi⟩).id :
        String) :: (template.pins.drop (i + 1)).map PinSpec.id =
      ((template.pins.get ⟨i, hi⟩ :: template.pins.drop (i + 1)).map
        PinSpec.id) from rfl]
    rw [← List.map_append]
    rw [show template.pins.get ⟨i, hi⟩ :: template.pins.drop (i + 1) =
      template.pins.drop i from (List.drop_eq_getElem_cons hi).symm]
    rw [List.take_append_drop]
  rw [← hsplit] at hnodup
  obtain ⟨hnA, hnB, hdisj⟩ := List.nodup_append.mp hnodup
  have hPne : ∀ sp ∈ template.pins.take i, sp.id ≠ loc := by
    intro sp hsp hcon
    exact hdisj (List.mem_map.mpr ⟨sp, hsp, hcon⟩)
      (List.mem_cons_self _ _)
  have hQne : ∀ sp ∈ template.pins.drop (i + 1), sp.id ≠ loc := by
    intro sp hsp hcon
    exact (List.nodup_cons.mp hnB).1
      (hcon ▸ List.mem_map.mpr ⟨sp, hsp, rfl⟩)
  have hinv0 : syncInv s nid node loc oldRef (s, node1, []) := by
    refine ⟨?_, le_refl _, hhb, fun r q h => h, rfl, ?_⟩
    · show node.id = nid
      exact hid_node
    · intro lid link hlk
      exact ⟨link, hlk, rfl, fun h => h, fun h => h⟩
  obtain ⟨hinvP, hnrP, hlenP⟩ := syncFold_pre s opmT nid node loc
    oldRef oldPin hopm hhb hop hpidOld (template.pins.take i)
    (s, node1, []) hPne hinv0
  have hach := syncStep_achieve s opmT nid node loc oldRef oldPin
    (template.pins.get ⟨i, hi⟩) hopm hhb rfl hmatch2 hop hpidOld
    (List.foldl (syncPinStep opmT) (s, node1, []) (template.pins.take i))
    hinvP
  have hcert := syncFold_post s opmT nid loc oldRef
    (List.foldl (syncPinStep opmT) (s, node1, [])
      (template.pins.take i)).1.nextRef oldPin
    (litGet node ⟨nid, loc⟩)
    (List.foldl (syncPinStep opmT) (s, node1, [])
      (template.pins.take i)).2.2.length
    hopm hhb hinvP.2.1 (template.pins.drop (i + 1))
    (syncPinStep opmT
      (List.foldl (syncPinStep opmT) (s, node1, []) (template.pins.take i))
      (template.pins.get ⟨i, hi⟩))
    hQne hach
  have hfold : List.foldl (syncPinStep opmT) (s, node1, []) template.pins =
      List.foldl (syncPinStep opmT)
        (syncPinStep opmT
          (List.foldl (syncPinStep opmT) (s, node1, [])
            (template.pins.take i))
          (template.pins.get ⟨i, hi⟩))
        (template.pins.drop (i + 1)) := by
    conv_lhs => rw [← List.take_append_drop i template.pins]
    rw [List.foldl_append, List.drop_eq_getElem_cons hi, List.foldl_cons]
    rfl
  rw [hfold]
  set accF := List.foldl (syncPinStep opmT)
    (syncPinStep opmT
      (List.foldl (syncPinStep opmT) (s, node1, []) (template.pins.take i))
      (template.pins.get ⟨i, hi⟩))
    (template.pins.drop (i + 1)) with haccF
  have hPlen : (template.pins.take i).length = i := by
    rw [List.length_take]
    exact Nat.min_eq_left (le_of_lt hi)
  have hidx : (List.foldl (syncPinStep opmT) (s, node1, [])
      (template.pins.take i)).2.2.length = i := by
    rw [hlenP, hPlen]
    simp
  rw [hidx] at hcert
  obtain ⟨pre, ext, hpe, hplen⟩ := hcert.2.2.2.1
  obtain ⟨pin2, hp2, hpin2id, hpin2l, hpin2d⟩ := hcert.2.2.2.2.1
  have hb : i < accF.2.2.length := by
    rw [hpe, List.length_append, List.length_cons]
    omega
  have hget : accF.2.2.get ⟨i, hb⟩ =
      (List.foldl (syncPinStep opmT) (s, node1, [])
        (template.pins.take i)).1.nextRef := by
    rw [List.get_of_eq hpe ⟨i, hb⟩]
    exact get_append_mid pre _ ext i hplen _
  refine ⟨{ accF.2.1 with pins := accF.2.2 }, lookupA_setA_self _ _ _,
    hb, pin2, ?_, hpin2id, hpin2l, hpin2d, ?_, ?_⟩
  · show heapGet accF.1 (accF.2.2.get ⟨i, hb⟩) = some pin2
    rw [hget]
    exact hp2
  · rw [hpin2id, hpidOld]
    show litGet accF.2.1 ⟨nid, loc⟩ = _
    exact hcert.2.2.2.2.2.1
  · intro lid link hmem hlk
    obtain ⟨lc, hlc, hlid2, hst, hen⟩ :=
      hcert.2.2.2.2.2.2 lid link hmem hlk
    refine ⟨lc, hlc, hlid2, ?_, ?_⟩
    · intro hstart
      show lc.startPin = accF.2.2.get ⟨i, hb⟩
      rw [hget]
      exact hst hstart
    · intro hend
      show lc.endPin = accF.2.2.get ⟨i, hb⟩
      rw [hget]
      exact hen hend

/-- The first node of `wS3` (wired two-node world). -/
def wNode0 : Node :=
  { id := ⟨"node", 0⟩, x := 0, y := 0, nodeKey := "A", title := "A",
    pins := [0, 1],
    pinLiterals := [(⟨⟨"node", 0⟩, "o"⟩, some "0"),
                    (⟨⟨"node", 0⟩, "i"⟩, some "0")] }

/-- The wired output pin of `wS3` at heap ref 0. -/
def wPin0 : Pin :=
  ⟨⟨⟨"node", 0⟩, "o"⟩, "Out", "float", PinDir.output, "scalar",
   some "0", [⟨"link", 2⟩], false⟩

/-- Witness for C7 at a concrete input. -/
theorem synchronizeNodeWithTemplate_preserves_witness :
    ∃ node2, lookupA (synchronizeNodeWithTemplate wCat wS3
        ⟨"node", 0⟩).nodes ⟨"node", 0⟩ = some node2 ∧
      ∃ hb : 0 < node2.pins.length,
      ∃ pin2, heapGet (synchronizeNodeWithTemplate wCat wS3 ⟨"node", 0⟩)
          (node2.pins.get ⟨0, hb⟩) = some pin2 ∧
        pin2.id = ⟨⟨"node", 0⟩, "o"⟩ ∧
        pin2.links = wPin0.links ∧
        pin2.defaultValue = wPin0.defaultValue ∧
        litGet node2 pin2.id = litGet wNode0 wPin0.id ∧
        (∀ lid link, lid ∈ wPin0.links →
          lookupA wS3.links lid = some link →
          ∃ link2, lookupA (synchronizeNodeWithTemplate wCat wS3
              ⟨"node", 0⟩).links lid = some link2 ∧ link2.id = link.id ∧
            (link.startPin = 0 →
              link2.startPin = node2.pins.get ⟨0, hb⟩) ∧
            (link.endPin = 0 →
              link2.endPin = node2.pins.get ⟨0, hb⟩)) :=
  synchronizeNodeWithTemplate_preserves wCat wS3 ⟨"node", 0⟩ wNode0 wTA
    0 (by decide) 0 wPin0 (by decide) (by decide) (by decide) (by decide)
    (by decide)


/-! ## C1: the serialize / loadState round trip

`loadState` rebuilds nodes in two phases: every saved node is re-created
from its catalog template with `loadNodeStep` (phase 1), then every
saved link is re-attached by resolving both endpoint full pin ids with
`findPinById` (phase 2).  `NodeCert` records what phase 1 certifies
about one original node; the fold lemmas push the certificates through
both phases. -/

theorem setA_append_self {α β : Type} [DecidableEq α] {l : List (α × β)}
    {k : α} (v w : β) (h : k ∉ l.map Prod.fst) :
    setA (l ++ [(k, v)]) k w = l ++ [(k, w)] := by
  induction l with
  | nil => simp [setA]
  | cons kv rest ih =>
    simp only [List.map_cons, List.mem_cons] at h
    push_neg at h
    rw [List.cons_append, setA, if_neg (by
      intro hcon
      exact h.1 hcon.symm), ih h.2, List.cons_append]

theorem nodup_map_mem_eq {α β : Type} {f : α → β} {l : List α}
    (h : (l.map f).Nodup) {a b : α} (ha : a ∈ l) (hb : b ∈ l)
    (hab : f a = f b) : a = b :=
  List.inj_on_of_nodup_map h ha hb hab

theorem find?_congr {α : Type} {f g : α → Bool} {l : List α}
    (h : ∀ a ∈ l, f a = g a) : l.find? f = l.find? g := by
  induction l with
  | nil => rfl
  | cons x l ih =>
    rw [List.find?_cons, List.find?_cons,
      h x (List.mem_cons_self x l)]
    cases g x with
    | true => rfl
    | false => exact ih (fun a ha => h a (List.mem_cons_of_mem x ha))

theorem pinsMatchSpecs_length {s : GraphState} {nid : UId} :
    ∀ {rs : List Nat} {sps : List PinSpec},
      pinsMatchSpecs s nid rs sps = true → rs.length = sps.length := by
  intro rs
  induction rs with
  | nil =>
    intro sps h
    cases sps with
    | nil => rfl
    | cons sp sps => exact absurd h (by simp [pinsMatchSpecs])
  | cons r rs ih =>
    intro sps h
    cases sps with
    | nil => exact absurd h (by simp [pinsMatchSpecs])
    | cons sp sps =>
      simp only [pinsMatchSpecs, Bool.and_eq_true] at h
      rw [List.length_cons, List.length_cons, ih h.2]

theorem pinsMatchSpecs_mem2 {s : GraphState} {nid : UId} :
    ∀ {rs : List Nat} {sps : List PinSpec},
      pinsMatchSpecs s nid rs sps = true → ∀ r ∈ rs,
      ∃ p sp, sp ∈ sps ∧ heapGet s r = some p ∧
        pinMatchesSpec nid p sp = true := by
  intro rs
  induction rs with
  | nil =>
    intro sps h r hr
    exact absurd hr (List.not_mem_nil r)
  | cons x rs ih =>
    intro sps h r hr
    cases sps with
    | nil => exact absurd h (by simp [pinsMatchSpecs])
    | cons sp sps =>
      simp only [pinsMatchSpecs, Bool.and_eq_true] at h
      rcases List.mem_cons.mp hr with h1 | h1
      · subst h1
        cases hg : heapGet s r with
        | none =>
          rw [hg] at h
          exact absurd h.1 (by simp)
        | some p =>
          rw [hg] at h
          exact ⟨p, sp, List.mem_cons_self sp sps, rfl, h.1⟩
      · obtain ⟨p, sp2, hmem, hg, hm⟩ := ih h.2 r h1
        exact ⟨p, sp2, List.mem_cons_of_mem sp hmem, hg, hm⟩

theorem pinMatchesSpec_fields {nid : UId} {p : Pin} {sp : PinSpec}
    (h : pinMatchesSpec nid p sp = true) :
    p.id = ⟨nid, sp.id⟩ ∧ p.name = sp.name ∧ p.ty = sp.ty ∧
    p.dir = sp.dir ∧ p.containerType = sp.containerType ∧
    p.defaultValue = sp.defaultValue ∧ p.isCustom = sp.isCustom := by
  unfold pinMatchesSpec at h
  rw [decide_eq_true_eq] at h
  refine ⟨congrArg Pin.id h, congrArg Pin.name h, congrArg Pin.ty h,
    congrArg Pin.dir h, congrArg Pin.containerType h,
    congrArg Pin.defaultValue h, congrArg Pin.isCustom h⟩

theorem getPinsData_chars (s : GraphState) (nid : UId) (n : Node) :
    ∀ (rs : List Nat) (sps : List PinSpec),
      pinsMatchSpecs s nid rs sps = true →
      rs.filterMap (fun r => (heapGet s r).map (fun p =>
        ({ id := p.id.loc, name := p.name, ty := p.ty, dir := p.dir,
           containerType := p.containerType,
           literalValue := litGet n p.id,
           isCustom := p.isCustom } : SavedPin))) =
      sps.map (fun sp =>
        { id := sp.id, name := sp.name, ty := sp.ty, dir := sp.dir,
          containerType := sp.containerType,
          literalValue := litGet n ⟨nid, sp.id⟩,
          isCustom := sp.isCustom }) := by
  intro rs
  induction rs with
  | nil =>
    intro sps h
    cases sps with
    | nil => rfl
    | cons sp sps => exact absurd h (by simp [pinsMatchSpecs])
  | cons r rs ih =>
    intro sps h
    cases sps with
    | nil => exact absurd h (by simp [pinsMatchSpecs])
    | cons sp sps =>
      simp only [pinsMatchSpecs, Bool.and_eq_true] at h
      cases hg : heapGet s r with
      | none =>
        rw [hg] at h
        exact absurd h.1 (by simp)
      | some p =>
        rw [hg] at h
        obtain ⟨hpid, hpname, hpty, hpdir, hpct, hpdv, hpc⟩ :=
          pinMatchesSpec_fields h.1
        rw [List.filterMap_cons, hg]
        simp only [Option.map_some']
        rw [List.map_cons]
        congr 1
        · rw [hpid, hpname, hpty, hpdir, hpct, hpc]
        · exact ih sps h.2

theorem getPinsData_eq {cat : Catalog} {s : GraphState} {nid : UId}
    {n : Node} {template : NodeTemplate}
    (hmem : (nid, n) ∈ s.nodes) (hwf : WF cat s = true)
    (ht : cat.get n.nodeKey = some template) :
    getPinsData s n = template.pins.map (fun sp =>
      { id := sp.id, name := sp.name, ty := sp.ty, dir := sp.dir,
        containerType := sp.containerType,
        literalValue := litGet n ⟨nid, sp.id⟩,
        isCustom := sp.isCustom }) := by
  have hnwf := wf_nodeWF hwf _ hmem
  unfold nodeWF at hnwf
  rw [ht] at hnwf
  simp only [Bool.and_eq_true, decide_eq_true_eq] at hnwf
  have hid : n.id = nid := (wf_nodesKeyed hwf _ hmem).symm
  have h2 := hnwf.1
  rw [hid] at h2
  exact getPinsData_chars s nid n n.pins template.pins h2

theorem mkNode_findPin_some (s : GraphState) (nid : UId) (ttl : String)
    (specs : List PinSpec) (x y : Int) (key : String) (sp : PinSpec)
    (hbound : ∀ rp ∈ s.pinHeap, rp.1 < s.nextRef)
    (hnd : (specs.map PinSpec.id).Nodup) (hsp : sp ∈ specs) :
    ∃ r, nodeFindPinById (mkNode s nid ttl specs x y key).2
        (mkNode s nid ttl specs x y key).1 ⟨nid, sp.id⟩ = some r ∧
      heapGet (mkNode s nid ttl specs x y key).2 r =
        some (mkPin nid sp) := by
  obtain ⟨j, hjget⟩ := List.mem_iff_get.mp hsp
  have hjlen : (j : Nat) < specs.length := j.2
  have hjget2 : specs.get ⟨(j : Nat), hjlen⟩ = sp := hjget
  have hfind : (nodeFindPinById (mkNode s nid ttl specs x y key).2
      (mkNode s nid ttl specs x y key).1 ⟨nid, sp.id⟩).isSome := by
    unfold nodeFindPinById
    rw [List.find?_isSome]
    refine ⟨s.nextRef + (j : Nat), ?_, ?_⟩
    · rw [(mkNode_fields s nid ttl specs x y key).2.2.2.2.2.1]
      exact List.mem_map.mpr ⟨(j : Nat), List.mem_range.mpr hjlen, rfl⟩
    · rw [decide_eq_true_eq]
      unfold pinIdAt
      rw [heapGet_mkNode_new s nid ttl specs x y key (j : Nat) hjlen hbound]
      rw [Option.map_some', hjget2]
      rfl
  obtain ⟨r, hr⟩ := Option.isSome_iff_exists.mp hfind
  refine ⟨r, hr, ?_⟩
  unfold nodeFindPinById at hr
  have hrmem := List.mem_of_find?_eq_some hr
  have hrcond := List.find?_some hr
  rw [decide_eq_true_eq] at hrcond
  rw [(mkNode_fields s nid ttl specs x y key).2.2.2.2.2.1] at hrmem
  obtain ⟨j2, hj2, hrval⟩ := List.mem_map.mp hrmem
  have hj2len : j2 < specs.length := List.mem_range.mp hj2
  have hg2 := heapGet_mkNode_new s nid ttl specs x y key j2 hj2len hbound
  rw [hrval] at hg2
  unfold pinIdAt at hrcond
  rw [hg2, Option.map_some'] at hrcond
  have hid2 : (mkPin nid (specs.get ⟨j2, hj2len⟩)).id = ⟨nid, sp.id⟩ := by
    injection hrcond
  have hloceq : (specs.get ⟨j2, hj2len⟩).id = sp.id := by
    have := congrArg FullPinId.loc hid2
    exact this
  have hspeq : specs.get ⟨j2, hj2len⟩ = sp :=
    nodup_map_mem_eq hnd (List.get_mem specs j2 hj2len) hsp hloceq
  rw [hg2, hspeq]

/-- What loading certifies about one original node `kn` of the source
state `s` inside the rebuilt state `t`: the node is present under its
original id with the original position, template key and per-pin
literal values, its pins are live, and each original pin is found again
by local id with its full id intact. -/
def NodeCert (s : GraphState) (t : GraphState) (kn : UId × Node) : Prop :=
  ∃ n2, lookupA t.nodes kn.1 = some n2 ∧
    n2.x = kn.2.x ∧ n2.y = kn.2.y ∧ n2.nodeKey = kn.2.nodeKey ∧
    (∀ r p, r ∈ kn.2.pins → heapGet s r = some p →
      litGet n2 p.id = litGet kn.2 p.id) ∧
    (∀ r2 ∈ n2.pins, ∃ q, heapGet t r2 = some q) ∧
    (∀ r p, r ∈ kn.2.pins → heapGet s r = some p →
      ∃ r2 p2, nodeFindPinById t n2 p.id = some r2 ∧
        heapGet t r2 = some p2 ∧ p2.id = p.id)

theorem nodeFindPinById_congr (t t2 : GraphState) (n2 : Node)
    (pid : FullPinId)
    (hpin : ∀ r ∈ n2.pins, pinIdAt t2 r = pinIdAt t r) :
    nodeFindPinById t2 n2 pid = nodeFindPinById t n2 pid := by
  unfold nodeFindPinById
  exact find?_congr (fun r hr => by rw [hpin r hr])

theorem NodeCert_mono {s t t2 : GraphState} {kn : UId × Node}
    (h : NodeCert s t kn)
    (hlook : ∀ a v, lookupA t.nodes a = some v → lookupA t2.nodes a = some v)
    (hdom : ∀ r q, heapGet t r = some q →
      ∃ q2, heapGet t2 r = some q2 ∧ q2.id = q.id) :
    NodeCert s t2 kn := by
  obtain ⟨n2, hl, hx, hy, hk, hlit, hlive, hfind⟩ := h
  have hpin : ∀ r ∈ n2.pins, pinIdAt t2 r = pinIdAt t r := by
    intro r hr
    obtain ⟨q, hq⟩ := hlive r hr
    obtain ⟨q2, hq2, hqid⟩ := hdom r q hq
    unfold pinIdAt
    rw [hq, hq2, Option.map_some', Option.map_some', hqid]
  refine ⟨n2, hlook _ _ hl, hx, hy, hk, hlit, ?_, ?_⟩
  · intro r2 hr2
    obtain ⟨q, hq⟩ := hlive r2 hr2
    obtain ⟨q2, hq2, _⟩ := hdom r2 q hq
    exact ⟨q2, hq2⟩
  · intro r p hr hp
    obtain ⟨r2, p2, hf, hg, hpid⟩ := hfind r p hr hp
    obtain ⟨p3, hp3, hp3id⟩ := hdom r2 p2 hg
    refine ⟨r2, p3, ?_, hp3, hp3id.trans hpid⟩
    rw [nodeFindPinById_congr t t2 n2 p.id hpin]
    exact hf

theorem restoreFold_lits (t1 : GraphState) (nid : UId) (n : Node) :
    ∀ (sps : List PinSpec) (nodeCur : Node),
      nodeCur.id = nid →
      (hnd : (sps.map PinSpec.id).Nodup) →
      (∀ sp ∈ sps, ∃ r pin, nodeFindPinById t1 nodeCur ⟨nid, sp.id⟩ =
        some r ∧ heapGet t1 r = some pin ∧ pin.id = ⟨nid, sp.id⟩ ∧
        pin.defaultValue = sp.defaultValue) →
      (∀ sp ∈ sps, litGet n ⟨nid, sp.id⟩ = none →
        sp.defaultValue = none) →
      (let nodeF := (sps.map (fun sp =>
          ({ id := sp.id, name := sp.name, ty := sp.ty, dir := sp.dir,
             containerType := sp.containerType,
             literalValue := litGet n ⟨nid, sp.id⟩,
             isCustom := sp.isCustom } : SavedPin))).foldl
          (restoreLiteralStep t1) nodeCur
       nodeF.id = nodeCur.id ∧ nodeF.pins = nodeCur.pins ∧
       nodeF.x = nodeCur.x ∧ nodeF.y = nodeCur.y ∧
       nodeF.nodeKey = nodeCur.nodeKey ∧
       (∀ q : FullPinId, (∀ sp ∈ sps, q ≠ ⟨nid, sp.id⟩) →
         litGet nodeF q = litGet nodeCur q) ∧
       (∀ sp ∈ sps, litGet nodeF ⟨nid, sp.id⟩ =
         litGet n ⟨nid, sp.id⟩)) := by
  intro sps
  induction sps with
  | nil =>
    intro nodeCur hidC hnd hfind hdef
    exact ⟨rfl, rfl, rfl, rfl, rfl, fun q _ => rfl,
      fun sp h => absurd h (List.not_mem_nil sp)⟩
  | cons sp sps ih =>
    intro nodeCur hidC hnd hfind hdef
    rw [List.map_cons, List.foldl_cons]
    obtain ⟨r, pin, hf, hg, hpinid, hpindef⟩ :=
      hfind sp (List.mem_cons_self sp sps)
    have hstep : restoreLiteralStep t1 nodeCur
        ({ id := sp.id, name := sp.name, ty := sp.ty, dir := sp.dir,
           containerType := sp.containerType,
           literalValue := litGet n ⟨nid, sp.id⟩,
           isCustom := sp.isCustom } : SavedPin) =
        litSet nodeCur ⟨nid, sp.id⟩ (litGet n ⟨nid, sp.id⟩) := by
      unfold restoreLiteralStep
      simp only []
      rw [show (⟨nodeCur.id, sp.id⟩ : FullPinId) = ⟨nid, sp.id⟩ from
        by rw [hidC]]
      rw [hf]
      simp only []
      rw [hg]
      simp only []
      cases hv : litGet n ⟨nid, sp.id⟩ with
      | some v =>
        simp only []
        rw [hpinid]
      | none =>
        simp only []
        rw [hpinid, hpindef,
          hdef sp (List.mem_cons_self sp sps) hv]
    rw [hstep]
    have hndt : (sps.map PinSpec.id).Nodup :=
      (List.nodup_cons.mp (by rwa [List.map_cons] at hnd)).2
    have hspnot : sp.id ∉ sps.map PinSpec.id :=
      (List.nodup_cons.mp (by rwa [List.map_cons] at hnd)).1
    have hfind2 : ∀ sp2 ∈ sps, ∃ r2 pin2,
        nodeFindPinById t1 (litSet nodeCur ⟨nid, sp.id⟩
          (litGet n ⟨nid, sp.id⟩)) ⟨nid, sp2.id⟩ = some r2 ∧
        heapGet t1 r2 = some pin2 ∧ pin2.id = ⟨nid, sp2.id⟩ ∧
        pin2.defaultValue = sp2.defaultValue := by
      intro sp2 h2
      obtain ⟨r2, pin2, hf2, hg2, hpid2, hpd2⟩ :=
        hfind sp2 (List.mem_cons_of_mem sp h2)
      exact ⟨r2, pin2, hf2, hg2, hpid2, hpd2⟩
    obtain ⟨ihid, ihpins, ihx, ihy, ihk, ihq, ihsp⟩ :=
      ih (litSet nodeCur ⟨nid, sp.id⟩ (litGet n ⟨nid, sp.id⟩))
        hidC hndt hfind2
        (fun sp2 h2 => hdef sp2 (List.mem_cons_of_mem sp h2))
    refine ⟨ihid, ihpins, ihx, ihy, ihk, ?_, ?_⟩
    · intro q hq
      rw [ihq q (fun sp2 h2 => hq sp2 (List.mem_cons_of_mem sp h2))]
      exact litGet_litSet_ne _ _ _ _ (hq sp (List.mem_cons_self sp sps))
    · intro sp2 h2
      rcases List.mem_cons.mp h2 with h3 | h3
      · subst h3
        rw [ihq ⟨nid, sp2.id⟩ (fun sp3 h3 hcon => by
          have : sp2.id = sp3.id := congrArg FullPinId.loc hcon
          exact hspnot (this ▸ List.mem_map.mpr ⟨sp3, h3, rfl⟩))]
        exact litGet_litSet_self _ _ _
      · exact ihsp sp2 h3

theorem pinsMatchSpecs_spec_mem {s : GraphState} {nid : UId} :
    ∀ {rs : List Nat} {sps : List PinSpec},
      pinsMatchSpecs s nid rs sps = true → ∀ sp ∈ sps,
      ∃ r p, r ∈ rs ∧ heapGet s r = some p ∧
        pinMatchesSpec nid p sp = true := by
  intro rs
  induction rs with
  | nil =>
    intro sps h sp hsp
    cases sps with
    | nil => exact absurd hsp (List.not_mem_nil sp)
    | cons a b => exact absurd h (by simp [pinsMatchSpecs])
  | cons x rs ih =>
    intro sps h sp hsp
    cases sps with
    | nil => exact absurd h (by simp [pinsMatchSpecs])
    | cons sp2 sps =>
      simp only [pinsMatchSpecs, Bool.and_eq_true] at h
      rcases List.mem_cons.mp hsp with h1 | h1
      · subst h1
        cases hg : heapGet s x with
        | none =>
          rw [hg] at h
          exact absurd h.1 (by simp)
        | some p =>
          rw [hg] at h
          exact ⟨x, p, List.mem_cons_self x rs, hg, h.1⟩
      · obtain ⟨r, p, hr, hg, hm⟩ := ih h.2 sp h1
        exact ⟨r, p, List.mem_cons_of_mem x hr, hg, hm⟩

theorem litDefaults_unpack {s : GraphState}
    (h : litDefaultsWF s = true) :
    ∀ kn ∈ s.nodes, ∀ r ∈ kn.2.pins, ∀ p, heapGet s r = some p →
      litGet kn.2 p.id = none → p.defaultValue = none := by
  unfold litDefaultsWF at h
  rw [List.all_eq_true] at h
  intro kn hkn r hr p hp hnone
  have h2 := h kn hkn
  rw [List.all_eq_true] at h2
  have h3 := h2 r hr
  rw [hp, decide_eq_true_eq] at h3
  exact h3 hnone

theorem pinsChunk_keys_lt (nid : UId) :
    ∀ (specs : List PinSpec) (base : Nat) (kp : Nat × Pin),
      kp ∈ pinsChunk nid base specs → kp.1 < base + specs.length := by
  intro specs
  induction specs with
  | nil =>
    intro base kp h
    exact absurd h (List.not_mem_nil kp)
  | cons sp specs ih =>
    intro base kp h
    rw [pinsChunk] at h
    rcases List.mem_cons.mp h with h1 | h1
    · rw [h1]
      simp only [List.length_cons]
      omega
    · have := ih (base + 1) kp h1
      simp only [List.length_cons]
      omega

theorem lookupA_append_fresh {α β : Type} [DecidableEq α]
    {l : List (α × β)} {k : α} (v : β) (h : k ∉ l.map Prod.fst) :
    lookupA (l ++ [(k, v)]) k = some v := by
  rw [lookupA_append_right h]
  simp [lookupA]

theorem loadNodeStep_spec (cat : Catalog) (s : GraphState)
    (hwf : WF cat s = true) (hld : litDefaultsWF s = true)
    (hce : catalogCustomEventOK cat)
    (nid : UId) (n : Node) (hmem : (nid, n) ∈ s.nodes)
    (t : GraphState) (sn : SavedNode)
    (hsn : sn = { id := n.id, nodeKey := n.nodeKey, x := n.x, y := n.y,
                  pins := getPinsData s n })
    (hbound : ∀ rp ∈ t.pinHeap, rp.1 < t.nextRef)
    (hfresh : nid ∉ t.nodes.map Prod.fst) :
    ∃ nodeF,
      (loadNodeStep cat t sn).nodes = t.nodes ++ [(nid, nodeF)] ∧
      (loadNodeStep cat t sn).links = t.links ∧
      (∀ rp ∈ (loadNodeStep cat t sn).pinHeap,
        rp.1 < (loadNodeStep cat t sn).nextRef) ∧
      (∀ r q, heapGet t r = some q → heapGet (loadNodeStep cat t sn) r =
        some q) ∧
      NodeCert s (loadNodeStep cat t sn) (nid, n) := by
  have hidn : n.id = nid := (wf_nodesKeyed hwf _ hmem).symm
  have hnwf := wf_nodeWF hwf _ hmem
  unfold nodeWF at hnwf
  cases hcg : cat.get n.nodeKey with
  | none =>
    rw [hcg] at hnwf
    exact absurd hnwf (by simp)
  | some template =>
  rw [hcg] at hnwf
  simp only [Bool.and_eq_true, decide_eq_true_eq] at hnwf
  have hpms : pinsMatchSpecs s nid n.pins template.pins = true := by
    have h2 := hnwf.1
    rwa [hidn] at h2
  have hnd := hnwf.2
  have hgpd := getPinsData_eq hmem hwf hcg
  subst hsn
  unfold loadNodeStep
  simp only []
  rw [hcg]
  simp only []
  have hsavedIf : (if n.nodeKey = "CustomEvent" then
      (getPinsData s n).filter (fun p =>
        decide (p.id ≠ "delegate_out") &&
        decide (p.name ≠ "Output Delegate"))
      else getPinsData s n) = getPinsData s n := by
    by_cases hCE : n.nodeKey = "CustomEvent"
    · rw [if_pos hCE]
      apply List.filter_eq_self.mpr
      intro sv hsv
      rw [hgpd] at hsv
      obtain ⟨sp, hsp, hspv⟩ := List.mem_map.mp hsv
      have hok := hce template (by rw [← hCE]; exact hcg) sp hsp
      rw [← hspv]
      simp only [Bool.and_eq_true, decide_eq_true_eq]
      exact ⟨hok.1, hok.2⟩
    · rw [if_neg hCE]
  rw [hsavedIf]
  have hlen : (getPinsData s n).length = template.pins.length := by
    rw [hgpd, List.length_map]
  have hptlIf : (if n.nodeKey = "CustomEvent" then
      (if template.pins.length < (getPinsData s n).length then
        (getPinsData s n).map savedPinToSpec else template.pins)
      else template.pins) = template.pins := by
    by_cases hCE : n.nodeKey = "CustomEvent"
    · rw [if_pos hCE, if_neg (by rw [hlen]; exact lt_irrefl _)]
    · rw [if_neg hCE]
  rw [hptlIf]
  set MK := mkNode t n.id template.title template.pins n.x n.y n.nodeKey
    with hMK
  have hmkf := mkNode_fields t n.id template.title template.pins n.x n.y
    n.nodeKey
  rw [← hMK] at hmkf
  have honly := mkNode_only_heap t n.id template.title template.pins
    n.x n.y n.nodeKey
  rw [← hMK] at honly
  set T1 := { MK.2 with nodes := setA MK.2.nodes MK.1.id MK.1 } with hT1
  have hnodes2 : MK.2.nodes = t.nodes := by rw [honly]
  have hlinks2 : MK.2.links = t.links := by rw [honly]
  have hT1nodes : T1.nodes = t.nodes ++ [(nid, MK.1)] := by
    show setA MK.2.nodes MK.1.id MK.1 = _
    rw [hmkf.1, hidn, hnodes2, setA_fresh _ hfresh]
  have hfind : ∀ sp ∈ template.pins, ∃ r pin,
      nodeFindPinById T1 MK.1 ⟨nid, sp.id⟩ = some r ∧
      heapGet T1 r = some pin ∧ pin.id = ⟨nid, sp.id⟩ ∧
      pin.defaultValue = sp.defaultValue := by
    intro sp hsp
    obtain ⟨r, hfindMK, hgMK⟩ := mkNode_findPin_some t n.id template.title
      template.pins n.x n.y n.nodeKey sp hbound hnd hsp
    rw [← hMK] at hfindMK hgMK
    refine ⟨r, mkPin n.id sp, ?_, hgMK, ?_, rfl⟩
    · rw [show (⟨nid, sp.id⟩ : FullPinId) = ⟨n.id, sp.id⟩ from
        by rw [hidn]]
      rw [nodeFindPinById_heapEq T1 MK.2 MK.1 ⟨n.id, sp.id⟩ rfl]
      exact hfindMK
    · rw [show (mkPin n.id sp).id = (⟨n.id, sp.id⟩ : FullPinId) from rfl,
        hidn]
  have hdef : ∀ sp ∈ template.pins, litGet n ⟨nid, sp.id⟩ = none →
      sp.defaultValue = none := by
    intro sp hsp hnone
    obtain ⟨r, p, hr, hg, hm⟩ := pinsMatchSpecs_spec_mem hpms sp hsp
    obtain ⟨hpid, _, _, _, _, hpdv, _⟩ := pinMatchesSpec_fields hm
    rw [← hpdv]
    exact litDefaults_unpack hld (nid, n) hmem r hr p hg
      (by rw [hpid]; exact hnone)
  have hrf := restoreFold_lits T1 nid n template.pins MK.1
    (by rw [hmkf.1]; exact hidn) hnd hfind hdef
  rw [← hgpd] at hrf
  obtain ⟨hNFid, hNFpins, hNFx, hNFy, hNFkey, hNFother, hNFlits⟩ := hrf
  set NF := (getPinsData s n).foldl (restoreLiteralStep T1) MK.1 with hNF
  have hNFnid : NF.id = nid := by
    rw [hNFid, hmkf.1]
    exact hidn
  have hfinalNodes : setA T1.nodes NF.id NF = t.nodes ++ [(nid, NF)] := by
    rw [hNFnid, hT1nodes, setA_append_self _ _ hfresh]
  refine ⟨NF, hfinalNodes, hlinks2, ?_, ?_, ?_⟩
  · intro rp hrp
    have hrp2 : rp ∈ t.pinHeap ++
        pinsChunk n.id t.nextRef template.pins := by
      rw [← hmkf.2.2.2.2.2.2.2.1]
      exact hrp
    show rp.1 < MK.2.nextRef
    rw [hmkf.2.2.2.2.2.2.2.2]
    rcases List.mem_append.mp hrp2 with h | h
    · have := hbound rp h
      omega
    · exact pinsChunk_keys_lt n.id template.pins t.nextRef rp h
  · intro r q hq
    exact heapGet_mkNode_old t n.id template.title template.pins n.x n.y
      n.nodeKey r q hq
  · refine ⟨NF, ?_, ?_, ?_, ?_, ?_, ?_, ?_⟩
    · show lookupA (setA T1.nodes NF.id NF) nid = some NF
      rw [hfinalNodes]
      exact lookupA_append_fresh NF hfresh
    · rw [hNFx, hmkf.2.1]
    · rw [hNFy, hmkf.2.2.1]
    · rw [hNFkey, hmkf.2.2.2.1]
    · intro r p hr hp
      obtain ⟨p2, sp, hspmem, hg2, hm2⟩ := pinsMatchSpecs_mem2 hpms r hr
      rw [hp] at hg2
      have hp2 : p = p2 := by injection hg2
      obtain ⟨hpid, _, _, _, _, _, _⟩ := pinMatchesSpec_fields hm2
      rw [← hp2] at hpid
      rw [hpid]
      exact hNFlits sp hspmem
    · intro r2 hr2
      rw [hNFpins, hmkf.2.2.2.2.2.1] at hr2
      obtain ⟨i, hi, hrval⟩ := List.mem_map.mp hr2
      have hilen : i < template.pins.length := List.mem_range.mp hi
      have hg3 := heapGet_mkNode_new t n.id template.title template.pins
        n.x n.y n.nodeKey i hilen hbound
      rw [← hMK, hrval] at hg3
      exact ⟨_, hg3⟩
    · intro r p hr hp
      obtain ⟨p2, sp, hspmem, hg2, hm2⟩ := pinsMatchSpecs_mem2 hpms r hr
      rw [hp] at hg2
      have hp2 : p = p2 := by injection hg2
      obtain ⟨hpid, _, _, _, _, _, _⟩ := pinMatchesSpec_fields hm2
      rw [← hp2] at hpid
      obtain ⟨r3, pin3, hf3, hg3, hpid3, _⟩ := hfind sp hspmem
      have hcongr : nodeFindPinById { T1 with
          nodes := setA T1.nodes NF.id NF } NF p.id =
          nodeFindPinById T1 MK.1 p.id := by
        unfold nodeFindPinById
        rw [hNFpins]
        rfl
      refine ⟨r3, pin3, ?_, hg3, by rw [hpid3, hpid]⟩
      rw [hcongr, hpid]
      exact hf3
  
theorem loadNodesFold_spec (cat : Catalog) (s : GraphState)
    (hwf : WF cat s = true) (hld : litDefaultsWF s = true)
    (hce : catalogCustomEventOK cat) :
    ∀ (N : List (UId × Node)) (t : GraphState),
      (∀ kn ∈ N, kn ∈ s.nodes) →
      ((N.map Prod.fst).Nodup) →
      (∀ kn ∈ N, kn.1 ∉ t.nodes.map Prod.fst) →
      (∀ rp ∈ t.pinHeap, rp.1 < t.nextRef) →
      (let F := N.foldl (fun acc kn => loadNodeStep cat acc
        { id := kn.2.id, nodeKey := kn.2.nodeKey, x := kn.2.x,
          y := kn.2.y, pins := getPinsData s kn.2 }) t
       F.nodes.map Prod.fst = t.nodes.map Prod.fst ++ N.map Prod.fst ∧
       F.links = t.links ∧
       (∀ rp ∈ F.pinHeap, rp.1 < F.nextRef) ∧
       (∀ r q, heapGet t r = some q → heapGet F r = some q) ∧
       (∀ a v, lookupA t.nodes a = some v → lookupA F.nodes a = some v) ∧
       (∀ kn ∈ N, NodeCert s F kn)) := by
  intro N
  induction N with
  | nil =>
    intro t _ _ _ hb
    exact ⟨by simp, rfl, hb, fun _ _ h => h, fun _ _ h => h,
      fun kn h => absurd h (List.not_mem_nil kn)⟩
  | cons kn N ih =>
    intro t hmem hnodup hfresh hb
    rw [List.foldl_cons]
    obtain ⟨nodeF, hn1, hl1, hb1, hm1, hcert1⟩ :=
      loadNodeStep_spec cat s hwf hld hce kn.1 kn.2
        (by
          have := hmem kn (List.mem_cons_self kn N)
          cases kn
          exact this)
        t _ rfl hb (hfresh kn (List.mem_cons_self kn N))
    have hkeys2 : (loadNodeStep cat t
        { id := kn.2.id, nodeKey := kn.2.nodeKey, x := kn.2.x,
          y := kn.2.y, pins := getPinsData s kn.2 }).nodes.map Prod.fst =
        t.nodes.map Prod.fst ++ [kn.1] := by
      rw [hn1, List.map_append]
      rfl
    obtain ⟨ihA, ihB, ihC, ihD, ihE, ihG⟩ := ih
      (loadNodeStep cat t
        { id := kn.2.id, nodeKey := kn.2.nodeKey, x := kn.2.x,
          y := kn.2.y, pins := getPinsData s kn.2 })
      (fun kn2 h2 => hmem kn2 (List.mem_cons_of_mem kn h2))
      ((List.nodup_cons.mp (by rwa [List.map_cons] at hnodup)).2)
      (by
        intro kn2 h2 hcon
        rw [hkeys2] at hcon
        rcases List.mem_append.mp hcon with h3 | h3
        · exact hfresh kn2 (List.mem_cons_of_mem kn h2) h3
        · have hne : kn2.1 ≠ kn.1 := by
            intro heq
            refine (List.nodup_cons.mp
              (by rwa [List.map_cons] at hnodup)).1 ?_
            rw [← heq]
            exact List.mem_map.mpr ⟨kn2, h2, rfl⟩
          exact hne (List.mem_singleton.mp h3))
      hb1
    have hlook1 : ∀ a v, lookupA t.nodes a = some v →
        lookupA (loadNodeStep cat t
          { id := kn.2.id, nodeKey := kn.2.nodeKey, x := kn.2.x,
            y := kn.2.y, pins := getPinsData s kn.2 }).nodes a = some v := by
      intro a v h
      rw [hn1]
      exact lookupA_append_left h
    refine ⟨?_, ihB.trans hl1, ihC,
      fun r q h => ihD r q (hm1 r q h),
      fun a v h => ihE a v (hlook1 a v h), ?_⟩
    · rw [ihA, hkeys2, List.map_cons]
      simp
    · intro kn2 h2
      rcases List.mem_cons.mp h2 with h3 | h3
      · subst h3
        exact NodeCert_mono hcert1 ihE
          (fun r q h => ⟨q, ihD r q h, rfl⟩)
      · exact ihG kn2 h3

theorem resolvedPinId_of_heapGet (t : GraphState) (r : Nat) (p : Pin)
    (h : heapGet t r = some p) : resolvedPinId t r = p.id := by
  unfold resolvedPinId
  rw [h]

theorem resolvedPinId_congr (t u : GraphState) (r : Nat)
    (h : pinIdAt t r = pinIdAt u r) :
    resolvedPinId t r = resolvedPinId u r := by
  unfold pinIdAt at h
  unfold resolvedPinId
  cases hg : heapGet t r with
  | none =>
    cases hg2 : heapGet u r with
    | none => rfl
    | some q =>
      rw [hg, hg2] at h
      exact absurd h (by simp)
  | some p =>
    cases hg2 : heapGet u r with
    | none =>
      rw [hg, hg2] at h
      exact absurd h (by simp)
    | some q =>
      rw [hg, hg2] at h
      simp only [Option.map_some', Option.some.injEq] at h
      exact h

theorem pinIdAt_some_dom (t : GraphState) (r : Nat) (i : FullPinId)
    (h : pinIdAt t r = some i) :
    ∃ q, heapGet t r = some q ∧ q.id = i := by
  unfold pinIdAt at h
  cases hg : heapGet t r with
  | none =>
    rw [hg] at h
    exact absurd h (by simp)
  | some q =>
    rw [hg] at h
    simp only [Option.map_some', Option.some.injEq] at h
    exact ⟨q, rfl, h⟩

theorem loadLinkStep_chars (u : GraphState) (sl : SavedLink)
    (r2s r2e : Nat)
    (hfs : findPinById u (some sl.startPinId) = some r2s)
    (hfe : findPinById u (some sl.endPinId) = some r2e) :
    (loadLinkStep u sl).nodes = u.nodes ∧
    (∀ r, pinIdAt (loadLinkStep u sl) r = pinIdAt u r) ∧
    (loadLinkStep u sl).links = setA u.links sl.id ⟨sl.id, r2s, r2e⟩ := by
  unfold loadLinkStep
  rw [hfs, hfe]
  simp only []
  refine ⟨?_, ?_, ?_⟩
  · rw [modifyPinLinks_nodes, modifyPinLinks_nodes]
  · intro r
    rw [pinIdAt_modifyPinLinks, pinIdAt_modifyPinLinks]
    rfl
  · rw [modifyPinLinks_links, modifyPinLinks_links]

theorem findPinById_resolves {cat : Catalog} {s : GraphState}
    (hwf : WF cat s = true) (u : GraphState)
    (hucert : ∀ kn ∈ s.nodes, NodeCert s u kn)
    (x : Nat) (p : Pin) (hlive : x ∈ liveRefs s)
    (hp : heapGet s x = some p) :
    ∃ r2 p2, findPinById u (some p.id) = some r2 ∧
      heapGet u r2 = some p2 ∧ p2.id = p.id := by
  have hpid : pinIdAt s x = some p.id := by
    unfold pinIdAt
    rw [hp]
    rfl
  obtain ⟨nodeOwn, hlookS, hxin⟩ := wf_ref_node hwf hlive hpid
  have hmemO : (p.id.node, nodeOwn) ∈ s.nodes := mem_of_lookupA hlookS
  obtain ⟨n2, hlk2, _, _, _, _, _, hfind⟩ := hucert _ hmemO
  obtain ⟨r2, p2, hf2, hg2, hid2⟩ := hfind x p hxin hp
  refine ⟨r2, p2, ?_, hg2, hid2⟩
  have hlk2b : lookupA u.nodes p.id.node = some n2 := hlk2
  unfold findPinById
  simp only []
  rw [hlk2b]
  exact hf2

theorem loadLinksFold_spec (cat : Catalog) (s s1 : GraphState)
    (hwf : WF cat s = true) :
    ∀ (L : List (UId × Link)) (u : GraphState),
      (∀ kl ∈ L, kl ∈ s.links) →
      ((L.map (fun kl => kl.2.id)).Nodup) →
      (∀ kl ∈ L, kl.2.id ∉ u.links.map Prod.fst) →
      (u.nodes = s1.nodes) →
      (∀ kn ∈ s.nodes, NodeCert s u kn) →
      (let F := L.foldl (fun acc kl => loadLinkStep acc
        { id := kl.2.id, startPinId := resolvedPinId s kl.2.startPin,
          endPinId := resolvedPinId s kl.2.endPin }) u
       F.nodes = s1.nodes ∧
       (∀ kn ∈ s.nodes, NodeCert s F kn) ∧
       F.links.map (fun kl => (kl.1, resolvedPinId F kl.2.startPin,
         resolvedPinId F kl.2.endPin)) =
         u.links.map (fun kl => (kl.1, resolvedPinId u kl.2.startPin,
           resolvedPinId u kl.2.endPin)) ++
         L.map (fun kl => (kl.2.id, resolvedPinId s kl.2.startPin,
           resolvedPinId s kl.2.endPin)) ∧
       F.links.map Prod.fst = u.links.map Prod.fst ++
         L.map (fun kl => kl.2.id)) := by
  intro L
  induction L with
  | nil =>
    intro u _ _ _ hun hucert
    exact ⟨hun, hucert, by simp, by simp⟩
  | cons kl L ih =>
    intro u hmem hnodup hdisj hun hucert
    rw [List.foldl_cons]
    have hkls : kl ∈ s.links := hmem kl (List.mem_cons_self kl L)
    have hlwf := linkWF_unpack (wf_linkWF hwf kl hkls)
    obtain ⟨hkey, ⟨hliveS, ps, hps, _, _⟩, ⟨hliveE, pe, hpe, _, _⟩⟩ := hlwf
    obtain ⟨r2s, p2s, hfs, hgs, hids⟩ :=
      findPinById_resolves hwf u hucert kl.2.startPin ps hliveS hps
    obtain ⟨r2e, p2e, hfe, hge, hide⟩ :=
      findPinById_resolves hwf u hucert kl.2.endPin pe hliveE hpe
    have hfs2 : findPinById u (some (SavedLink.mk kl.2.id
        (resolvedPinId s kl.2.startPin)
        (resolvedPinId s kl.2.endPin)).startPinId) =
        some r2s := by
      show findPinById u (some (resolvedPinId s kl.2.startPin)) = some r2s
      rw [resolvedPinId_of_heapGet s kl.2.startPin ps hps]
      exact hfs
    have hfe2 : findPinById u (some (SavedLink.mk kl.2.id
        (resolvedPinId s kl.2.startPin)
        (resolvedPinId s kl.2.endPin)).endPinId) =
        some r2e := by
      show findPinById u (some (resolvedPinId s kl.2.endPin)) = some r2e
      rw [resolvedPinId_of_heapGet s kl.2.endPin pe hpe]
      exact hfe
    obtain ⟨hcn, hcp, hcl⟩ := loadLinkStep_chars u _ r2s r2e hfs2 hfe2
    have hfreshk : kl.2.id ∉ u.links.map Prod.fst :=
      hdisj kl (List.mem_cons_self kl L)
    have hcl2 : (loadLinkStep u (SavedLink.mk kl.2.id
        (resolvedPinId s kl.2.startPin)
        (resolvedPinId s kl.2.endPin))).links =
        u.links ++ [(kl.2.id, ⟨kl.2.id, r2s, r2e⟩)] := by
      rw [hcl]
      exact setA_fresh _ hfreshk
    have hdom : ∀ r q, heapGet u r = some q →
        ∃ q2, heapGet (loadLinkStep u (SavedLink.mk kl.2.id
          (resolvedPinId s kl.2.startPin)
          (resolvedPinId s kl.2.endPin))) r = some q2 ∧
          q2.id = q.id := by
      intro r q hq
      have h2 : pinIdAt (loadLinkStep u _) r = pinIdAt u r := hcp r
      have h3 : pinIdAt u r = some q.id := by
        unfold pinIdAt
        rw [hq]
        rfl
      obtain ⟨q2, hq2, hq2id⟩ := pinIdAt_some_dom _ r q.id
        (h2.trans h3)
      exact ⟨q2, hq2, hq2id⟩
    have hucert2 : ∀ kn ∈ s.nodes, NodeCert s (loadLinkStep u
        (SavedLink.mk kl.2.id (resolvedPinId s kl.2.startPin)
          (resolvedPinId s kl.2.endPin))) kn := by
      intro kn hkn
      exact NodeCert_mono (hucert kn hkn)
        (fun a v h => by rw [hcn]; exact h) hdom
    obtain ⟨ihA, ihB, ihC, ihD⟩ := ih
      (loadLinkStep u (SavedLink.mk kl.2.id
        (resolvedPinId s kl.2.startPin)
        (resolvedPinId s kl.2.endPin)))
      (fun kl2 h2 => hmem kl2 (List.mem_cons_of_mem kl h2))
      ((List.nodup_cons.mp (by rwa [List.map_cons] at hnodup)).2)
      (by
        intro kl2 h2 hcon
        rw [hcl2, List.map_append] at hcon
        rcases List.mem_append.mp hcon with h3 | h3
        · exact hdisj kl2 (List.mem_cons_of_mem kl h2) h3
        · refine (List.nodup_cons.mp
            (by rwa [List.map_cons] at hnodup)).1 ?_
          have h4 : kl2.2.id = kl.2.id := by
            simp only [List.map_cons, List.map_nil,
              List.mem_singleton] at h3
            exact h3
          rw [← h4]
          exact List.mem_map.mpr ⟨kl2, h2, rfl⟩)
      (hcn.trans hun) hucert2
    refine ⟨ihA, ihB, ?_, ?_⟩
    · rw [ihC, hcl2]
      rw [List.map_append]
      have hres : ∀ r, resolvedPinId (loadLinkStep u
          (SavedLink.mk kl.2.id (resolvedPinId s kl.2.startPin)
            (resolvedPinId s kl.2.endPin))) r =
          resolvedPinId u r :=
        fun r => resolvedPinId_congr _ _ r (hcp r)
      rw [List.map_congr_left (fun kl2 _ => by rw [hres, hres])]
      rw [List.append_assoc]
      congr 1
      rw [List.map_cons, List.map_cons, List.map_nil,
        List.singleton_append]
      congr 1
      simp only []
      rw [hres r2s, hres r2e,
        resolvedPinId_of_heapGet u r2s p2s hgs,
        resolvedPinId_of_heapGet u r2e p2e hge, hids, hide,
        resolvedPinId_of_heapGet s kl.2.startPin ps hps,
        resolvedPinId_of_heapGet s kl.2.endPin pe hpe]
    · rw [ihD, hcl2, List.map_append, List.append_assoc]
      congr 1

set_option maxHeartbeats 2000000 in
/-- C1: for every well-formed graph built from valid catalog templates
(`WF`, template-default literals where unconnected, and a catalog whose
`CustomEvent` template — if any — carries no legacy delegate pin),
`loadState` on the serialized form yields a graph with the same node
identifiers, and for every original node a rebuilt node with the same
position, template key and per-pin literal values, and link-for-link
the same (id, start full pin id, end full pin id) endpoint pairs. -/
theorem loadState_roundtrip (cat : Catalog) (s : GraphState)
    (hwf : WF cat s = true) (hld : litDefaultsWF s = true)
    (hce : catalogCustomEventOK cat) :
    (loadState cat s (serialize s)).nodes.map Prod.fst =
      s.nodes.map Prod.fst ∧
    (∀ nid n, lookupA s.nodes nid = some n →
      ∃ n2, lookupA (loadState cat s (serialize s)).nodes nid = some n2 ∧
        n2.x = n.x ∧ n2.y = n.y ∧ n2.nodeKey = n.nodeKey ∧
        ∀ r p, r ∈ n.pins → heapGet s r = some p →
          litGet n2 p.id = litGet n p.id) ∧
    (loadState cat s (serialize s)).links.map (fun kl =>
        (kl.1, resolvedPinId (loadState cat s (serialize s)) kl.2.startPin,
          resolvedPinId (loadState cat s (serialize s)) kl.2.endPin)) =
      s.links.map (fun kl =>
        (kl.1, resolvedPinId s kl.2.startPin,
          resolvedPinId s kl.2.endPin)) := by
  have h1 : ∀ t : GraphState,
      (serialize s).nodes.foldl (loadNodeStep cat) t =
      s.nodes.foldl (fun acc kn => loadNodeStep cat acc
        { id := kn.2.id, nodeKey := kn.2.nodeKey, x := kn.2.x,
          y := kn.2.y, pins := getPinsData s kn.2 }) t := by
    intro t
    show ((s.nodes.map Prod.snd).map (fun n =>
      { id := n.id, nodeKey := n.nodeKey, x := n.x, y := n.y,
        pins := getPinsData s n })).foldl (loadNodeStep cat) t = _
    rw [List.foldl_map, List.foldl_map]
  have h2 : ∀ u : GraphState,
      (serialize s).links.foldl loadLinkStep u =
      s.links.foldl (fun acc kl => loadLinkStep acc
        { id := kl.2.id, startPinId := resolvedPinId s kl.2.startPin,
          endPinId := resolvedPinId s kl.2.endPin }) u := by
    intro u
    show ((s.links.map Prod.snd).map (fun l =>
      { id := l.id, startPinId := resolvedPinId s l.startPin,
        endPinId := resolvedPinId s l.endPin })).foldl loadLinkStep u = _
    rw [List.foldl_map, List.foldl_map]
  obtain ⟨hA, hB, _, _, _, hG⟩ :=
    loadNodesFold_spec cat s hwf hld hce s.nodes
      { s with nodes := [], links := [] }
      (fun _ h => h) (wf_nodeKeysNodup hwf)
      (fun kn _ hc => (List.not_mem_nil kn.1) hc)
      (fun rp hrp => wf_heapBound hwf rp hrp)
  have hkeyeq : ∀ kl ∈ s.links, kl.1 = kl.2.id :=
    fun kl h => (linkWF_unpack (wf_linkWF hwf kl h)).1
  obtain ⟨hFA, hFB, hFC, hFD⟩ :=
    loadLinksFold_spec cat s
      (s.nodes.foldl (fun acc kn => loadNodeStep cat acc
        { id := kn.2.id, nodeKey := kn.2.nodeKey, x := kn.2.x,
          y := kn.2.y, pins := getPinsData s kn.2 })
        { s with nodes := [], links := [] })
      hwf s.links
      (s.nodes.foldl (fun acc kn => loadNodeStep cat acc
        { id := kn.2.id, nodeKey := kn.2.nodeKey, x := kn.2.x,
          y := kn.2.y, pins := getPinsData s kn.2 })
        { s with nodes := [], links := [] })
      (fun _ h => h)
      (by
        rw [List.map_congr_left (fun kl h => (hkeyeq kl h).symm)]
        exact wf_linkKeysNodup hwf)
      (by
        intro kl _ hc
        rw [hB] at hc
        exact (List.not_mem_nil kl.2.id) hc)
      rfl hG
  have hload : loadState cat s (serialize s) =
      s.links.foldl (fun acc kl => loadLinkStep acc
        { id := kl.2.id, startPinId := resolvedPinId s kl.2.startPin,
          endPinId := resolvedPinId s kl.2.endPin })
        (s.nodes.foldl (fun acc kn => loadNodeStep cat acc
          { id := kn.2.id, nodeKey := kn.2.nodeKey, x := kn.2.x,
            y := kn.2.y, pins := getPinsData s kn.2 })
          { s with nodes := [], links := [] }) := by
    show (serialize s).links.foldl loadLinkStep
        ((serialize s).nodes.foldl (loadNodeStep cat)
          { s with nodes := [], links := [] }) = _
    rw [h1, h2]
  refine ⟨?_, ?_, ?_⟩
  · rw [hload, hFA, hA]
    exact List.nil_append _
  · intro nid n hlk
    obtain ⟨n2, hl2, hx, hy, hk, hlit, _, _⟩ :=
      hFB (nid, n) (mem_of_lookupA hlk)
    rw [hload]
    exact ⟨n2, hl2, hx, hy, hk, hlit⟩
  · rw [hload, hFC]
    have hnil : (s.nodes.foldl (fun acc kn => loadNodeStep cat acc
        { id := kn.2.id, nodeKey := kn.2.nodeKey, x := kn.2.x,
          y := kn.2.y, pins := getPinsData s kn.2 })
        { s with nodes := [], links := [] }).links = [] := hB
    rw [hnil, List.map_nil, List.nil_append]
    exact List.map_congr_left (fun kl h => by rw [← hkeyeq kl h])

/-- The round trip instantiated on the two-node, one-link world `wS3`:
its well-formedness side conditions hold by evaluation and the rebuilt
link list resolves to the original endpoint pairs. -/
theorem loadState_roundtrip_witness :
    WF wCat wS3 = true ∧ litDefaultsWF wS3 = true ∧
    (loadState wCat wS3 (serialize wS3)).links.map (fun kl =>
        (kl.1, resolvedPinId (loadState wCat wS3 (serialize wS3)) kl.2.startPin,
          resolvedPinId (loadState wCat wS3 (serialize wS3)) kl.2.endPin)) =
      wS3.links.map (fun kl =>
        (kl.1, resolvedPinId wS3 kl.2.startPin,
          resolvedPinId wS3 kl.2.endPin)) :=
  ⟨by decide, by decide,
    (loadState_roundtrip wCat wS3 (by decide) (by decide)
      (by
        intro t h
        have h0 : wCat.get "CustomEvent" = none := rfl
        rw [h0] at h
        exact Option.noConfusion h)).2.2⟩

/-! ## C6 (amended): `duplicateSelectedNodes` on singleton-free selections -/

/-- The phase-2 test of `duplicateSelectedNodes`: both endpoint pins of
the link belong to selected nodes. -/
def isInternal (s : GraphState) (l : Link) : Bool :=
  (match pinNodeId s l.startPin with
   | some nid => decide (nid ∈ s.selectedNodes)
   | none => false) &&
  (match pinNodeId s l.endPin with
   | some nid => decide (nid ∈ s.selectedNodes)
   | none => false)

/-- The links internal to the selection, in insertion order. -/
def internalLinks (s : GraphState) : List Link :=
  (linkVals s).filter (isInternal s)

/-- Every pin respects its capacity: a single-capacity pin holds at most
one link (holds for reachable graphs, where `createConnection` breaks a
full single-capacity end pin before reconnecting it). -/
def maxLinksWF (s : GraphState) : Bool :=
  s.pinHeap.all (fun rp =>
    !(getMaxLinksIsOne rp.2) || decide (rp.2.links.length ≤ 1))

/-- No selected node's template is singleton-flagged. -/
def selectionSingletonFree (cat : Catalog) (s : GraphState) : Bool :=
  s.selectedNodes.all (fun nid =>
    match lookupA s.nodes nid with
    | none => true
    | some n =>
      match cat.get n.nodeKey with
      | none => true
      | some t => !t.isSingleton)

/-- The duplicated image of a full pin id: the same local id on the copy
of its owning node. -/
def dupPinId (nodeMap : List (UId × UId)) (pid : FullPinId) :
    Option FullPinId :=
  (lookupA nodeMap pid.node).map (fun nid2 => (⟨nid2, pid.loc⟩ : FullPinId))

/-- Heap stability up to link lists: every pin survives with its id,
direction and value type intact. -/
def FieldStab (t u : GraphState) : Prop :=
  ∀ r q, heapGet t r = some q → ∃ q2, heapGet u r = some q2 ∧
    q2.id = q.id ∧ q2.dir = q.dir ∧ q2.ty = q.ty

/-- What phase 1 of `duplicateSelectedNodes` certifies about one copied
node `pr.1 ↦ pr.2`: the copy is registered under the fresh id with live
pins, and every pin of the original is mapped by the old→new pin map to
the copy's pin with the same local id — a pin the copy resolves by id,
sharing the original's direction and type, with an empty link list. -/
def DupCert (s t : GraphState) (m : List (FullPinId × FullPinId))
    (pr : UId × UId) : Prop :=
  ∃ n n2, lookupA s.nodes pr.1 = some n ∧
    lookupA t.nodes pr.2 = some n2 ∧
    (∀ r2 ∈ n2.pins, ∃ q, heapGet t r2 = some q) ∧
    ∀ r p, r ∈ n.pins → heapGet s r = some p →
      lookupA m p.id = some ⟨pr.2, p.id.loc⟩ ∧
      ∃ r2 p2, nodeFindPinById t n2 ⟨pr.2, p.id.loc⟩ = some r2 ∧
        heapGet t r2 = some p2 ∧ p2.id = ⟨pr.2, p.id.loc⟩ ∧
        p2.dir = p.dir ∧ p2.ty = p.ty ∧ p2.links = []

theorem isInternal_congr (s1 u : GraphState) (l : Link)
    (hpin : ∀ r, pinIdAt u r = pinIdAt s1 r)
    (hsel : u.selectedNodes = s1.selectedNodes) :
    isInternal u l = isInternal s1 l := by
  unfold isInternal
  rw [pinNodeId_map, pinNodeId_map, pinNodeId_map, pinNodeId_map,
    hpin l.startPin, hpin l.endPin, hsel]

theorem mem_len_le_one {α : Type} {l : List α} (hlen : l.length ≤ 1)
    {a b : α} (ha : a ∈ l) (hb : b ∈ l) : a = b := by
  cases l with
  | nil => exact absurd ha (List.not_mem_nil a)
  | cons x t =>
    cases t with
    | nil =>
      rw [List.mem_singleton] at ha hb
      rw [ha, hb]
    | cons y t2 => simp at hlen

theorem maxLinks_unpack {s : GraphState} (h : maxLinksWF s = true) :
    ∀ r p, heapGet s r = some p → getMaxLinksIsOne p = true →
      p.links.length ≤ 1 := by
  unfold maxLinksWF at h
  rw [List.all_eq_true] at h
  intro r p hg hmax
  have hmem : (r, p) ∈ s.pinHeap := mem_of_lookupA hg
  have h2 := h (r, p) hmem
  rw [hmax] at h2
  simpa using h2

theorem singletonFree_unpack {cat : Catalog} {s : GraphState}
    (h : selectionSingletonFree cat s = true) :
    ∀ nid ∈ s.selectedNodes, ∀ n, lookupA s.nodes nid = some n →
      ∀ t, cat.get n.nodeKey = some t → t.isSingleton = false := by
  unfold selectionSingletonFree at h
  rw [List.all_eq_true] at h
  intro nid hnid n hn t ht
  have h2 := h nid hnid
  rw [hn] at h2
  simp only [] at h2
  rw [ht] at h2
  simp only [] at h2
  simpa using h2

theorem linkVals_mem {s : GraphState} {l : Link} (h : l ∈ linkVals s) :
    ∃ k, (k, l) ∈ s.links := by
  unfold linkVals at h
  obtain ⟨kl, hkl, hsnd⟩ := List.mem_map.mp h
  exact ⟨kl.1, by rw [← hsnd]; exact hkl⟩

theorem linkVals_ids_nodup {cat : Catalog} {s : GraphState}
    (hwf : WF cat s = true) : ((linkVals s).map Link.id).Nodup := by
  have hkeys : ∀ kl ∈ s.links, kl.1 = kl.2.id := fun kl h =>
    (linkWF_unpack (wf_linkWF hwf kl h)).1
  have heq : (linkVals s).map Link.id = s.links.map Prod.fst := by
    unfold linkVals
    rw [List.map_map]
    exact List.map_congr_left (fun kl h => (hkeys kl h).symm)
  rw [heq]
  exact wf_linkKeysNodup hwf

theorem pinsMatchSpecs_id_inj {s : GraphState} {nid : UId} :
    ∀ {rs : List Nat} {sps : List PinSpec},
      pinsMatchSpecs s nid rs sps = true →
      (sps.map PinSpec.id).Nodup →
      ∀ r1 ∈ rs, ∀ r2 ∈ rs, ∀ p1 p2,
        heapGet s r1 = some p1 → heapGet s r2 = some p2 →
        p1.id = p2.id → r1 = r2 := by
  intro rs
  induction rs with
  | nil =>
    intro sps h hnd r1 h1
    exact absurd h1 (List.not_mem_nil r1)
  | cons x rs ih =>
    intro sps h hnd r1 h1 r2 h2 p1 p2 hg1 hg2 hid
    cases sps with
    | nil => exact absurd h (by simp [pinsMatchSpecs])
    | cons sp sps =>
      simp only [pinsMatchSpecs, Bool.and_eq_true] at h
      rw [List.map_cons, List.nodup_cons] at hnd
      have hhead : ∀ r p, heapGet s r = some p → r = x →
          p.id.loc = sp.id := by
        intro r p hg hr
        subst hr
        cases hgx : heapGet s r with
        | none =>
          rw [hgx] at h
          exact absurd h.1 (by simp)
        | some px =>
          rw [hgx] at h
          rw [hgx] at hg
          injection hg with hpx
          rw [← hpx]
          rw [(pinMatchesSpec_fields h.1).1]
      have htail : ∀ r p, r ∈ rs → heapGet s r = some p →
          p.id.loc ∈ sps.map PinSpec.id := by
        intro r p hr hg
        obtain ⟨q, sp2, hsp2, hgq, hmq⟩ := pinsMatchSpecs_mem2 h.2 r hr
        rw [hg] at hgq
        injection hgq with hq
        refine List.mem_map.mpr ⟨sp2, hsp2, ?_⟩
        rw [hq, (pinMatchesSpec_fields hmq).1]
      rcases List.mem_cons.mp h1 with e1 | e1 <;>
        rcases List.mem_cons.mp h2 with e2 | e2
      · rw [e1, e2]
      · exfalso
        have ha := hhead r1 p1 hg1 e1
        have hb := htail r2 p2 e2 hg2
        rw [← congrArg FullPinId.loc hid, ha] at hb
        exact hnd.1 hb
      · exfalso
        have ha := hhead r2 p2 hg2 e2
        have hb := htail r1 p1 e1 hg1
        rw [congrArg FullPinId.loc hid, ha] at hb
        exact hnd.1 hb
      · exact ih h.2 hnd.2 r1 e1 r2 e2 p1 p2 hg1 hg2 hid

theorem pinIds_inj {cat : Catalog} {s : GraphState}
    (hwf : WF cat s = true) {r1 r2 : Nat} {p1 p2 : Pin}
    (hl1 : r1 ∈ liveRefs s) (hl2 : r2 ∈ liveRefs s)
    (hg1 : heapGet s r1 = some p1) (hg2 : heapGet s r2 = some p2)
    (hid : p1.id = p2.id) : r1 = r2 := by
  have hp1 : pinIdAt s r1 = some p1.id := by
    unfold pinIdAt
    rw [hg1]
    rfl
  have hp2 : pinIdAt s r2 = some p2.id := by
    unfold pinIdAt
    rw [hg2]
    rfl
  obtain ⟨node, hlook, hr1⟩ := wf_ref_node hwf hl1 hp1
  obtain ⟨node2, hlook2, hr2⟩ := wf_ref_node hwf hl2 hp2
  rw [← hid] at hlook2
  rw [hlook] at hlook2
  injection hlook2 with hnn
  rw [← hnn] at hr2
  have hmem : (p1.id.node, node) ∈ s.nodes := mem_of_lookupA hlook
  have hnwf := wf_nodeWF hwf _ hmem
  unfold nodeWF at hnwf
  cases hcg : cat.get node.nodeKey with
  | none =>
    rw [hcg] at hnwf
    exact absurd hnwf (by simp)
  | some tmpl =>
    rw [hcg] at hnwf
    simp only [Bool.and_eq_true, decide_eq_true_eq] at hnwf
    exact pinsMatchSpecs_id_inj hnwf.1 hnwf.2 r1 hr1 r2 hr2 p1 p2
      hg1 hg2 hid

theorem link_end_unique {cat : Catalog} {s : GraphState}
    (hwf : WF cat s = true) (hcap : maxLinksWF s = true)
    {kl1 kl2 : UId × Link} (h1 : kl1 ∈ s.links) (h2 : kl2 ∈ s.links)
    (hend : kl1.2.endPin = kl2.2.endPin) {pe : Pin}
    (hpe : heapGet s kl1.2.endPin = some pe)
    (hmax : getMaxLinksIsOne pe = true) : kl1 = kl2 := by
  obtain ⟨hk1, -, -, q1, hq1, -, hm1⟩ := linkWF_unpack (wf_linkWF hwf kl1 h1)
  obtain ⟨hk2, -, -, q2, hq2, -, hm2⟩ := linkWF_unpack (wf_linkWF hwf kl2 h2)
  rw [hpe] at hq1
  injection hq1 with hq1e
  rw [← hend, hpe] at hq2
  injection hq2 with hq2e
  rw [← hq1e] at hm1
  rw [← hq2e] at hm2
  have hlen := maxLinks_unpack hcap kl1.2.endPin pe hpe hmax
  have hideq : kl1.2.id = kl2.2.id := mem_len_le_one hlen hm1 hm2
  have hkey : kl1.1 = kl2.1 := by rw [hk1, hk2, hideq]
  have hv1 := lookupA_of_mem_nodup h1 (wf_linkKeysNodup hwf)
  have hv2 := lookupA_of_mem_nodup h2 (wf_linkKeysNodup hwf)
  rw [hkey] at hv1
  rw [hv2] at hv1
  injection hv1 with hval
  cases kl1 with
  | mk a b =>
    cases kl2 with
    | mk c d =>
      simp only at hkey hval
      rw [hkey, hval]

theorem findPinById_sound {s : GraphState} {pid : FullPinId} {r : Nat}
    (h : findPinById s (some pid) = some r) : pinIdAt s r = some pid := by
  unfold findPinById at h
  simp only [] at h
  cases hl : lookupA s.nodes pid.node with
  | none =>
    rw [hl] at h
    exact absurd h (by simp)
  | some n =>
    rw [hl] at h
    unfold nodeFindPinById at h
    have := List.find?_some h
    rwa [decide_eq_true_eq] at this

theorem pinsMatchSpecs_transfer {s t : GraphState} {nid : UId} :
    ∀ {rs : List Nat} {sps : List PinSpec},
      pinsMatchSpecs s nid rs sps = true →
      (∀ r p, heapGet s r = some p → heapGet t r = some p) →
      pinsMatchSpecs t nid rs sps = true := by
  intro rs
  induction rs with
  | nil =>
    intro sps h hpres
    cases sps with
    | nil => rfl
    | cons sp sps => exact absurd h (by simp [pinsMatchSpecs])
  | cons r rs ih =>
    intro sps h hpres
    cases sps with
    | nil => exact absurd h (by simp [pinsMatchSpecs])
    | cons sp sps =>
      simp only [pinsMatchSpecs, Bool.and_eq_true] at h ⊢
      refine ⟨?_, ih h.2 hpres⟩
      cases hg : heapGet s r with
      | none =>
        rw [hg] at h
        exact absurd h.1 (by simp)
      | some p =>
        rw [hg] at h
        rw [hpres r p hg]
        exact h.1

theorem dupPairs_spec (t2 : GraphState) (nid newId : UId) :
    ∀ (sps : List PinSpec) (rsOld rsNew : List Nat),
      pinsMatchSpecs t2 nid rsOld sps = true →
      pinsMatchSpecs t2 newId rsNew sps = true →
      (rsOld.zip rsNew).filterMap (fun rr =>
        match heapGet t2 rr.1, heapGet t2 rr.2 with
        | some po, some pn => some (po.id, pn.id)
        | _, _ => none) =
      sps.map (fun sp =>
        ((⟨nid, sp.id⟩ : FullPinId), (⟨newId, sp.id⟩ : FullPinId))) := by
  intro sps
  induction sps with
  | nil =>
    intro rsOld rsNew hOld hNew
    cases rsOld with
    | nil => rfl
    | cons a b => exact absurd hOld (by simp [pinsMatchSpecs])
  | cons sp sps ih =>
    intro rsOld rsNew hOld hNew
    cases rsOld with
    | nil => exact absurd hOld (by simp [pinsMatchSpecs])
    | cons ro rsOld =>
      cases rsNew with
      | nil => exact absurd hNew (by simp [pinsMatchSpecs])
      | cons rn rsNew =>
        simp only [pinsMatchSpecs, Bool.and_eq_true] at hOld hNew
        rw [List.zip_cons_cons, List.filterMap_cons]
        cases hgo : heapGet t2 ro with
        | none =>
          rw [hgo] at hOld
          exact absurd hOld.1 (by simp)
        | some po =>
          rw [hgo] at hOld
          cases hgn : heapGet t2 rn with
          | none =>
            rw [hgn] at hNew
            exact absurd hNew.1 (by simp)
          | some pn =>
            rw [hgn] at hNew
            simp only [hgo, hgn]
            rw [List.map_cons]
            congr 1
            · rw [(pinMatchesSpec_fields hOld.1).1,
                (pinMatchesSpec_fields hNew.1).1]
            · exact ih rsOld rsNew hOld.2 hNew.2

theorem connectDirect_counter (s0 : GraphState) (a b : Nat) :
    (connectDirect s0 a b).counter = s0.counter + 1 :=
  _addLink_counter s0 a b

theorem connectDirect_nodes (s0 : GraphState) (a b : Nat) :
    (connectDirect s0 a b).nodes = s0.nodes := by
  show (_addLink s0 a b).nodes = s0.nodes
  unfold _addLink uniqueId
  simp only
  rw [modifyPinLinks_only_heap]
  rw [modifyPinLinks_only_heap]

theorem connectDirect_sel (s0 : GraphState) (a b : Nat) :
    (connectDirect s0 a b).selectedNodes = s0.selectedNodes ∧
    (connectDirect s0 a b).selectedLinks = s0.selectedLinks := by
  refine ⟨?_, ?_⟩ <;>
    (show _ = _
     unfold connectDirect _addLink uniqueId
     simp only
     rw [modifyPinLinks_only_heap]
     rw [modifyPinLinks_only_heap])

theorem connectDirect_pinIdAt (s0 : GraphState) (a b : Nat) (r : Nat) :
    pinIdAt (connectDirect s0 a b) r = pinIdAt s0 r := by
  have hh : (connectDirect s0 a b).pinHeap =
      (modifyPinLinks (modifyPinLinks
        { s0 with links := (setA s0.links ⟨"link", s0.counter⟩
            ⟨⟨"link", s0.counter⟩, a, b⟩), counter := s0.counter + 1 }
        a (fun ls => ls ++ [⟨"link", s0.counter⟩])) b
        (fun ls => ls ++ [⟨"link", s0.counter⟩])).pinHeap := rfl
  refine Eq.trans (pinIdAt_heapEq _ _ r hh) ?_
  rw [pinIdAt_modifyPinLinks, pinIdAt_modifyPinLinks]
  exact pinIdAt_heapEq _ s0 r rfl

theorem connectDirect_heapGet_other (s0 : GraphState) (a b r : Nat)
    (hra : r ≠ a) (hrb : r ≠ b) :
    heapGet (connectDirect s0 a b) r = heapGet s0 r := by
  have hh : (connectDirect s0 a b).pinHeap =
      (modifyPinLinks (modifyPinLinks
        { s0 with links := (setA s0.links ⟨"link", s0.counter⟩
            ⟨⟨"link", s0.counter⟩, a, b⟩), counter := s0.counter + 1 }
        a (fun ls => ls ++ [⟨"link", s0.counter⟩])) b
        (fun ls => ls ++ [⟨"link", s0.counter⟩])).pinHeap := rfl
  show lookupA (connectDirect s0 a b).pinHeap r = heapGet s0 r
  rw [hh]
  show heapGet (modifyPinLinks (modifyPinLinks _ a _) b _) r = _
  rw [heapGet_modifyPinLinks_other _ b r _ hrb,
    heapGet_modifyPinLinks_other _ a r _ hra]
  rfl

theorem createConnection_direct (cat : Catalog) (u : GraphState)
    (ra rb : Nat) (qa qb : Pin)
    (hga : heapGet u ra = some qa) (hgb : heapGet u rb = some qb)
    (hda : qa.dir = PinDir.output) (hdb : qb.dir = PinDir.input)
    (hcapb : getMaxLinksIsOne qb = true → qb.links = [])
    (hty : qa.ty = qb.ty ∨ cat.conv qa.ty qb.ty = none) :
    createConnection cat u (some ra) (some rb) = connectDirect u ra rb := by
  have hnorepl : ¬((getMaxLinksIsOne qb && isConnected qb) = true) := by
    intro h
    rw [Bool.and_eq_true] at h
    have hl := hcapb h.1
    have h2 := h.2
    unfold isConnected at h2
    rw [hl] at h2
    simp at h2
  unfold createConnection
  simp only [hga, hgb, hda, hdb, pinDir_if_oo, pinDir_if_oi,
    pinDir_if_io, pinDir_if_ii, eq_self_iff_true, if_true]
  rw [if_neg hnorepl]
  rcases hty with hty | hty
  · rw [if_neg (fun h => h.2 hty)]
  · by_cases hexec : qa.ty = "exec" ∨ qb.ty = "exec"
    · rw [if_neg (fun h => h.1 hexec)]
    · by_cases htm : qa.ty = qb.ty
      · rw [if_neg (fun h => h.2 htm)]
      · rw [if_pos ⟨hexec, htm⟩, hty]

theorem heapGet_heapEq (t u : GraphState) (r : Nat)
    (h : t.pinHeap = u.pinHeap) : heapGet t r = heapGet u r := by
  unfold heapGet
  rw [h]

theorem pinMatchesSpec_mkPin (nid : UId) (sp : PinSpec) :
    pinMatchesSpec nid (mkPin nid sp) sp = true := by
  unfold pinMatchesSpec
  rw [decide_eq_true_eq]
  rfl

theorem pinsMatchSpecs_range (t2 : GraphState) (newId : UId) :
    ∀ (specs : List PinSpec) (base : Nat),
      (∀ i (hi : i < specs.length),
        heapGet t2 (base + i) = some (mkPin newId (specs.get ⟨i, hi⟩))) →
      pinsMatchSpecs t2 newId
        ((List.range specs.length).map (fun i => base + i)) specs = true := by
  intro specs
  induction specs with
  | nil =>
    intro base h
    rfl
  | cons sp rest ih =>
    intro base h
    have hsplit : (List.range (sp :: rest).length).map (fun i => base + i) =
        (base + 0) :: (List.range rest.length).map (fun i => (base + 1) + i) := by
      rw [List.length_cons, List.range_succ_eq_map, List.map_cons,
        List.map_map]
      congr 1
      apply List.map_congr_left
      intro i _
      show base + (i + 1) = (base + 1) + i
      omega
    rw [hsplit]
    simp only [pinsMatchSpecs, Bool.and_eq_true]
    constructor
    · have h0 : heapGet t2 (base + 0) = some (mkPin newId sp) :=
        h 0 (Nat.succ_pos _)
      rw [h0]
      exact pinMatchesSpec_mkPin newId sp
    · exact ih (base + 1) (fun i hi => by
        have h2 := h (i + 1) (Nat.succ_lt_succ hi)
        have h3 : base + (i + 1) = (base + 1) + i := by omega
        rw [h3] at h2
        exact h2)

theorem DupCert_mono {s t t2 : GraphState}
    {m m2 : List (FullPinId × FullPinId)} {pr : UId × UId}
    (h : DupCert s t m pr)
    (hlook : ∀ a v, lookupA t.nodes a = some v → lookupA t2.nodes a = some v)
    (hheap : ∀ r q, heapGet t r = some q → heapGet t2 r = some q)
    (hm : ∀ pid v, lookupA m pid = some v → lookupA m2 pid = some v) :
    DupCert s t2 m2 pr := by
  obtain ⟨n, n2, hn, hn2, hlive, hpins⟩ := h
  have hpid : ∀ r2 ∈ n2.pins, pinIdAt t2 r2 = pinIdAt t r2 := by
    intro r2 hr2
    obtain ⟨q, hq⟩ := hlive r2 hr2
    unfold pinIdAt
    rw [hq, hheap r2 q hq]
  refine ⟨n, n2, hn, hlook _ _ hn2, ?_, ?_⟩
  · intro r2 hr2
    obtain ⟨q, hq⟩ := hlive r2 hr2
    exact ⟨q, hheap r2 q hq⟩
  · intro r p hr hp
    obtain ⟨hmfact, r2, p2, hfind, hget, hid, hdir, hty, hlinks⟩ :=
      hpins r p hr hp
    refine ⟨hm _ _ hmfact, r2, p2, ?_, hheap r2 p2 hget, hid, hdir, hty,
      hlinks⟩
    rw [nodeFindPinById_congr t t2 n2 _ hpid]
    exact hfind

theorem dupPairs_keys (nid newId : UId) (sps : List PinSpec) :
    (sps.map (fun sp =>
      ((⟨nid, sp.id⟩ : FullPinId), (⟨newId, sp.id⟩ : FullPinId)))).map
        Prod.fst = sps.map (fun sp => (⟨nid, sp.id⟩ : FullPinId)) := by
  rw [List.map_map]
  rfl

theorem dupPairs_keys_nodup (nid newId : UId) (sps : List PinSpec)
    (hnd : (sps.map PinSpec.id).Nodup) :
    ((sps.map (fun sp =>
      ((⟨nid, sp.id⟩ : FullPinId), (⟨newId, sp.id⟩ : FullPinId)))).map
        Prod.fst).Nodup := by
  rw [dupPairs_keys]
  have h2 : sps.map (fun sp => (⟨nid, sp.id⟩ : FullPinId)) =
      (sps.map PinSpec.id).map (fun loc => (⟨nid, loc⟩ : FullPinId)) := by
    rw [List.map_map]
    rfl
  rw [h2]
  refine List.Nodup.map ?_ hnd
  intro a b hab
  injection hab

theorem lookupA_dupPairs (nid newId : UId) (sps : List PinSpec)
    (hnd : (sps.map PinSpec.id).Nodup) (sp : PinSpec) (hsp : sp ∈ sps) :
    lookupA (sps.map (fun sp2 =>
      ((⟨nid, sp2.id⟩ : FullPinId), (⟨newId, sp2.id⟩ : FullPinId))))
      ⟨nid, sp.id⟩ = some ⟨newId, sp.id⟩ := by
  refine lookupA_of_mem_nodup ?_ (dupPairs_keys_nodup nid newId sps hnd)
  exact List.mem_map.mpr ⟨sp, hsp, rfl⟩

theorem lookupA_singleton {α β : Type} [DecidableEq α] (a : α) (b : β) :
    lookupA [(a, b)] a = some b := by
  simp [lookupA]

theorem dupCopyStep_spec (cat : Catalog) (s : GraphState)
    (nid : UId) (n : Node) (tmpl : NodeTemplate)
    (hn : lookupA s.nodes nid = some n)
    (ht : cat.get n.nodeKey = some tmpl)
    (hsing : tmpl.isSingleton = false)
    (hmatch : pinsMatchSpecs s nid n.pins tmpl.pins = true)
    (hnd : (tmpl.pins.map PinSpec.id).Nodup)
    (t : GraphState) (m : List (FullPinId × FullPinId)) (ns : List UId)
    (hlookt : lookupA t.nodes nid = some n)
    (hbnd : ∀ kn ∈ t.nodes, kn.1.num < t.counter)
    (hheapb : ∀ rp ∈ t.pinHeap, rp.1 < t.nextRef)
    (hpres : ∀ r p, heapGet s r = some p → heapGet t r = some p)
    (hmfree : ∀ pid : FullPinId, pid.node = nid → lookupA m pid = none) :
    ∃ t2 n2,
      dupCopyStep cat (some (t, m, ns)) nid =
        some (t2, m ++ tmpl.pins.map (fun sp =>
          ((⟨nid, sp.id⟩ : FullPinId),
           (⟨⟨"node", t.counter⟩, sp.id⟩ : FullPinId))),
          ns ++ [⟨"node", t.counter⟩]) ∧
      t2.nodes = t.nodes ++ [(⟨"node", t.counter⟩, n2)] ∧
      t2.links = t.links ∧
      t2.selectedNodes = t.selectedNodes ∧
      t2.selectedLinks = t.selectedLinks ∧
      t2.counter = t.counter + 1 ∧
      (∀ r p, heapGet t r = some p → heapGet t2 r = some p) ∧
      (∀ rp ∈ t2.pinHeap, rp.1 < t2.nextRef) ∧
      DupCert s t2 (m ++ tmpl.pins.map (fun sp =>
          ((⟨nid, sp.id⟩ : FullPinId),
           (⟨⟨"node", t.counter⟩, sp.id⟩ : FullPinId))))
        (nid, ⟨"node", t.counter⟩) := by
  set newId := (⟨"node", t.counter⟩ : UId) with hnewId
  set T0 := { t with counter := t.counter + 1 } with hT0
  set MK := mkNode T0 newId tmpl.title tmpl.pins (n.x + 20) (n.y + 20)
    n.nodeKey with hMK
  have hmkf := mkNode_fields T0 newId tmpl.title tmpl.pins (n.x + 20)
    (n.y + 20) n.nodeKey
  rw [← hMK] at hmkf
  have honly := mkNode_only_heap T0 newId tmpl.title tmpl.pins (n.x + 20)
    (n.y + 20) n.nodeKey
  rw [← hMK] at honly
  have haddeq : addNode cat t n.nodeKey (n.x + 20) (n.y + 20) =
      (some MK.1,
       { MK.2 with nodes := setA MK.2.nodes newId MK.1, dirtyCount := MK.2.dirtyCount + 1 }) :=
    addNode_success_eq cat t n.nodeKey (n.x + 20) (n.y + 20) tmpl ht hsing
  set T2 := (addNode cat t n.nodeKey (n.x + 20) (n.y + 20)).2 with hT2def
  have hT2rec : T2 =
      { MK.2 with nodes := setA MK.2.nodes newId MK.1, dirtyCount := MK.2.dirtyCount + 1 } := by
    rw [hT2def, haddeq]
  have hT2h : T2.pinHeap = MK.2.pinHeap := by rw [hT2rec]
  have hT2heap : T2.pinHeap = t.pinHeap ++ pinsChunk newId t.nextRef
      tmpl.pins := by
    rw [hT2rec]
    exact hmkf.2.2.2.2.2.2.2.1
  have hT2next : T2.nextRef = t.nextRef + tmpl.pins.length := by
    rw [hT2rec]
    exact hmkf.2.2.2.2.2.2.2.2
  have hT2pres : ∀ r p, heapGet t r = some p → heapGet T2 r = some p := by
    intro r p h
    show lookupA T2.pinHeap r = _
    rw [hT2heap]
    exact lookupA_append_left h
  have hOldT2 : pinsMatchSpecs T2 nid n.pins tmpl.pins = true :=
    pinsMatchSpecs_transfer hmatch
      (fun r p h => hT2pres r p (hpres r p h))
  have hNewheap : ∀ i (hi : i < tmpl.pins.length),
      heapGet T2 (T0.nextRef + i) =
        some (mkPin newId (tmpl.pins.get ⟨i, hi⟩)) := by
    intro i hi
    have hg := heapGet_mkNode_new T0 newId tmpl.title tmpl.pins
      (n.x + 20) (n.y + 20) n.nodeKey i hi
      (fun rp hrp => hheapb rp hrp)
    rw [← hMK] at hg
    rw [heapGet_heapEq T2 MK.2 _ hT2h]
    exact hg
  have hNewT2 : pinsMatchSpecs T2 newId MK.1.pins tmpl.pins = true := by
    rw [hmkf.2.2.2.2.2.1]
    exact pinsMatchSpecs_range T2 newId tmpl.pins T0.nextRef hNewheap
  have hpairs : (n.pins.zip MK.1.pins).filterMap (fun rr =>
      match heapGet T2 rr.1, heapGet T2 rr.2 with
      | some po, some pn => some (po.id, pn.id)
      | _, _ => none) =
      tmpl.pins.map (fun sp =>
        ((⟨nid, sp.id⟩ : FullPinId), (⟨newId, sp.id⟩ : FullPinId))) :=
    dupPairs_spec T2 nid newId tmpl.pins n.pins MK.1.pins hOldT2 hNewT2
  have hstep : dupCopyStep cat (some (t, m, ns)) nid =
      some (T2, m ++ tmpl.pins.map (fun sp =>
        ((⟨nid, sp.id⟩ : FullPinId), (⟨newId, sp.id⟩ : FullPinId))),
        ns ++ [newId]) := by
    have hp2 := hpairs
    rw [hT2rec] at hp2
    rw [dupCopyStep_eq_some, hlookt]
    simp only []
    rw [haddeq]
    simp only []
    rw [hT2rec, hp2, hmkf.1]
  have hfreshKey : newId ∉ t.nodes.map Prod.fst := by
    intro hmem
    obtain ⟨kn, hkn, hfst⟩ := List.mem_map.mp hmem
    have := hbnd kn hkn
    rw [hfst] at this
    exact absurd this (by simp)
  have hMKnodes : MK.2.nodes = t.nodes := by rw [honly]
  have hT2nodes : T2.nodes = t.nodes ++ [(newId, MK.1)] := by
    rw [hT2rec]
    show setA MK.2.nodes newId MK.1 = _
    rw [hMKnodes]
    exact setA_fresh _ hfreshKey
  refine ⟨T2, MK.1, hstep, hT2nodes, ?_, ?_, ?_, ?_, hT2pres, ?_, ?_⟩
  · rw [hT2rec]
    show MK.2.links = t.links
    rw [honly]
  · rw [hT2rec]
    show MK.2.selectedNodes = t.selectedNodes
    rw [honly]
  · rw [hT2rec]
    show MK.2.selectedLinks = t.selectedLinks
    rw [honly]
  · rw [hT2rec]
    show MK.2.counter = t.counter + 1
    rw [honly]
  · intro rp hrp
    rw [hT2heap] at hrp
    rw [hT2next]
    rcases List.mem_append.mp hrp with h1 | h1
    · have := hheapb rp h1
      omega
    · exact pinsChunk_keys_lt newId tmpl.pins t.nextRef rp h1
  · refine ⟨n, MK.1, hn, ?_, ?_, ?_⟩
    · rw [hT2nodes]
      rw [lookupA_append_right hfreshKey]
      exact lookupA_singleton newId MK.1
    · intro r2 hr2
      rw [hmkf.2.2.2.2.2.1] at hr2
      obtain ⟨i, hi, rfl⟩ := List.mem_map.mp hr2
      have hilen : i < tmpl.pins.length := List.mem_range.mp hi
      exact ⟨mkPin newId (tmpl.pins.get ⟨i, hilen⟩), hNewheap i hilen⟩
    · intro r p hr hp
      obtain ⟨q, sp, hsp, hgq, hmq⟩ := pinsMatchSpecs_mem2 hmatch r hr
      rw [hp] at hgq
      injection hgq with hqp
      subst hqp
      have hpid : p.id = ⟨nid, sp.id⟩ := (pinMatchesSpec_fields hmq).1
      have hloc : p.id.loc = sp.id := by rw [hpid]
      have hnodeq : p.id.node = nid := by rw [hpid]
      obtain ⟨r2, hfindMK, hgMK⟩ := mkNode_findPin_some T0 newId
        tmpl.title tmpl.pins (n.x + 20) (n.y + 20) n.nodeKey sp
        (fun rp hrp => hheapb rp hrp) hnd hsp
      rw [← hMK] at hfindMK hgMK
      constructor
      · have hnone : lookupA m p.id = none := hmfree p.id hnodeq
        rw [lookupA_append_right (lookupA_eq_none.mp hnone)]
        rw [show (⟨newId, p.id.loc⟩ : FullPinId) = ⟨newId, sp.id⟩ from
          by rw [hloc]]
        rw [show p.id = (⟨nid, sp.id⟩ : FullPinId) from hpid]
        exact lookupA_dupPairs nid newId tmpl.pins hnd sp hsp
      · refine ⟨r2, mkPin newId sp, ?_, ?_, ?_, ?_, ?_, rfl⟩
        · rw [show (⟨newId, p.id.loc⟩ : FullPinId) = ⟨newId, sp.id⟩ from
            by rw [hloc]]
          rw [nodeFindPinById_heapEq T2 MK.2 MK.1 ⟨newId, sp.id⟩ hT2h]
          exact hfindMK
        · rw [heapGet_heapEq T2 MK.2 r2 hT2h]
          exact hgMK
        · rw [show (⟨newId, p.id.loc⟩ : FullPinId) = ⟨newId, sp.id⟩ from
            by rw [hloc]]
          rfl
        · rw [(pinMatchesSpec_fields hmq).2.2.2.1]
          rfl
        · rw [(pinMatchesSpec_fields hmq).2.2.1]
          rfl

theorem dupFold_spec (cat : Catalog) (s : GraphState)
    (hwf : WF cat s = true) (hsf : selectionSingletonFree cat s = true) :
    ∀ (sel : List UId) (t : GraphState)
      (m : List (FullPinId × FullPinId)) (ns : List UId),
      (∀ nid ∈ sel, nid ∈ s.selectedNodes) →
      sel.Nodup →
      (∀ a v, lookupA s.nodes a = some v → lookupA t.nodes a = some v) →
      (∀ r p, heapGet s r = some p → heapGet t r = some p) →
      (∀ kn ∈ t.nodes, kn.1.num < t.counter) →
      (∀ rp ∈ t.pinHeap, rp.1 < t.nextRef) →
      (∀ pid : FullPinId, lookupA m pid ≠ none → pid.node ∉ sel) →
      ∃ t2 m2 ns2,
        sel.foldl (dupCopyStep cat) (some (t, m, ns)) =
          some (t2, m2, ns ++ ns2) ∧
        ns2.length = sel.length ∧
        ns2.Nodup ∧
        (∀ nid ∈ ns2, t.counter ≤ nid.num ∧ nid.num < t2.counter) ∧
        t2.nodes.map Prod.fst = t.nodes.map Prod.fst ++ ns2 ∧
        t2.links = t.links ∧
        t2.selectedNodes = t.selectedNodes ∧
        t2.selectedLinks = t.selectedLinks ∧
        t.counter ≤ t2.counter ∧
        (∀ a v, lookupA t.nodes a = some v → lookupA t2.nodes a = some v) ∧
        (∀ r p, heapGet t r = some p → heapGet t2 r = some p) ∧
        (∀ kn ∈ t2.nodes, kn.1.num < t2.counter) ∧
        (∀ rp ∈ t2.pinHeap, rp.1 < t2.nextRef) ∧
        (∀ pid v, lookupA m pid = some v → lookupA m2 pid = some v) ∧
        (∀ pr ∈ sel.zip ns2, DupCert s t2 m2 pr) := by
  intro sel
  induction sel with
  | nil =>
    intro t m ns _ _ _ _ hbnd hheapb _
    refine ⟨t, m, [], by rw [List.foldl_nil, List.append_nil], rfl,
      List.nodup_nil, ?_, by rw [List.append_nil], rfl, rfl, rfl,
      le_refl _, fun _ _ h => h, fun _ _ h => h, hbnd, hheapb,
      fun _ _ h => h, ?_⟩
    · intro nid h
      exact absurd h (List.not_mem_nil nid)
    · intro pr h
      exact absurd h (List.not_mem_nil pr)
  | cons nid sel ih =>
    intro t m ns hmem hnodup hnlook hpres hbnd hheapb hmOK
    have hmemS : nid ∈ s.selectedNodes := hmem nid (List.mem_cons_self nid sel)
    have hlive : nid ∈ s.nodes.map Prod.fst := wf_selLive hwf nid hmemS
    obtain ⟨n, hn⟩ := Option.isSome_iff_exists.mp
      (lookupA_isSome_iff.mpr hlive)
    have hidn : n.id = nid := (wf_nodesKeyed hwf _ (mem_of_lookupA hn)).symm
    have hnwf := wf_nodeWF hwf _ (mem_of_lookupA hn)
    unfold nodeWF at hnwf
    cases hcg : cat.get n.nodeKey with
    | none =>
      rw [hcg] at hnwf
      exact absurd hnwf (by simp)
    | some tmpl =>
    rw [hcg] at hnwf
    simp only [Bool.and_eq_true, decide_eq_true_eq] at hnwf
    have hmatch : pinsMatchSpecs s nid n.pins tmpl.pins = true := by
      have h2 := hnwf.1
      rwa [hidn] at h2
    have hnd := hnwf.2
    have hsing : tmpl.isSingleton = false :=
      singletonFree_unpack hsf nid hmemS n hn tmpl hcg
    have hmfree : ∀ pid : FullPinId, pid.node = nid →
        lookupA m pid = none := by
      intro pid hnode
      cases hl : lookupA m pid with
      | none => rfl
      | some v =>
        exfalso
        refine hmOK pid (by rw [hl]; exact fun h => Option.noConfusion h) ?_
        rw [hnode]
        exact List.mem_cons_self nid sel
    obtain ⟨T2, n2, hstep, hT2nodes, hT2links, hT2sel, hT2selL, hT2cnt,
        hT2pres, hT2heapb, hT2cert⟩ :=
      dupCopyStep_spec cat s nid n tmpl hn hcg hsing hmatch hnd t m ns
        (hnlook nid n hn) hbnd hheapb hpres hmfree
    have hT2look : ∀ a v, lookupA t.nodes a = some v →
        lookupA T2.nodes a = some v := by
      intro a v h
      rw [hT2nodes]
      exact lookupA_append_left h
    have hT2bnd : ∀ kn ∈ T2.nodes, kn.1.num < T2.counter := by
      intro kn hkn
      rw [hT2nodes] at hkn
      rw [hT2cnt]
      rcases List.mem_append.mp hkn with h1 | h1
      · have := hbnd kn h1
        omega
      · rw [List.mem_singleton] at h1
        rw [h1]
        simp
    have hmOK2 : ∀ pid : FullPinId,
        lookupA (m ++ tmpl.pins.map (fun sp =>
          ((⟨nid, sp.id⟩ : FullPinId),
           (⟨⟨"node", t.counter⟩, sp.id⟩ : FullPinId)))) pid ≠ none →
        pid.node ∉ sel := by
      intro pid hne
      by_cases hm0 : lookupA m pid = none
      · rw [lookupA_append_right (lookupA_eq_none.mp hm0)] at hne
        have hkmem : pid ∈ (tmpl.pins.map (fun sp =>
            ((⟨nid, sp.id⟩ : FullPinId),
             (⟨⟨"node", t.counter⟩, sp.id⟩ : FullPinId)))).map Prod.fst := by
          by_contra hc
          exact hne (lookupA_eq_none.mpr hc)
        rw [dupPairs_keys] at hkmem
        obtain ⟨sp, _, hsp⟩ := List.mem_map.mp hkmem
        have hnode : pid.node = nid := by rw [← hsp]
        rw [hnode]
        exact (List.nodup_cons.mp hnodup).1
      · have := hmOK pid hm0
        intro hc
        exact this (List.mem_cons_of_mem nid hc)
    obtain ⟨t2, m2, ns2, hfold, hlen, hnd2, hrange, hmap, hlinks2, hsel2,
        hselL2, hcnt2, hlook2, hpres2, hbnd2, hheapb2, hmmono2, hcerts2⟩ :=
      ih T2 (m ++ tmpl.pins.map (fun sp =>
          ((⟨nid, sp.id⟩ : FullPinId),
           (⟨⟨"node", t.counter⟩, sp.id⟩ : FullPinId))))
        (ns ++ [⟨"node", t.counter⟩])
        (fun a ha => hmem a (List.mem_cons_of_mem nid ha))
        (List.nodup_cons.mp hnodup).2
        (fun a v h => hT2look a v (hnlook a v h))
        (fun r p h => hT2pres r p (hpres r p h))
        hT2bnd hT2heapb hmOK2
    refine ⟨t2, m2, ⟨"node", t.counter⟩ :: ns2, ?_, ?_, ?_, ?_, ?_, ?_,
      ?_, ?_, ?_, ?_, ?_, hbnd2, hheapb2, ?_, ?_⟩
    · rw [List.foldl_cons, hstep, hfold, List.append_assoc,
        List.singleton_append]
    · rw [List.length_cons, hlen, List.length_cons]
    · rw [List.nodup_cons]
      refine ⟨?_, hnd2⟩
      intro hc
      have h2 := (hrange _ hc).1
      rw [hT2cnt] at h2
      simp only [UId.num] at h2
      omega
    · intro a ha
      rcases List.mem_cons.mp ha with h1 | h1
      · subst h1
        refine ⟨le_refl _, ?_⟩
        have : T2.counter ≤ t2.counter := hcnt2
        simp only [UId.num]
        omega
      · have h2 := hrange a h1
        have h3 : t.counter ≤ T2.counter := by omega
        exact ⟨h3.trans h2.1, h2.2⟩
    · rw [hmap, hT2nodes, List.map_append, List.append_assoc]
      rfl
    · rw [hlinks2, hT2links]
    · rw [hsel2, hT2sel]
    · rw [hselL2, hT2selL]
    · have : T2.counter = t.counter + 1 := hT2cnt
      omega
    · exact fun a v h => hlook2 a v (hT2look a v h)
    · exact fun r p h => hpres2 r p (hT2pres r p h)
    · exact fun pid v h => hmmono2 pid v (lookupA_append_left h)
    · intro pr hpr
      rw [List.zip_cons_cons] at hpr
      rcases List.mem_cons.mp hpr with h1 | h1
      · subst h1
        exact DupCert_mono hT2cert hlook2 hpres2 hmmono2
      · exact hcerts2 pr h1

theorem findPinById_congr (s1 u : GraphState)
    (hnodes : u.nodes = s1.nodes)
    (hpin : ∀ r, pinIdAt u r = pinIdAt s1 r) (pid : Option FullPinId) :
    findPinById u pid = findPinById s1 pid := by
  cases pid with
  | none => rfl
  | some pid =>
    unfold findPinById
    simp only []
    rw [hnodes]
    cases lookupA s1.nodes pid.node with
    | none => rfl
    | some n =>
      exact nodeFindPinById_congr s1 u n pid (fun r _ => hpin r)

theorem dupLinkStep_eq (cat : Catalog)
    (m : List (FullPinId × FullPinId)) (u : GraphState) (l : Link) :
    dupLinkStep cat m u l =
      (if isInternal u l = true then
        match findPinById u ((pinIdAt u l.startPin).bind (lookupA m)),
              findPinById u ((pinIdAt u l.endPin).bind (lookupA m)) with
        | some a, some b => createConnection cat u (some a) (some b)
        | _, _ => u
       else u) := rfl

theorem getMaxLinksIsOne_congr {p q : Pin} (hdir : p.dir = q.dir)
    (hty : p.ty = q.ty) : getMaxLinksIsOne p = getMaxLinksIsOne q := by
  unfold getMaxLinksIsOne
  rw [hdir, hty]

theorem linkTypes_unpack {cat : Catalog} {s : GraphState}
    (hlt : linkTypesWF cat s = true) :
    ∀ kl ∈ s.links, ∀ pa pb, heapGet s kl.2.startPin = some pa →
      heapGet s kl.2.endPin = some pb →
      pa.ty = pb.ty ∨ cat.conv pa.ty pb.ty = none := by
  unfold linkTypesWF at hlt
  rw [List.all_eq_true] at hlt
  intro kl hkl pa pb hpa hpb
  have h2 := hlt kl hkl
  rw [hpa, hpb] at h2
  simp only [] at h2
  rw [Bool.or_eq_true, decide_eq_true_eq, decide_eq_true_eq] at h2
  exact h2

theorem isInternal_unpack {s1 : GraphState} {l : Link}
    (h : isInternal s1 l = true) {ps pe : Pin}
    (hp1 : heapGet s1 l.startPin = some ps)
    (hp2 : heapGet s1 l.endPin = some pe) :
    ps.id.node ∈ s1.selectedNodes ∧ pe.id.node ∈ s1.selectedNodes := by
  unfold isInternal at h
  rw [Bool.and_eq_true] at h
  obtain ⟨h1, h2⟩ := h
  have hn1 : pinNodeId s1 l.startPin = some ps.id.node := by
    unfold pinNodeId
    rw [hp1]
    rfl
  have hn2 : pinNodeId s1 l.endPin = some pe.id.node := by
    unfold pinNodeId
    rw [hp2]
    rfl
  rw [hn1] at h1
  rw [hn2] at h2
  simp only [] at h1 h2
  rw [decide_eq_true_eq] at h1 h2
  exact ⟨h1, h2⟩

theorem dupLinkFold_spec (cat : Catalog) (s s1 : GraphState)
    (m : List (FullPinId × FullPinId)) (nodeMap : List (UId × UId))
    (hwf : WF cat s = true) (hlt : linkTypesWF cat s = true)
    (hcap : maxLinksWF s = true)
    (hs1sel : s1.selectedNodes = s.selectedNodes)
    (hs1heap : ∀ r p, heapGet s r = some p → heapGet s1 r = some p)
    (hres : ∀ x p, x ∈ liveRefs s → heapGet s x = some p →
      p.id.node ∈ s.selectedNodes →
      ∃ newN r2 p2, lookupA nodeMap p.id.node = some newN ∧
        findPinById s1 (some ⟨newN, p.id.loc⟩) = some r2 ∧
        lookupA m p.id = some ⟨newN, p.id.loc⟩ ∧
        heapGet s1 r2 = some p2 ∧ p2.id = ⟨newN, p.id.loc⟩ ∧
        p2.dir = p.dir ∧ p2.ty = p.ty)
    (hinj : ∀ a1 a2 b, lookupA nodeMap a1 = some b →
      lookupA nodeMap a2 = some b → a1 = a2) :
    ∀ (L : List Link) (u : GraphState),
      (∀ l ∈ L, ∃ k, (k, l) ∈ s.links) →
      ((L.map Link.id).Nodup) →
      (u.nodes = s1.nodes) →
      (u.selectedNodes = s1.selectedNodes) →
      (∀ r, pinIdAt u r = pinIdAt s1 r) →
      (∀ kl ∈ u.links, kl.1.num < u.counter) →
      (∀ l ∈ L, isInternal s1 l = true →
        ∀ pe, heapGet s l.endPin = some pe → getMaxLinksIsOne pe = true →
        ∀ newN r2e q, lookupA nodeMap pe.id.node = some newN →
          findPinById s1 (some ⟨newN, pe.id.loc⟩) = some r2e →
          heapGet u r2e = some q → q.links = []) →
      (∀ r q, heapGet s1 r = some q → ∃ q2, heapGet u r = some q2 ∧
        q2.id = q.id ∧ q2.dir = q.dir ∧ q2.ty = q.ty) →
      (let F := L.foldl (dupLinkStep cat m) u
       F.nodes = u.nodes ∧
       F.selectedNodes = u.selectedNodes ∧
       F.selectedLinks = u.selectedLinks ∧
       (∀ r, pinIdAt F r = pinIdAt u r) ∧
       u.counter ≤ F.counter ∧
       (∀ kl ∈ F.links, kl.1.num < F.counter) ∧
       ∃ NL, F.links = u.links ++ NL ∧
         NL.map (fun kl =>
           (pinIdAt F kl.2.startPin, pinIdAt F kl.2.endPin)) =
           (L.filter (isInternal s1)).map (fun l =>
             ((pinIdAt s l.startPin).bind (lookupA m),
              (pinIdAt s l.endPin).bind (lookupA m)))) := by
  have hresolve : ∀ k2 l2, (k2, l2) ∈ s.links → isInternal s1 l2 = true →
      ∃ ps2 pe2 newS2 newE2 rs2 re2 p2s2 p2e2,
        heapGet s l2.startPin = some ps2 ∧ heapGet s l2.endPin = some pe2 ∧
        ps2.dir = PinDir.output ∧ pe2.dir = PinDir.input ∧
        l2.startPin ∈ liveRefs s ∧ l2.endPin ∈ liveRefs s ∧
        (ps2.ty = pe2.ty ∨ cat.conv ps2.ty pe2.ty = none) ∧
        lookupA nodeMap ps2.id.node = some newS2 ∧
        lookupA m ps2.id = some ⟨newS2, ps2.id.loc⟩ ∧
        findPinById s1 (some ⟨newS2, ps2.id.loc⟩) = some rs2 ∧
        heapGet s1 rs2 = some p2s2 ∧ p2s2.id = ⟨newS2, ps2.id.loc⟩ ∧
        p2s2.dir = ps2.dir ∧ p2s2.ty = ps2.ty ∧
        lookupA nodeMap pe2.id.node = some newE2 ∧
        lookupA m pe2.id = some ⟨newE2, pe2.id.loc⟩ ∧
        findPinById s1 (some ⟨newE2, pe2.id.loc⟩) = some re2 ∧
        heapGet s1 re2 = some p2e2 ∧ p2e2.id = ⟨newE2, pe2.id.loc⟩ ∧
        p2e2.dir = pe2.dir ∧ p2e2.ty = pe2.ty := by
    intro k2 l2 hkl2 hint2
    obtain ⟨-, ⟨hliveS, ps2, hps2, hdirS, -⟩, ⟨hliveE, pe2, hpe2, hdirE, -⟩⟩ :=
      linkWF_unpack (wf_linkWF hwf (k2, l2) hkl2)
    obtain ⟨hselS, hselE⟩ := isInternal_unpack hint2
      (hs1heap _ _ hps2) (hs1heap _ _ hpe2)
    rw [hs1sel] at hselS hselE
    obtain ⟨newS2, rs2, p2s2, hmapS, hfindS, hmS, hgS, hidS, hdS, htS⟩ :=
      hres l2.startPin ps2 hliveS hps2 hselS
    obtain ⟨newE2, re2, p2e2, hmapE, hfindE, hmE, hgE, hidE, hdE, htE⟩ :=
      hres l2.endPin pe2 hliveE hpe2 hselE
    have hty0 := linkTypes_unpack hlt (k2, l2) hkl2 ps2 pe2 hps2 hpe2
    exact ⟨ps2, pe2, newS2, newE2, rs2, re2, p2s2, p2e2, hps2, hpe2,
      hdirS, hdirE, hliveS, hliveE, hty0, hmapS, hmS, hfindS, hgS, hidS,
      hdS, htS, hmapE, hmE, hfindE, hgE, hidE, hdE, htE⟩
  intro L
  induction L with
  | nil =>
    intro u _ _ _ _ _ hubnd _ _
    exact ⟨rfl, rfl, rfl, fun _ => rfl, le_refl _, hubnd, [],
      by simp, by simp⟩
  | cons l L ihL =>
    intro u hLmem hLnd hun husel hupin hubnd hcapinv hufs
    have hstepInt : isInternal u l = isInternal s1 l :=
      isInternal_congr s1 u l hupin husel
    rw [List.foldl_cons]
    cases hint : isInternal s1 l with
    | false =>
      have hstep : dupLinkStep cat m u l = u := by
        rw [dupLinkStep_eq, hstepInt, hint]
        rw [if_neg (by simp)]
      rw [hstep]
      obtain ⟨ihA, ihB, ihC, ihD, ihE, ihF, NL, hNLl, hNLm⟩ :=
        ihL u (fun l2 h => hLmem l2 (List.mem_cons_of_mem l h))
          ((List.nodup_cons.mp (by rwa [List.map_cons] at hLnd)).2)
          hun husel hupin hubnd
          (fun l2 h => hcapinv l2 (List.mem_cons_of_mem l h))
          hufs
      refine ⟨ihA, ihB, ihC, ihD, ihE, ihF, NL, hNLl, ?_⟩
      rw [hNLm, List.filter_cons_of_neg (by simp [hint])]
    | true =>
      obtain ⟨k, hkl⟩ := hLmem l (List.mem_cons_self l L)
      obtain ⟨ps, pe, newS, newE, rs2, re2, p2s, p2e, hps, hpe, hdirS,
        hdirE, hliveS, hliveE, hty0, hmapS, hmS, hfindS, hgS, hidS, hdS,
        htS, hmapE, hmE, hfindE, hgE, hidE, hdE, htE⟩ :=
        hresolve k l hkl hint
      have hpin1 : pinIdAt s1 l.startPin = some ps.id := by
        unfold pinIdAt
        rw [hs1heap _ _ hps]
        rfl
      have hpin2 : pinIdAt s1 l.endPin = some pe.id := by
        unfold pinIdAt
        rw [hs1heap _ _ hpe]
        rfl
      have hbind1 : (pinIdAt u l.startPin).bind (lookupA m) =
          some ⟨newS, ps.id.loc⟩ := by
        rw [hupin, hpin1, Option.some_bind]
        exact hmS
      have hbind2 : (pinIdAt u l.endPin).bind (lookupA m) =
          some ⟨newE, pe.id.loc⟩ := by
        rw [hupin, hpin2, Option.some_bind]
        exact hmE
      have hfind1u : findPinById u (some ⟨newS, ps.id.loc⟩) = some rs2 := by
        rw [findPinById_congr s1 u hun hupin]
        exact hfindS
      have hfind2u : findPinById u (some ⟨newE, pe.id.loc⟩) = some re2 := by
        rw [findPinById_congr s1 u hun hupin]
        exact hfindE
      obtain ⟨qs, hgqs, hqsid, hqsdir, hqsty⟩ := hufs rs2 p2s hgS
      obtain ⟨qe, hgqe, hqeid, hqedir, hqety⟩ := hufs re2 p2e hgE
      have hqsdir2 : qs.dir = PinDir.output := by
        rw [hqsdir, hdS, hdirS]
      have hqedir2 : qe.dir = PinDir.input := by
        rw [hqedir, hdE, hdirE]
      have hne : rs2 ≠ re2 := by
        intro he
        rw [he, hgqe] at hgqs
        injection hgqs with hq
        rw [hq] at hqedir2
        rw [hqedir2] at hqsdir2
        exact PinDir.noConfusion hqsdir2
      have hcapb : getMaxLinksIsOne qe = true → qe.links = [] := by
        intro hmx
        have hmxe : getMaxLinksIsOne pe = true := by
          rw [← getMaxLinksIsOne_congr
            (by rw [hqedir, hdE]) (by rw [hqety, htE])]
          exact hmx
        exact hcapinv l (List.mem_cons_self l L) hint pe hpe hmxe newE
          re2 qe hmapE hfindE hgqe
      have htyq : qs.ty = qe.ty ∨ cat.conv qs.ty qe.ty = none := by
        rw [hqsty, htS, hqety, htE]
        exact hty0
      have hstep : dupLinkStep cat m u l = connectDirect u rs2 re2 := by
        rw [dupLinkStep_eq, hstepInt, hint, if_pos rfl, hbind1, hbind2,
          hfind1u, hfind2u]
        exact createConnection_direct cat u rs2 re2 qs qe hgqs hgqe
          hqsdir2 hqedir2 hcapb htyq
      rw [hstep]
      obtain ⟨hlinksD, hgaD, hgbD, hnodesD⟩ := connectDirect_spec u rs2
        re2 qs qe hgqs hgqe hne hubnd
      have hcntD := connectDirect_counter u rs2 re2
      have hselD := connectDirect_sel u rs2 re2
      have hpinD := connectDirect_pinIdAt u rs2 re2
      have hubnd2 : ∀ kl ∈ (connectDirect u rs2 re2).links,
          kl.1.num < (connectDirect u rs2 re2).counter := by
        intro kl hklm
        rw [hlinksD] at hklm
        rw [hcntD]
        rcases List.mem_append.mp hklm with h1 | h1
        · have := hubnd kl h1
          omega
        · rw [List.mem_singleton] at h1
          rw [h1]
          simp
      have hcapinv2 : ∀ l2 ∈ L, isInternal s1 l2 = true →
          ∀ pe2, heapGet s l2.endPin = some pe2 →
          getMaxLinksIsOne pe2 = true →
          ∀ newN2 re22 q2, lookupA nodeMap pe2.id.node = some newN2 →
            findPinById s1 (some ⟨newN2, pe2.id.loc⟩) = some re22 →
            heapGet (connectDirect u rs2 re2) re22 = some q2 →
            q2.links = [] := by
        intro l2 hl2 hint2 pe2 hpe2 hmax2 newN2 re22 q2 hmap2 hfind2 hget2
        obtain ⟨k2, hkl2⟩ := hLmem l2 (List.mem_cons_of_mem l hl2)
        obtain ⟨ps2b, pe2b, newS2b, newE2b, rs2b, re2b, p2s2b, p2e2b,
          hps2b, hpe2b, -, hdirE2b, -, hliveE2b, -, -, -, -, -, -, -, -,
          hmapE2b, -, hfindE2b, hgE2b, hidE2b, hdE2b, -⟩ :=
          hresolve k2 l2 hkl2 hint2
        have hpe2eq : pe2 = pe2b := by
          have hcopy := hpe2
          rw [hpe2b] at hcopy
          injection hcopy with h
          exact h.symm
        subst hpe2eq
        have hnewNeq : newN2 = newE2b := by
          have hcopy := hmap2
          rw [hmapE2b] at hcopy
          injection hcopy with h
          exact h.symm
        subst hnewNeq
        have hreeq : re22 = re2b := by
          have hcopy := hfind2
          rw [hfindE2b] at hcopy
          injection hcopy with h
          exact h.symm
        subst hreeq
        by_cases hcs : re22 = rs2
        · exfalso
          rw [hcs, hgS] at hgE2b
          injection hgE2b with hq
          have h1 : p2e2b.dir = PinDir.input := by
            rw [hdE2b, hdirE2b]
          rw [← hq] at h1
          rw [hdS, hdirS] at h1
          exact PinDir.noConfusion h1
        · by_cases hce : re22 = re2
          · exfalso
            rw [hce, hgE] at hgE2b
            injection hgE2b with hq
            have hideq : p2e.id = (⟨newN2, pe2.id.loc⟩ : FullPinId) := by
              rw [hq]
              exact hidE2b
            have hcomp : (⟨newE, pe.id.loc⟩ : FullPinId) =
                ⟨newN2, pe2.id.loc⟩ := by
              rw [← hidE, hideq]
            injection hcomp with hn1 hn2
            have hnodeeq : pe.id.node = pe2.id.node :=
              hinj pe.id.node pe2.id.node newE hmapE
                (by rw [hn1]; exact hmap2)
            have hpideq : pe2.id = pe.id := by
              have e1 : pe2.id = (⟨pe2.id.node, pe2.id.loc⟩ : FullPinId) :=
                rfl
              have e2 : pe.id = (⟨pe.id.node, pe.id.loc⟩ : FullPinId) :=
                rfl
              rw [e1, e2, ← hnodeeq, ← hn2]
            have hrefeq : l2.endPin = l.endPin :=
              pinIds_inj hwf hliveE2b hliveE hpe2 hpe hpideq
            have hkeq : (k2, l2) = (k, l) :=
              link_end_unique hwf hcap hkl2 hkl hrefeq hpe2 hmax2
            have hl2eq : l2 = l := by
              injection hkeq with h1 h2
            rw [hl2eq] at hl2
            have hmem2 : l.id ∈ L.map Link.id :=
              List.mem_map.mpr ⟨l, hl2, rfl⟩
            exact (List.nodup_cons.mp
              (by rwa [List.map_cons] at hLnd)).1 hmem2
          · rw [connectDirect_heapGet_other u rs2 re2 re22 hcs hce]
              at hget2
            exact hcapinv l2 (List.mem_cons_of_mem l hl2) hint2 pe2 hpe2
              hmax2 newN2 re22 q2 hmap2 hfind2 hget2
      have hufs2 : ∀ r q, heapGet s1 r = some q →
          ∃ q2, heapGet (connectDirect u rs2 re2) r = some q2 ∧
            q2.id = q.id ∧ q2.dir = q.dir ∧ q2.ty = q.ty := by
        intro r q hq
        obtain ⟨q2, hq2, hqid, hqdir, hqty⟩ := hufs r q hq
        by_cases hr1 : r = rs2
        · subst hr1
          rw [hgqs] at hq2
          injection hq2 with hq2e
          subst hq2e
          exact ⟨{ qs with links := qs.links ++ [⟨"link", u.counter⟩] },
            hgaD, hqid, hqdir, hqty⟩
        · by_cases hr2 : r = re2
          · subst hr2
            rw [hgqe] at hq2
            injection hq2 with hq2e
            subst hq2e
            exact ⟨{ qe with links := qe.links ++ [⟨"link", u.counter⟩] },
              hgbD, hqid, hqdir, hqty⟩
          · rw [← connectDirect_heapGet_other u rs2 re2 r hr1 hr2] at hq2
            exact ⟨q2, hq2, hqid, hqdir, hqty⟩
      obtain ⟨ihA, ihB, ihC, ihD, ihE, ihF, NL, hNLl, hNLm⟩ :=
        ihL (connectDirect u rs2 re2)
          (fun l2 h => hLmem l2 (List.mem_cons_of_mem l h))
          ((List.nodup_cons.mp (by rwa [List.map_cons] at hLnd)).2)
          (by rw [hnodesD, hun]) (by rw [hselD.1, husel])
          (fun r => (hpinD r) ▸ (hupin r)) hubnd2 hcapinv2 hufs2
      refine ⟨?_, ?_, ?_, ?_, ?_, ihF,
        (⟨"link", u.counter⟩,
          (⟨⟨"link", u.counter⟩, rs2, re2⟩ : Link)) :: NL, ?_, ?_⟩
      · rw [ihA, hnodesD]
      · rw [ihB, hselD.1]
      · rw [ihC, hselD.2]
      · intro r
        rw [ihD r, hpinD r]
      · rw [hcntD] at ihE
        omega
      · rw [hNLl, hlinksD, List.append_assoc, List.singleton_append]
      · rw [List.map_cons, hNLm,
          List.filter_cons_of_pos (by rw [hint]), List.map_cons]
        congr 1
        have hfS : pinIdAt (L.foldl (dupLinkStep cat m)
            (connectDirect u rs2 re2)) rs2 = some ⟨newS, ps.id.loc⟩ := by
          rw [ihD rs2, hpinD rs2, hupin rs2]
          unfold pinIdAt
          rw [hgS, Option.map_some', hidS]
        have hfE : pinIdAt (L.foldl (dupLinkStep cat m)
            (connectDirect u rs2 re2)) re2 = some ⟨newE, pe.id.loc⟩ := by
          rw [ihD re2, hpinD re2, hupin re2]
          unfold pinIdAt
          rw [hgE, Option.map_some', hidE]
        show (pinIdAt _ rs2, pinIdAt _ re2) = _
        rw [hfS, hfE]
        have hsp1 : pinIdAt s l.startPin = some ps.id := by
          unfold pinIdAt
          rw [hps]
          rfl
        have hsp2 : pinIdAt s l.endPin = some pe.id := by
          unfold pinIdAt
          rw [hpe]
          rfl
        rw [hsp1, hsp2, Option.some_bind, Option.some_bind, hmS, hmE]

theorem mem_zip_of_mem_left {α β : Type} {l1 : List α} {l2 : List β}
    {a : α} (h : a ∈ l1) (hlen : l1.length = l2.length) :
    ∃ b, (a, b) ∈ l1.zip l2 := by
  obtain ⟨i, hget⟩ := List.mem_iff_get.mp h
  have hi2 : (i : Nat) < l2.length := by
    have := i.2
    omega
  have hiz : (i : Nat) < (l1.zip l2).length := by
    rw [List.length_zip]
    have := i.2
    omega
  refine ⟨l2.get ⟨i, hi2⟩, ?_⟩
  have hzg : (l1.zip l2).get ⟨(i : Nat), hiz⟩ =
      (l1.get ⟨(i : Nat), i.2⟩, l2.get ⟨(i : Nat), hi2⟩) := List.get_zip
  rw [← hget]
  rw [show l1.get i = l1.get ⟨(i : Nat), i.2⟩ from rfl]
  rw [← hzg]
  exact List.get_mem _ _ _

theorem zip_snd_inj {α β : Type} {l1 : List α} {l2 : List β}
    (hnd : l2.Nodup) {a1 a2 : α} {b : β}
    (h1 : (a1, b) ∈ l1.zip l2) (h2 : (a2, b) ∈ l1.zip l2) : a1 = a2 := by
  obtain ⟨i, hgi⟩ := List.mem_iff_get.mp h1
  obtain ⟨j, hgj⟩ := List.mem_iff_get.mp h2
  have hle1 : (l1.zip l2).length ≤ l1.length := by
    rw [List.length_zip]
    omega
  have hle2 : (l1.zip l2).length ≤ l2.length := by
    rw [List.length_zip]
    omega
  have hi1 : (i : Nat) < l1.length := lt_of_lt_of_le i.2 hle1
  have hi2 : (i : Nat) < l2.length := lt_of_lt_of_le i.2 hle2
  have hj1 : (j : Nat) < l1.length := lt_of_lt_of_le j.2 hle1
  have hj2 : (j : Nat) < l2.length := lt_of_lt_of_le j.2 hle2
  have hzi : (l1.zip l2).get i = (l1.get ⟨(i : Nat), hi1⟩,
      l2.get ⟨(i : Nat), hi2⟩) := List.get_zip
  have hzj : (l1.zip l2).get j = (l1.get ⟨(j : Nat), hj1⟩,
      l2.get ⟨(j : Nat), hj2⟩) := List.get_zip
  rw [hzi] at hgi
  rw [hzj] at hgj
  injection hgi with hgi1 hgi2
  injection hgj with hgj1 hgj2
  have hij : (i : Nat) = (j : Nat) := by
    have hb : l2.get ⟨(i : Nat), hi2⟩ = l2.get ⟨(j : Nat), hj2⟩ := by
      rw [hgi2, hgj2]
    have h3 := List.Nodup.get_inj_iff hnd |>.mp hb
    injection h3
  rw [← hgi1, ← hgj1]
  congr 1
  apply Fin.ext
  exact hij

theorem selRestore_spec :
    ∀ (ns : List UId) (t : GraphState),
      ns.Nodup →
      (∀ nid ∈ ns, (lookupA t.nodes nid).isSome = true) →
      (∀ nid ∈ ns, nid ∉ t.selectedNodes) →
      ns.foldl (fun s2 nid => selectNode s2 nid true "add") t =
        { t with selectedNodes := t.selectedNodes ++ ns } := by
  intro ns
  induction ns with
  | nil =>
    intro t _ _ _
    rw [List.foldl_nil, List.append_nil]
  | cons nid ns ih =>
    intro t hnd hlook hnotin
    rw [List.foldl_cons]
    have hstep : selectNode t nid true "add" =
        { t with selectedNodes := t.selectedNodes ++ [nid] } := by
      unfold selectNode
      obtain ⟨n, hn⟩ := Option.isSome_iff_exists.mp
        (hlook nid (List.mem_cons_self nid ns))
      rw [hn]
      simp only [if_true, eq_self_iff_true, if_pos]
      show { t with selectedNodes := selAdd t.selectedNodes nid } = _
      unfold selAdd
      rw [if_neg (hnotin nid (List.mem_cons_self nid ns))]
    rw [hstep]
    rw [ih { t with selectedNodes := t.selectedNodes ++ [nid] }
      (List.nodup_cons.mp hnd).2
      (fun a ha => hlook a (List.mem_cons_of_mem nid ha))
      (by
        intro a ha hc
        have hc2 : a ∈ t.selectedNodes ++ [nid] := hc
        rcases List.mem_append.mp hc2 with h1 | h1
        · exact hnotin a (List.mem_cons_of_mem nid ha) h1
        · rw [List.mem_singleton] at h1
          rw [h1] at ha
          exact (List.nodup_cons.mp hnd).1 ha)]
    show { t with selectedNodes := (t.selectedNodes ++ [nid]) ++ ns } = _
    rw [List.append_assoc, List.singleton_append]

theorem findPinById_eval (s1 : GraphState) (nidX : UId) (locX : String)
    (n2 : Node) (h : lookupA s1.nodes nidX = some n2) :
    findPinById s1 (some ⟨nidX, locX⟩) =
      nodeFindPinById s1 n2 ⟨nidX, locX⟩ := by
  unfold findPinById
  simp only []
  rw [h]

set_option maxHeartbeats 2000000 in
/-- C6 (amended): on a well-formed reachable state whose selection is
non-empty and contains no singleton-keyed node, `duplicateSelectedNodes`
succeeds and produces exactly N new nodes (N the selection size, fresh
ids appended to the node collection), replaces the selection with the N
new nodes, leaves every pre-existing link — in particular each link
crossing the selection boundary — unchanged and un-duplicated, and adds
exactly M new links, M the number of selection-internal links, whose
endpoints are the corresponding new pins: the pins with the same local
ids on the copies of the original endpoint nodes. -/
theorem duplicateSelectedNodes_spec (cat : Catalog) (s : GraphState)
    (hwf : WF cat s = true) (hlt : linkTypesWF cat s = true)
    (hcap : maxLinksWF s = true)
    (hsf : selectionSingletonFree cat s = true)
    (hne : s.selectedNodes ≠ []) :
    ∃ s2 newSel newLinks,
      duplicateSelectedNodes cat s = some s2 ∧
      s2.nodes.map Prod.fst = s.nodes.map Prod.fst ++ newSel ∧
      newSel.length = s.selectedNodes.length ∧
      (∀ nid ∈ newSel, nid ∉ s.nodes.map Prod.fst) ∧
      s2.selectedNodes = newSel ∧
      s2.links = s.links ++ newLinks ∧
      newLinks.length = (internalLinks s).length ∧
      newLinks.map (fun kl =>
        (pinIdAt s2 kl.2.startPin, pinIdAt s2 kl.2.endPin)) =
        (internalLinks s).map (fun l =>
          ((pinIdAt s l.startPin).bind
            (dupPinId (s.selectedNodes.zip newSel)),
           (pinIdAt s l.endPin).bind
            (dupPinId (s.selectedNodes.zip newSel)))) := by
  obtain ⟨s1, m2, ns2, hfold, hlen, hnd2, hrange, hkeys1, hlinks1, hsel1,
      hselL1, hcnt1, hlook1, hpres1, hbnd1, hheapb1, -, hcerts⟩ :=
    dupFold_spec cat s hwf hsf s.selectedNodes s [] []
      (fun _ h => h) (wf_selNodup hwf)
      (fun _ _ h => h) (fun _ _ h => h)
      (wf_nodeIdsFresh hwf) (wf_heapBound hwf)
      (fun _ hne2 => absurd rfl hne2)
  rw [List.nil_append] at hfold
  have hmapkeys : (s.selectedNodes.zip ns2).map Prod.fst =
      s.selectedNodes :=
    List.map_fst_zip _ _ (le_of_eq hlen.symm)
  have hlookmap : ∀ nid ∈ s.selectedNodes, ∃ newN,
      lookupA (s.selectedNodes.zip ns2) nid = some newN ∧
      (nid, newN) ∈ s.selectedNodes.zip ns2 := by
    intro nid h
    obtain ⟨b, hb⟩ := mem_zip_of_mem_left h hlen.symm
    refine ⟨b, ?_, hb⟩
    refine lookupA_of_mem_nodup hb ?_
    rw [hmapkeys]
    exact wf_selNodup hwf
  have hinj : ∀ a1 a2 b, lookupA (s.selectedNodes.zip ns2) a1 = some b →
      lookupA (s.selectedNodes.zip ns2) a2 = some b → a1 = a2 := by
    intro a1 a2 b h1 h2
    exact zip_snd_inj hnd2 (mem_of_lookupA h1) (mem_of_lookupA h2)
  have hres0 : ∀ x p, x ∈ liveRefs s → heapGet s x = some p →
      p.id.node ∈ s.selectedNodes →
      ∃ newN r2 p2,
        lookupA (s.selectedNodes.zip ns2) p.id.node = some newN ∧
        findPinById s1 (some ⟨newN, p.id.loc⟩) = some r2 ∧
        lookupA m2 p.id = some ⟨newN, p.id.loc⟩ ∧
        heapGet s1 r2 = some p2 ∧ p2.id = ⟨newN, p.id.loc⟩ ∧
        p2.dir = p.dir ∧ p2.ty = p.ty ∧ p2.links = [] := by
    intro x p hlive hg hselp
    have hpid : pinIdAt s x = some p.id := by
      unfold pinIdAt
      rw [hg]
      rfl
    obtain ⟨node, hlook, hxin⟩ := wf_ref_node hwf hlive hpid
    obtain ⟨newN, hlookN, hmemN⟩ := hlookmap p.id.node hselp
    obtain ⟨n, n2, hn, hn2, hlive2, hpins⟩ := hcerts (p.id.node, newN) hmemN
    have hn' : lookupA s.nodes p.id.node = some n := hn
    have hneq : n = node := by
      rw [hn'] at hlook
      injection hlook
    rw [hneq] at hpins
    obtain ⟨hmfact, r2, p2, hfind, hget, hid, hdir, hty, hlinksE⟩ :=
      hpins x p hxin hg
    have hn2' : lookupA s1.nodes newN = some n2 := hn2
    have hmfact' : lookupA m2 p.id = some ⟨newN, p.id.loc⟩ := hmfact
    have hfind' : nodeFindPinById s1 n2 ⟨newN, p.id.loc⟩ = some r2 := hfind
    have hid' : p2.id = ⟨newN, p.id.loc⟩ := hid
    refine ⟨newN, r2, p2, hlookN, ?_, hmfact', hget, hid', hdir, hty,
      hlinksE⟩
    rw [findPinById_eval s1 newN p.id.loc n2 hn2']
    exact hfind'
  have hlv : linkVals s1 = linkVals s := by
    unfold linkVals
    rw [hlinks1]
  have hLmem0 : ∀ l ∈ linkVals s1, ∃ k, (k, l) ∈ s.links := by
    intro l h
    rw [hlv] at h
    exact linkVals_mem h
  have hLnd0 : ((linkVals s1).map Link.id).Nodup := by
    rw [hlv]
    exact linkVals_ids_nodup hwf
  have hbound0 : ∀ kl ∈ s1.links, kl.1.num < s1.counter := by
    intro kl h
    rw [hlinks1] at h
    have := wf_linkIdsFresh hwf kl h
    omega
  have hcapinv0 : ∀ l ∈ linkVals s1, isInternal s1 l = true →
      ∀ pe, heapGet s l.endPin = some pe → getMaxLinksIsOne pe = true →
      ∀ newN r2e q, lookupA (s.selectedNodes.zip ns2) pe.id.node = some newN →
        findPinById s1 (some ⟨newN, pe.id.loc⟩) = some r2e →
        heapGet s1 r2e = some q → q.links = [] := by
    intro l hl hint pe hpe hmax newN r2e q hmapE hfindE hgq
    obtain ⟨k, hkl⟩ := hLmem0 l hl
    obtain ⟨-, ⟨-, ps', hps', -, -⟩, ⟨hliveE, pe', hpe', -, -⟩⟩ :=
      linkWF_unpack (wf_linkWF hwf (k, l) hkl)
    have hpe'eq : pe' = pe := by
      have hcopy := hpe
      rw [hpe'] at hcopy
      injection hcopy
    subst hpe'eq
    have hselE : pe'.id.node ∈ s.selectedNodes := by
      have h2 := (isInternal_unpack hint (hpres1 _ _ hps')
        (hpres1 _ _ hpe')).2
      rwa [hsel1] at h2
    obtain ⟨newN', r2', p2', hlookN', hfind', hm', hget', hid', hdir',
      hty', hlinks'⟩ := hres0 l.endPin pe' hliveE hpe' hselE
    have hnewNeq : newN = newN' := by
      have hcopy := hmapE
      rw [hlookN'] at hcopy
      injection hcopy with h
      exact h.symm
    subst hnewNeq
    have hreq : r2e = r2' := by
      have hcopy := hfindE
      rw [hfind'] at hcopy
      injection hcopy with h
      exact h.symm
    subst hreq
    have hqeq : q = p2' := by
      have hcopy := hgq
      rw [hget'] at hcopy
      injection hcopy with h
      exact h.symm
    rw [hqeq]
    exact hlinks'
  obtain ⟨hFn, hFsel, hFselL, hFpin, hFcnt, hFbnd, NL, hNLl, hNLm⟩ :=
    dupLinkFold_spec cat s s1 m2 (s.selectedNodes.zip ns2) hwf hlt hcap
      hsel1 hpres1
      (by
        intro x p h1 h2 h3
        obtain ⟨newN, r2, p2, a1, a2, a3, a4, a5, a6, a7, -⟩ :=
          hres0 x p h1 h2 h3
        exact ⟨newN, r2, p2, a1, a2, a3, a4, a5, a6, a7⟩)
      hinj (linkVals s1) s1 hLmem0 hLnd0 rfl rfl (fun _ => rfl) hbound0
      hcapinv0 (fun r q h => ⟨q, h, rfl, rfl, rfl⟩)
  set F := (linkVals s1).foldl (dupLinkStep cat m2) s1 with hFdef
  have hSEL := selRestore_spec ns2 (clearSelection (clearLinkSelection F))
    hnd2
    (by
      intro nid h
      have hkey : nid ∈ s1.nodes.map Prod.fst := by
        rw [hkeys1]
        exact List.mem_append_right _ h
      refine lookupA_isSome_iff.mpr ?_
      show nid ∈ F.nodes.map Prod.fst
      rw [hFn]
      exact hkey)
    (fun nid _ => List.not_mem_nil nid)
  have hdup : duplicateSelectedNodes cat s =
      some { ns2.foldl (fun s2 nid => selectNode s2 nid true "add")
          (clearSelection (clearLinkSelection F)) with
        saveCount := (ns2.foldl (fun s2 nid => selectNode s2 nid true "add")
          (clearSelection (clearLinkSelection F))).saveCount + 1 } := by
    unfold duplicateSelectedNodes
    rw [if_neg hne, hfold]
  rw [hSEL] at hdup
  have hfilter : (linkVals s1).filter (isInternal s1) = internalLinks s := by
    unfold internalLinks
    rw [hlv]
    apply List.filter_congr
    intro l hl
    obtain ⟨k, hkl⟩ := linkVals_mem hl
    obtain ⟨-, ⟨-, ps, hps, -, -⟩, ⟨-, pe, hpe, -, -⟩⟩ :=
      linkWF_unpack (wf_linkWF hwf (k, l) hkl)
    unfold isInternal
    rw [pinNodeId_map, pinNodeId_map, pinNodeId_map, pinNodeId_map]
    have h1 : pinIdAt s1 l.startPin = pinIdAt s l.startPin := by
      unfold pinIdAt
      rw [hps, hpres1 _ _ hps]
    have h2 : pinIdAt s1 l.endPin = pinIdAt s l.endPin := by
      unfold pinIdAt
      rw [hpe, hpres1 _ _ hpe]
    rw [h1, h2, hsel1]
  refine ⟨_, ns2, NL, hdup, ?_, hlen, ?_, ?_, ?_, ?_, ?_⟩
  · show F.nodes.map Prod.fst = s.nodes.map Prod.fst ++ ns2
    rw [hFn]
    exact hkeys1
  · intro nid h
    intro hc
    obtain ⟨kn, hkn, hfst⟩ := List.mem_map.mp hc
    have h1 := wf_nodeIdsFresh hwf kn hkn
    have h2 := (hrange nid h).1
    rw [hfst] at h1
    omega
  · show (clearSelection (clearLinkSelection F)).selectedNodes ++ ns2 = ns2
    show ([] : List UId) ++ ns2 = ns2
    exact List.nil_append ns2
  · show F.links = s.links ++ NL
    rw [hNLl, hlinks1]
  · have h1 := congrArg List.length hNLm
    rw [List.length_map, List.length_map, hfilter] at h1
    exact h1
  · refine Eq.trans hNLm ?_
    rw [hfilter]
    apply List.map_congr_left
    intro l hl
    have hl2 : l ∈ linkVals s := by
      unfold internalLinks at hl
      exact List.mem_of_mem_filter hl
    have hint : isInternal s l = true := by
      unfold internalLinks at hl
      exact List.of_mem_filter hl
    obtain ⟨k, hkl⟩ := linkVals_mem hl2
    obtain ⟨-, ⟨hliveS, ps, hps, -, -⟩, ⟨hliveE, pe, hpe, -, -⟩⟩ :=
      linkWF_unpack (wf_linkWF hwf (k, l) hkl)
    obtain ⟨hselS, hselE⟩ := isInternal_unpack hint hps hpe
    obtain ⟨newS, rs2, p2s, hlookS, hfindS, hmS, hgS, hidS, -, -, -⟩ :=
      hres0 l.startPin ps hliveS hps hselS
    obtain ⟨newE, re2, p2e, hlookE, hfindE, hmE, hgE, hidE, -, -, -⟩ :=
      hres0 l.endPin pe hliveE hpe hselE
    have hsp1 : pinIdAt s l.startPin = some ps.id := by
      unfold pinIdAt
      rw [hps]
      rfl
    have hsp2 : pinIdAt s l.endPin = some pe.id := by
      unfold pinIdAt
      rw [hpe]
      rfl
    rw [hsp1, hsp2, Option.some_bind, Option.some_bind,
      Option.some_bind, Option.some_bind, hmS, hmE]
    unfold dupPinId
    rw [hlookS, hlookE, Option.map_some', Option.map_some']

/-- Two wired `A` nodes with both nodes selected, ready to duplicate. -/
def wDup : GraphState :=
  selectNode (selectNode wS3 ⟨"node", 0⟩ false "new") ⟨"node", 1⟩ true "add"

/-- The duplication specification instantiated on the two-node, one-link
world with the whole graph selected: the side conditions hold by
evaluation and the run adds two nodes and one internal link. -/
theorem duplicateSelectedNodes_spec_witness :
    WF wCat wDup = true ∧ linkTypesWF wCat wDup = true ∧
    maxLinksWF wDup = true ∧ selectionSingletonFree wCat wDup = true ∧
    wDup.selectedNodes ≠ [] ∧
    (∃ s2 newSel newLinks,
      duplicateSelectedNodes wCat wDup = some s2 ∧
      s2.nodes.map Prod.fst = wDup.nodes.map Prod.fst ++ newSel ∧
      newSel.length = wDup.selectedNodes.length ∧
      (∀ nid ∈ newSel, nid ∉ wDup.nodes.map Prod.fst) ∧
      s2.selectedNodes = newSel ∧
      s2.links = wDup.links ++ newLinks ∧
      newLinks.length = (internalLinks wDup).length ∧
      newLinks.map (fun kl =>
        (pinIdAt s2 kl.2.startPin, pinIdAt s2 kl.2.endPin)) =
        (internalLinks wDup).map (fun l =>
          ((pinIdAt wDup l.startPin).bind
            (dupPinId (wDup.selectedNodes.zip newSel)),
           (pinIdAt wDup l.endPin).bind
            (dupPinId (wDup.selectedNodes.zip newSel))))) :=
  ⟨by decide, by decide, by decide, by decide, by decide,
    duplicateSelectedNodes_spec wCat wDup (by decide) (by decide)
      (by decide) (by decide) (by decide)⟩

end VG
